import Mathlib

/-!
# Verification of `Coupled-Cluster/helper_CC.py`

A shallow embedding of the `ndot` labeled-tensor contraction dispatcher and of
the `helper_CCSD` amplitude engine, together with proofs about the spec's
claims.

Dense numpy arrays are modelled as row-major flat data (`Tensor` below) over
exact rationals (the idealization of IEEE doubles: the algebraic identities
claimed "to floating-point tolerance" are proved exactly over `ℚ`).
-/

namespace HelperCC

/-! ## Row-major multi-index infrastructure -/

/-- Row-major flat index of the multi-index `idx` in a tensor of shape
`shape` (numpy C-order). Junk on malformed input is irrelevant: every use is
guarded by `ValidIdx`. -/
def flatIdx : List ℕ → List ℕ → ℕ
  | _, [] => 0
  | [], _ :: _ => 0
  | _ :: ss, i :: is => i * (List.prod ss) + flatIdx ss is

/-- Inverse of `flatIdx`: split the flat position `n` into the row-major
multi-index for `shape`. -/
def unflat : List ℕ → ℕ → List ℕ
  | [], _ => []
  | _ :: ss, n => (n / List.prod ss) :: unflat ss (n % List.prod ss)

/-- `idx` is in range for `shape`: same rank, each coordinate below its
extent. -/
def ValidIdx (shape idx : List ℕ) : Prop :=
  idx.length = shape.length ∧ ∀ p ∈ List.zip idx shape, p.1 < p.2

instance (shape idx : List ℕ) : Decidable (ValidIdx shape idx) := by
  unfold ValidIdx; infer_instance

theorem validIdx_nil : ValidIdx [] [] := by constructor <;> simp

theorem validIdx_cons {s i : ℕ} {ss is : List ℕ} :
    ValidIdx (s :: ss) (i :: is) ↔ i < s ∧ ValidIdx ss is := by
  constructor
  · rintro ⟨hlen, hall⟩
    refine ⟨hall (i, s) (by simp [List.zip]), ?_, ?_⟩
    · simpa using hlen
    · intro p hp; exact hall p (by simp [List.zip_cons_cons]; right; simpa [List.zip] using hp)
  · rintro ⟨hi, hlen, hall⟩
    refine ⟨by simpa using hlen, ?_⟩
    intro p hp
    simp only [List.zip_cons_cons, List.mem_cons] at hp
    rcases hp with h | h
    · simpa [h] using hi
    · exact hall p h

theorem flatIdx_lt {shape idx : List ℕ} (h : ValidIdx shape idx) :
    flatIdx shape idx < shape.prod := by
  induction shape generalizing idx with
  | nil =>
    rcases h with ⟨hlen, -⟩
    have : idx = [] := List.eq_nil_of_length_eq_zero (by simpa using hlen)
    subst this; simp [flatIdx]
  | cons s ss ih =>
    rcases idx with - | ⟨i, is⟩
    · rcases h with ⟨hlen, -⟩; simp at hlen
    · rcases validIdx_cons.mp h with ⟨hi, hrest⟩
      have hlt := ih hrest
      have : i * ss.prod + flatIdx ss is < (i + 1) * ss.prod := by
        simpa [Nat.succ_mul] using Nat.add_lt_add_left hlt (i * ss.prod)
      calc flatIdx (s :: ss) (i :: is) = i * ss.prod + flatIdx ss is := rfl
        _ < (i + 1) * ss.prod := this
        _ ≤ s * ss.prod := Nat.mul_le_mul_right _ hi
        _ = (s :: ss).prod := by simp

theorem unflat_flatIdx {shape idx : List ℕ} (h : ValidIdx shape idx) :
    unflat shape (flatIdx shape idx) = idx := by
  induction shape generalizing idx with
  | nil =>
    rcases h with ⟨hlen, -⟩
    have : idx = [] := List.eq_nil_of_length_eq_zero (by simpa using hlen)
    subst this; simp [unflat]
  | cons s ss ih =>
    rcases idx with - | ⟨i, is⟩
    · rcases h with ⟨hlen, -⟩; simp at hlen
    · rcases validIdx_cons.mp h with ⟨hi, hrest⟩
      have hlt := flatIdx_lt hrest
      have hP : 0 < ss.prod := Nat.pos_of_ne_zero (by
        intro h0; rw [h0] at hlt; exact Nat.not_lt_zero _ hlt)
      have hdiv : (i * ss.prod + flatIdx ss is) / ss.prod = i := by
        rw [Nat.add_comm, Nat.add_mul_div_right _ _ hP, Nat.div_eq_of_lt hlt]; omega
      have hmod : (i * ss.prod + flatIdx ss is) % ss.prod = flatIdx ss is := by
        rw [Nat.add_comm, Nat.add_mul_mod_self_right, Nat.mod_eq_of_lt hlt]
      simp [flatIdx, unflat, hdiv, hmod, ih hrest]

theorem validIdx_unflat {shape : List ℕ} {n : ℕ} (h : n < shape.prod) :
    ValidIdx shape (unflat shape n) := by
  induction shape generalizing n with
  | nil => simpa [unflat] using validIdx_nil
  | cons s ss ih =>
    have hP : 0 < ss.prod := by
      rcases Nat.eq_zero_or_pos ss.prod with h0 | h0
      · simp [h0] at h
      · exact h0
    refine validIdx_cons.mpr ⟨?_, ih (Nat.mod_lt _ hP)⟩
    have : n < s * ss.prod := by simpa using h
    exact Nat.div_lt_of_lt_mul (by rwa [Nat.mul_comm] at this)

theorem flatIdx_unflat {shape : List ℕ} {n : ℕ} (h : n < shape.prod) :
    flatIdx shape (unflat shape n) = n := by
  induction shape generalizing n with
  | nil => simp at h; simp [unflat, flatIdx, h]
  | cons s ss ih =>
    have hP : 0 < ss.prod := by
      rcases Nat.eq_zero_or_pos ss.prod with h0 | h0
      · simp [h0] at h
      · exact h0
    simp only [unflat, flatIdx]
    rw [ih (Nat.mod_lt _ hP)]
    exact Nat.div_add_mod' n ss.prod

theorem flatIdx_append {s₁ s₂ i₁ i₂ : List ℕ} (hlen : i₁.length = s₁.length) :
    flatIdx (s₁ ++ s₂) (i₁ ++ i₂) = flatIdx s₁ i₁ * s₂.prod + flatIdx s₂ i₂ := by
  induction s₁ generalizing i₁ with
  | nil =>
    have : i₁ = [] := List.eq_nil_of_length_eq_zero (by simpa using hlen)
    subst this; simp [flatIdx]
  | cons s ss ih =>
    rcases i₁ with - | ⟨i, is⟩
    · simp at hlen
    · have := @ih is (by simpa using hlen)
      simp only [List.cons_append, flatIdx, this, List.append_eq, List.prod_append]
      ring

theorem validIdx_append {s₁ s₂ i₁ i₂ : List ℕ}
    (h₁ : ValidIdx s₁ i₁) (h₂ : ValidIdx s₂ i₂) :
    ValidIdx (s₁ ++ s₂) (i₁ ++ i₂) := by
  rcases h₁ with ⟨hl₁, ha₁⟩; rcases h₂ with ⟨hl₂, ha₂⟩
  refine ⟨by simp [hl₁, hl₂], ?_⟩
  intro p hp
  rw [List.zip_append (by omega)] at hp
  rcases List.mem_append.mp hp with h | h
  · exact ha₁ p h
  · exact ha₂ p h

/-! ## Sums over flat ranges and over multi-indices -/

theorem sum_range_mul (a b : ℕ) (f : ℕ → ℚ) :
    ∑ n ∈ Finset.range (a * b), f n =
      ∑ i ∈ Finset.range a, ∑ j ∈ Finset.range b, f (i * b + j) := by
  rcases Nat.eq_zero_or_pos b with hb | hb
  · simp [hb]
  rw [← Finset.sum_product']
  refine Finset.sum_nbij' (fun n => (n / b, n % b)) (fun p => p.1 * b + p.2) ?_ ?_ ?_ ?_ ?_
  · intro n hn
    simp only [Finset.mem_range] at hn
    simp only [Finset.mem_product, Finset.mem_range]
    exact ⟨Nat.div_lt_of_lt_mul (by rwa [Nat.mul_comm] at hn), Nat.mod_lt _ hb⟩
  · intro p hp
    simp only [Finset.mem_product, Finset.mem_range] at hp
    simp only [Finset.mem_range]
    calc p.1 * b + p.2 < p.1 * b + b := Nat.add_lt_add_left hp.2 _
      _ = (p.1 + 1) * b := by ring
      _ ≤ a * b := Nat.mul_le_mul_right _ hp.1
  · intro n _; exact Nat.div_add_mod' n b
  · intro p hp
    simp only [Finset.mem_product, Finset.mem_range] at hp
    have h1 : (p.1 * b + p.2) / b = p.1 := by
      rw [Nat.add_comm, Nat.add_mul_div_right _ _ hb, Nat.div_eq_of_lt hp.2]; omega
    have h2 : (p.1 * b + p.2) % b = p.2 := by
      rw [Nat.add_comm, Nat.add_mul_mod_self_right, Nat.mod_eq_of_lt hp.2]
    simp [h1, h2]
  · intro n _; exact (congrArg f (Nat.div_add_mod' n b)).symm

/-- Nested sum over all valid row-major multi-indices of `shape`. -/
def multiSum : List ℕ → (List ℕ → ℚ) → ℚ
  | [], g => g []
  | s :: ss, g => ∑ i ∈ Finset.range s, multiSum ss (fun is => g (i :: is))

theorem multiSum_eq_sum_range (shape : List ℕ) (g : List ℕ → ℚ) :
    multiSum shape g = ∑ n ∈ Finset.range shape.prod, g (unflat shape n) := by
  induction shape generalizing g with
  | nil => simp [multiSum, unflat]
  | cons s ss ih =>
    simp only [multiSum, List.prod_cons, ih]
    rw [sum_range_mul]
    refine Finset.sum_congr rfl fun i hi => Finset.sum_congr rfl fun j hj => ?_
    simp only [Finset.mem_range] at hi hj
    have hP : 0 < ss.prod := Nat.pos_of_ne_zero (by intro h0; rw [h0] at hj; omega)
    have hdiv : (i * ss.prod + j) / ss.prod = i := by
      rw [Nat.add_comm, Nat.add_mul_div_right _ _ hP, Nat.div_eq_of_lt hj]; omega
    have hmod : (i * ss.prod + j) % ss.prod = j := by
      rw [Nat.add_comm, Nat.add_mul_mod_self_right, Nat.mod_eq_of_lt hj]
    simp [unflat, hdiv, hmod]

theorem multiSum_congr {shape : List ℕ} {g g' : List ℕ → ℚ}
    (h : ∀ idx, ValidIdx shape idx → g idx = g' idx) :
    multiSum shape g = multiSum shape g' := by
  induction shape generalizing g g' with
  | nil => exact h [] validIdx_nil
  | cons s ss ih =>
    refine Finset.sum_congr rfl fun i hi => ih fun idx hidx => ?_
    exact h (i :: idx) (validIdx_cons.mpr ⟨Finset.mem_range.mp hi, hidx⟩)

/-! ## Tensors: dense numpy arrays as row-major flat data -/

/-- A dense array: a shape together with its flat row-major contents.
`data` is total (junk past `shape.prod`); all statements are about valid
indices. -/
structure Tensor where
  shape : List ℕ
  data : ℕ → ℚ

/-- Element at a multi-index (numpy `T[i0, i1, ...]`). -/
def Tensor.entry (T : Tensor) (idx : List ℕ) : ℚ := T.data (flatIdx T.shape idx)

/-- Extensional equality of tensors: same shape, same contents at every
in-range flat position. -/
def Tensor.Eqv (A B : Tensor) : Prop :=
  A.shape = B.shape ∧ ∀ n ∈ Finset.range A.shape.prod, A.data n = B.data n

instance (A B : Tensor) : Decidable (A.Eqv B) := by unfold Tensor.Eqv; infer_instance

theorem Tensor.Eqv.entry_eq {A B : Tensor} (h : A.Eqv B) {idx : List ℕ}
    (hidx : ValidIdx A.shape idx) : A.entry idx = B.entry idx := by
  rcases h with ⟨hs, hd⟩
  have := hd (flatIdx A.shape idx) (Finset.mem_range.mpr (flatIdx_lt hidx))
  simpa [Tensor.entry, hs] using this

theorem Tensor.eqv_of_entry_eq {A B : Tensor} (hs : A.shape = B.shape)
    (h : ∀ idx, ValidIdx A.shape idx → A.entry idx = B.entry idx) : A.Eqv B := by
  refine ⟨hs, fun n hn => ?_⟩
  have hnlt := Finset.mem_range.mp hn
  have h2 := h _ (validIdx_unflat hnlt)
  simp only [Tensor.entry, ← hs] at h2
  rwa [flatIdx_unflat hnlt] at h2

/-! ### numpy primitives used by `helper_CC.py`

Each primitive mirrors the numpy operation the source calls. Operations that
numpy rejects at runtime (incompatible `reshape`, misaligned `dot`,
mismatched `tensordot` axes) return `none`, modelling the raised exception. -/

/-- `T.reshape(newshape)`: row-major data unchanged; numpy raises unless the
element counts agree. -/
def reshapeT (T : Tensor) (s : List ℕ) : Option Tensor :=
  if s.prod = T.shape.prod then some ⟨s, T.data⟩ else none

/-- `M.T` for a 2-D array. -/
def transpose2 (T : Tensor) : Option Tensor :=
  match T.shape with
  | [r, c] => some ⟨[c, r], fun n => T.data ((n % r) * c + n / r)⟩
  | _ => none

/-- `np.dot` for 2-D operands. -/
def dot2 (A B : Tensor) : Option Tensor :=
  match A.shape, B.shape with
  | [m, k], [k', n] =>
    if k = k' then
      some ⟨[m, n], fun f =>
        ∑ t ∈ Finset.range k, A.data ((f / n) * k + t) * B.data (t * n + f % n)⟩
    else none
  | _, _ => none

/-- `np.transpose(T, perm)`: axis `t` of the result is axis `perm[t]` of the
input. -/
def permuteAxes (perm : List ℕ) (T : Tensor) : Tensor :=
  let shape' := perm.map (fun p => T.shape.getD p 0)
  ⟨shape', fun n =>
    let idx := unflat shape' n
    T.entry ((List.range T.shape.length).map (fun p => idx.getD (List.indexOf p perm) 0))⟩

/-- `np.squeeze`: drop all extent-1 axes (row-major data unchanged). -/
def squeezeT (T : Tensor) : Tensor := ⟨T.shape.filter (· ≠ 1), T.data⟩

/-- `new_view *= prefactor` (elementwise in-place scale). -/
def scaleT (p : ℚ) (T : Tensor) : Tensor := ⟨T.shape, fun n => T.data n * p⟩

/-- Elementwise `A + B` of same-shape arrays (no broadcasting needed in the
source's uses). -/
def addT (A B : Tensor) : Tensor := ⟨A.shape, fun n => A.data n + B.data n⟩

/-- Elementwise `A - B` of same-shape arrays. -/
def subT (A B : Tensor) : Tensor := ⟨A.shape, fun n => A.data n - B.data n⟩

/-- Elementwise `A / B` of same-shape arrays (exact division on `ℚ`). -/
def divT (A B : Tensor) : Tensor := ⟨A.shape, fun n => A.data n / B.data n⟩

/-- `c * T` (scalar times array, e.g. `0.5 * self.t2`). -/
def smulT (c : ℚ) (T : Tensor) : Tensor := ⟨T.shape, fun n => c * T.data n⟩

/-- `T.swapaxes(p, q)`. -/
def swapAxesT (p q : ℕ) (T : Tensor) : Tensor :=
  let shape' := (T.shape.set p (T.shape.getD q 0)).set q (T.shape.getD p 0)
  ⟨shape', fun n =>
    let idx := unflat shape' n
    T.entry ((idx.set p (idx.getD q 0)).set q (idx.getD p 0))⟩

/-- Basic slicing `T[a0:b0, a1:b1, ...]` given per-axis `(offset, extent)`
pairs (a view; we materialize the values). -/
def sliceT (T : Tensor) (sp : List (ℕ × ℕ)) : Tensor :=
  ⟨sp.map Prod.snd, fun n =>
    T.entry (List.zipWith (fun p i => p.1 + i) sp (unflat (sp.map Prod.snd) n))⟩

/-- `M[np.diag_indices_from(M)] = 0` on a square 2-D array. -/
def zeroDiag2 (T : Tensor) : Tensor :=
  match T.shape with
  | [_, c] => ⟨T.shape, fun n => if n / c = n % c then 0 else T.data n⟩
  | _ => T

/-! ### Entry-level characterizations of the primitives -/

theorem reshapeT_entry {T T' : Tensor} {s : List ℕ}
    (h : reshapeT T s = some T') : T'.shape = s ∧ T'.data = T.data := by
  unfold reshapeT at h
  by_cases hc : s.prod = T.shape.prod
  · simp [hc] at h; exact ⟨by rw [← h], by rw [← h]⟩
  · simp [hc] at h

theorem dot2_entry {A B C : Tensor} {m k n : ℕ}
    (hA : A.shape = [m, k]) (hB : B.shape = [k, n])
    (h : dot2 A B = some C) :
    C.shape = [m, n] ∧ ∀ i j, i < m → j < n →
      C.entry [i, j] = ∑ t ∈ Finset.range k, A.entry [i, t] * B.entry [t, j] := by
  unfold dot2 at h
  rw [hA, hB] at h
  simp only [eq_self_iff_true, if_true, Option.some.injEq] at h
  subst h
  constructor
  · rfl
  · intro i j hi hj
    have hf : flatIdx [m, n] [i, j] = i * n + j := by simp [flatIdx]
    have hdiv : (i * n + j) / n = i := by
      rw [Nat.add_comm, Nat.add_mul_div_right _ _ (by omega), Nat.div_eq_of_lt hj]; omega
    have hmod : (i * n + j) % n = j := by
      rw [Nat.add_comm, Nat.add_mul_mod_self_right, Nat.mod_eq_of_lt hj]
    simp only [Tensor.entry, hA, hB, hf, hdiv, hmod]
    refine Finset.sum_congr rfl fun t ht => ?_
    have h1 : flatIdx [m, k] [i, t] = i * k + t := by simp [flatIdx]
    have h2 : flatIdx [k, n] [t, j] = t * n + j := by simp [flatIdx]
    rw [h1, h2]

theorem transpose2_entry {T T' : Tensor} {r c : ℕ} (hT : T.shape = [r, c])
    (h : transpose2 T = some T') :
    T'.shape = [c, r] ∧ ∀ i j, i < c → j < r → T'.entry [i, j] = T.entry [j, i] := by
  unfold transpose2 at h
  rw [hT] at h
  simp only [Option.some.injEq] at h
  subst h
  refine ⟨rfl, fun i j hi hj => ?_⟩
  have hf : flatIdx [c, r] [i, j] = i * r + j := by simp [flatIdx]
  have hdiv : (i * r + j) / r = i := by
    rw [Nat.add_comm, Nat.add_mul_div_right _ _ (by omega), Nat.div_eq_of_lt hj]; omega
  have hmod : (i * r + j) % r = j := by
    rw [Nat.add_comm, Nat.add_mul_mod_self_right, Nat.mod_eq_of_lt hj]
  have hg : flatIdx [r, c] [j, i] = j * c + i := by simp [flatIdx]
  simp only [Tensor.entry, hf, hdiv, hmod, hT, hg]

theorem sliceT_entry (T : Tensor) (sp : List (ℕ × ℕ)) {idx : List ℕ}
    (hidx : ValidIdx (sp.map Prod.snd) idx) :
    (sliceT T sp).entry idx =
      T.entry (List.zipWith (fun p i => p.1 + i) sp idx) := by
  simp only [sliceT, Tensor.entry]
  rw [unflat_flatIdx hidx]

theorem sliceT_shape (T : Tensor) (sp : List (ℕ × ℕ)) :
    (sliceT T sp).shape = sp.map Prod.snd := rfl

theorem addT_entry {A B : Tensor} (idx : List ℕ) (hs : A.shape = B.shape) :
    (addT A B).entry idx = A.entry idx + B.entry idx := by
  simp [addT, Tensor.entry, hs]

theorem subT_entry {A B : Tensor} (idx : List ℕ) (hs : A.shape = B.shape) :
    (subT A B).entry idx = A.entry idx - B.entry idx := by
  simp [subT, Tensor.entry, hs]

theorem divT_entry {A B : Tensor} (idx : List ℕ) (hs : A.shape = B.shape) :
    (divT A B).entry idx = A.entry idx / B.entry idx := by
  simp [divT, Tensor.entry, hs]

theorem smulT_entry (c : ℚ) (T : Tensor) (idx : List ℕ) :
    (smulT c T).entry idx = c * T.entry idx := by
  simp [smulT, Tensor.entry]

theorem scaleT_entry (p : ℚ) (T : Tensor) (idx : List ℕ) :
    (scaleT p T).entry idx = T.entry idx * p := by
  simp [scaleT, Tensor.entry]

/-! ## Label machinery shared by `ndot` and the generic einsum reference -/

/-- First value bound to `c` in `zip(labels, sizes)` (0 if absent). Python's
`dict(zip(...))` keeps the *last* duplicate, but duplicate labels within one
operand are outside the contract (no traces), so first vs last is
immaterial everywhere we reason. -/
def lookupZip : List Char → List ℕ → Char → ℕ
  | l :: ls, n :: ns, c => if l = c then n else lookupZip ls ns c
  | _, _, _ => 0

/-- Deduplicate keeping first occurrences, in order (the canonical order we
use for Python's unordered set/dict iterations; every quantity the source
computes from such an iteration — products, sums, paired position lists — is
order-independent). -/
def firstDedup : List Char → List Char
  | [] => []
  | c :: cs => c :: (firstDedup cs).filter (fun d => d ≠ c)

/-- The `size_dict` of `ndot`: left labels mapped to `op1.shape`, then right
labels mapped to `op2.shape` (right overwrites left, as dict insertion
does). -/
def sizeDictM (L R : List Char) (sA sB : List ℕ) : Char → ℕ :=
  fun c => if c ∈ R then lookupZip R sB c else lookupZip L sA c

/-- Assignment reading label `c`'s value out of a multi-index `idx` laid out
along the label list `O` (0 for labels not in `O`). -/
def assignOf (O : List Char) (idx : List ℕ) : Char → ℕ :=
  fun c => idx.getD (List.indexOf c O) 0

/-- Nested summation over all values of the labels `ls` (each ranging below
its `sz`), of `f` applied to the extended assignment. -/
def sumOverσ : List Char → (Char → ℕ) → ((Char → ℕ) → ℚ) → (Char → ℕ) → ℚ
  | [], _, f, σ => f σ
  | c :: cs, sz, f, σ =>
    ∑ v ∈ Finset.range (sz c), sumOverσ cs sz f (fun d => if d = c then v else σ d)

/-- The labels a generic einsum sums over: those appearing in an operand but
not in the output (canonical first-occurrence order). -/
def summedOf (L R O : List Char) : List Char :=
  (firstDedup (L ++ R)).filter (fun c => decide (c ∉ O))

/-- Fully explicit, unoptimized generic Einstein summation of two labeled
operands — the reference semantics `ndot` is claimed to refine, and also the
model of numpy's own `np.einsum(spec, op1, op2)` library call. -/
def einsumRef (L R O : List Char) (A B : Tensor) : Tensor :=
  let sz := sizeDictM L R A.shape B.shape
  ⟨O.map sz, fun n =>
    sumOverσ (summedOf L R O) sz
      (fun σ => A.entry (L.map σ) * B.entry (R.map σ))
      (assignOf O (unflat (O.map sz) n))⟩

/-- Single-operand label permutation `np.einsum('P->O', T)` (no repeated
labels: a pure axis permutation). -/
def einsumPerm (P O : List Char) (T : Tensor) : Tensor :=
  let szP := lookupZip P T.shape
  ⟨O.map szP, fun n => T.entry (P.map (assignOf O (unflat (O.map szP) n)))⟩

/-! ## The `ndot` contraction dispatcher (`helper_CC.py` lines 18-112) -/

/-- Python's `s[-k:]` (note `s[-0:]` is all of `s`). -/
def pyLastN (k : ℕ) (l : List Char) : List Char :=
  if k = 0 then l else l.drop (l.length - k)

/-- Python's `str.split('->')`: split on every non-overlapping occurrence,
scanning left to right. -/
def splitArrow : List Char → List (List Char)
  | [] => [[]]
  | '-' :: '>' :: rest => [] :: splitArrow rest
  | c :: rest =>
    match splitArrow rest with
    | [] => [[c]]
    | h :: t => (c :: h) :: t

/-- Python's `str.split(',')`. -/
def splitComma : List Char → List (List Char)
  | [] => [[]]
  | ',' :: rest => [] :: splitComma rest
  | c :: rest =>
    match splitComma rest with
    | [] => [[c]]
    | h :: t => (c :: h) :: t

/-- `inp, output_ind = input_string.split('->')` then
`input_left, input_right = inp.split(',')`; the tuple unpacking raises
unless each split yields exactly two pieces. -/
def parseSpec (s : String) : Option (List Char × List Char × List Char) :=
  match splitArrow s.toList with
  | [inp, outp] =>
    match splitComma inp with
    | [l, r] => some (l, r, outp)
    | _ => none
  | _ => none

/-- `np.tensordot(A, B, axes=(lp, rp))`, following numpy's implementation:
check the matched axes agree, transpose the contracted axes of `A` to the
back and of `B` to the front, flatten both to 2-D, `dot`, and reshape to the
free shapes. -/
def tensordotM (A B : Tensor) (lp rp : List ℕ) : Option Tensor :=
  if lp.map (fun p => A.shape.getD p 0) = rp.map (fun p => B.shape.getD p 0)
      ∧ lp.length = rp.length
      ∧ (∀ p ∈ lp, p < A.shape.length) ∧ (∀ p ∈ rp, p < B.shape.length) then
    let notinA := (List.range A.shape.length).filter (fun k => decide (k ∉ lp))
    let notinB := (List.range B.shape.length).filter (fun k => decide (k ∉ rp))
    let n2 := (lp.map (fun p => A.shape.getD p 0)).prod
    let oldA := notinA.map (fun p => A.shape.getD p 0)
    let oldB := notinB.map (fun p => B.shape.getD p 0)
    (reshapeT (permuteAxes (notinA ++ lp) A) [oldA.prod, n2]).bind fun a2 =>
    (reshapeT (permuteAxes (rp ++ notinB) B) [n2, oldB.prod]).bind fun b2 =>
    (dot2 a2 b2).bind fun res => reshapeT res (oldA ++ oldB)
  else none

/-- The labels `ndot` removes (`idx_removed`): present in an operand, absent
from the output. -/
def removedP (L R O : List Char) (c : Char) : Prop := (c ∈ L ∨ c ∈ R) ∧ c ∉ O

instance (L R O : List Char) (c : Char) : Decidable (removedP L R O c) := by
  unfold removedP; infer_instance

/-- Core of `ndot` after the spec string is split into
`input_left`, `input_right`, `output_ind`. Mirrors the source line by line:
size dict, label partition, flattened dimensions, the four
reshape-as-matrix-multiply branches, the einsum fallback when one operand
keeps no free axes, the general tensordot branch, the shape fix-up, the
in-place prefactor, and the final axis permutation. -/
def ndotCore (L R O : List Char) (A B : Tensor) (prefactor : Option ℚ) :
    Option Tensor :=
  let sz := sizeDictM L R A.shape B.shape
  let keys := firstDedup (L ++ R)
  let remList := keys.filter (fun c => decide (removedP L R O c))
  let rs := remList.length
  let keepL := keys.filter (fun c => decide (c ∈ L ∧ ¬removedP L R O c))
  let keepR := keys.filter (fun c => decide (c ∈ R ∧ ¬removedP L R O c))
  let dim_left := (keepL.map sz).prod
  let dim_right := (keepR.map sz).prod
  let dim_removed := (remList.map sz).prod
  let left_pos := remList.map (fun c => List.indexOf c L)
  let right_pos := remList.map (fun c => List.indexOf c R)
  let tdot_result := (L ++ R).filter (fun c => decide (¬removedP L R O c))
  let shape_result := tdot_result.map sz
  let finishDot : Tensor → Option Tensor := fun nv =>
    (if nv.shape ≠ shape_result then
        (if 0 < shape_result.length then reshapeT nv shape_result
         else some (squeezeT nv))
      else some nv).map fun nv1 =>
      let nv2 := match prefactor with | some p => scaleT p nv1 | none => nv1
      if tdot_result = O then nv2 else einsumPerm tdot_result O nv2
  if pyLastN rs L = R.take rs then
    (reshapeT A [dim_left, dim_removed]).bind fun A2 =>
    (reshapeT B [dim_removed, dim_right]).bind fun B2 =>
    (dot2 A2 B2).bind finishDot
  else if L.take rs = pyLastN rs R then
    (reshapeT A [dim_removed, dim_left]).bind fun A2 =>
    (transpose2 A2).bind fun A2t =>
    (reshapeT B [dim_right, dim_removed]).bind fun B2 =>
    (transpose2 B2).bind fun B2t =>
    (dot2 A2t B2t).bind finishDot
  else if pyLastN rs L = pyLastN rs R then
    (reshapeT A [dim_left, dim_removed]).bind fun A2 =>
    (reshapeT B [dim_right, dim_removed]).bind fun B2 =>
    (transpose2 B2).bind fun B2t =>
    (dot2 A2 B2t).bind finishDot
  else if L.take rs = R.take rs then
    (reshapeT A [dim_removed, dim_left]).bind fun A2 =>
    (transpose2 A2).bind fun A2t =>
    (reshapeT B [dim_removed, dim_right]).bind fun B2 =>
    (dot2 A2t B2).bind finishDot
  else if keepL.length = 0 ∨ keepR.length = 0 then
    some (match prefactor with
          | some p => scaleT p (einsumRef L R O A B)
          | none => einsumRef L R O A B)
  else
    (tensordotM A B left_pos right_pos).bind finishDot

/-- `ndot(input_string, op1, op2, prefactor)`. -/
def ndot (input_string : String) (op1 op2 : Tensor) (prefactor : Option ℚ) :
    Option Tensor :=
  match parseSpec input_string with
  | some (L, R, O) => ndotCore L R O op1 op2 prefactor
  | none => none

/-! ## Validity of a contraction specification

`ndot`'s documented contract (`spec.md` §4.1): distinct labels within each
operand (no traces), every output label drawn from the operands, and the
labels shared between the operands being exactly the contracted (non-output)
ones. -/

/-- A well-formed contraction specification. -/
def SpecOK (L R O : List Char) : Prop :=
  L.Nodup ∧ R.Nodup ∧ O.Nodup ∧
  (∀ c ∈ O, c ∈ L ∨ c ∈ R) ∧
  (∀ c ∈ L, c ∈ R → c ∉ O) ∧
  (∀ c ∈ L, c ∉ O → c ∈ R) ∧
  (∀ c ∈ R, c ∉ O → c ∈ L)

instance (L R O : List Char) : Decidable (SpecOK L R O) := by
  unfold SpecOK; infer_instance

/-! ## List lemmas -/

theorem lookupZip_map (f : Char → ℕ) (c : Char) :
    ∀ (L : List Char), c ∈ L → lookupZip L (L.map f) c = f c := by
  intro L hc
  induction L with
  | nil => simp at hc
  | cons x xs ih =>
    by_cases hx : x = c
    · simp [lookupZip, hx]
    · rcases List.mem_cons.mp hc with h | h
      · exact absurd h.symm hx
      · simp [lookupZip, hx, ih h]

theorem firstDedup_eq_self {L : List Char} (h : L.Nodup) : firstDedup L = L := by
  induction L with
  | nil => rfl
  | cons x xs ih =>
    rcases List.nodup_cons.mp h with ⟨hx, hxs⟩
    simp only [firstDedup, ih hxs]
    rw [List.filter_eq_self.mpr]
    intro a ha
    simp only [ne_eq, decide_eq_true_eq]
    intro hax; exact hx (hax ▸ ha)

theorem firstDedup_append {L R : List Char} (hL : L.Nodup) (hR : R.Nodup) :
    firstDedup (L ++ R) = L ++ R.filter (fun c => decide (c ∉ L)) := by
  induction L with
  | nil =>
    simp only [List.nil_append, firstDedup_eq_self hR]
    rw [List.filter_eq_self.mpr]
    intro a _; simp
  | cons x xs ih =>
    rcases List.nodup_cons.mp hL with ⟨hx, hxs⟩
    simp only [List.cons_append, firstDedup, List.append_eq, ih hxs]
    rw [List.filter_append]
    have h1 : xs.filter (fun d => d ≠ x) = xs := by
      rw [List.filter_eq_self.mpr]
      intro a ha
      simp only [ne_eq, decide_eq_true_eq]
      intro hax; exact hx (hax ▸ ha)
    have h2 : (R.filter (fun c => decide (c ∉ xs))).filter (fun d => d ≠ x) =
        R.filter (fun c => decide (c ∉ x :: xs)) := by
      rw [List.filter_filter]
      refine List.filter_congr fun a _ => ?_
      by_cases hax : a = x <;> by_cases haxs : a ∈ xs <;> simp [hax, haxs]
    rw [h1, h2]

theorem getD_eq_get {α : Type} {l : List α} {i : ℕ} (h : i < l.length) (d : α) :
    l.getD i d = l.get ⟨i, h⟩ := by
  simp [List.getD_eq_getElem?_getD, List.getElem?_eq_getElem h]

theorem validIdx_get {shape idx : List ℕ} (h : ValidIdx shape idx) {t : ℕ}
    (ht : t < idx.length) (ht' : t < shape.length) :
    idx.getD t 0 < shape.getD t 0 := by
  rcases h with ⟨hlen, hall⟩
  have hz : t < (idx.zip shape).length := by rw [List.length_zip]; omega
  have hmem : (idx.zip shape).get ⟨t, hz⟩ ∈ idx.zip shape := List.get_mem _ _ hz
  have hv := hall _ hmem
  rw [List.get_eq_getElem, List.getElem_zip] at hv
  rw [getD_eq_get ht 0, getD_eq_get ht' 0]
  simpa using hv

theorem getD_map_of_lt (f : Char → ℕ) (P : List Char) {i : ℕ}
    (h : i < P.length) (d : ℕ) (d' : Char) :
    (P.map f).getD i d = f (P.getD i d') := by
  have h' : i < (P.map f).length := by simpa using h
  rw [getD_eq_get h' d]
  have : i < P.length := h
  simp [List.getD_eq_getElem?_getD, List.getElem?_eq_getElem this]

theorem assignOf_map_self {P : List Char} (g : Char → ℕ)
    {c : Char} (hc : c ∈ P) : assignOf P (P.map g) c = g c := by
  unfold assignOf
  have hlt : List.indexOf c P < P.length := List.indexOf_lt_length.mpr hc
  rw [getD_map_of_lt g P hlt 0 c]
  congr 1
  rw [getD_eq_get hlt c]
  exact List.indexOf_get hlt

theorem map_getD_indexOf {ls : List Char} (hnd : ls.Nodup) :
    ∀ (k : List ℕ), k.length = ls.length →
      ls.map (fun c => k.getD (List.indexOf c ls) 0) = k := by
  induction ls with
  | nil => intro k hk; simp_all [List.eq_nil_of_length_eq_zero hk]
  | cons x xs ih =>
    intro k hk
    rcases k with - | ⟨v, vs⟩
    · simp at hk
    rcases List.nodup_cons.mp hnd with ⟨hx, hxs⟩
    simp only [List.map_cons, List.indexOf_cons_self, List.getD_cons_zero,
      List.cons.injEq, true_and]
    have : ∀ c ∈ xs, (v :: vs).getD (List.indexOf c (x :: xs)) 0 =
        vs.getD (List.indexOf c xs) 0 := by
      intro c hc
      have hne : c ≠ x := fun h => hx (h ▸ hc)
      rw [List.indexOf_cons_ne _ (by simpa using hne.symm)]
      simp
    calc xs.map (fun c => (v :: vs).getD (List.indexOf c (x :: xs)) 0)
        = xs.map (fun c => vs.getD (List.indexOf c xs) 0) :=
          List.map_congr_left this
      _ = vs := ih hxs vs (by simpa using hk)

theorem validIdx_map_of {P : List Char} {f : Char → ℕ} {sz0 : Char → ℕ}
    (h : ∀ c ∈ P, f c < sz0 c) : ValidIdx (P.map sz0) (P.map f) := by
  induction P with
  | nil => exact validIdx_nil
  | cons x xs ih =>
    simp only [List.map_cons]
    exact validIdx_cons.mpr ⟨h x (List.mem_cons_self x xs),
      ih fun c hc => h c (List.mem_cons_of_mem x hc)⟩

theorem getD_lt_of_validIdx_map {O : List Char} {sz0 : Char → ℕ} {idx : List ℕ}
    (h : ValidIdx (O.map sz0) idx) {c : Char} (hc : c ∈ O) :
    idx.getD (List.indexOf c O) 0 < sz0 c := by
  have hlt : List.indexOf c O < O.length := List.indexOf_lt_length.mpr hc
  have hlen' : idx.length = O.length := by simpa using h.1
  have hv := validIdx_get h (t := List.indexOf c O) (by omega) (by simpa using hlt)
  rwa [getD_map_of_lt sz0 O hlt 0 c, getD_eq_get hlt c,
    List.indexOf_get hlt] at hv

theorem assignOf_append_left {P1 P2 : List Char} {i j : List ℕ}
    (hlen : i.length = P1.length) {c : Char} (hc : c ∈ P1) :
    assignOf (P1 ++ P2) (i ++ j) c = assignOf P1 i c := by
  unfold assignOf
  rw [List.indexOf_append_of_mem hc]
  have hlt : List.indexOf c P1 < i.length := by
    rw [hlen]; exact List.indexOf_lt_length.mpr hc
  rw [List.getD_append _ _ _ _ hlt]

theorem indexOf_append_of_not_mem {α : Type} [DecidableEq α] {P1 P2 : List α} {c : α}
    (hc : c ∉ P1) :
    List.indexOf c (P1 ++ P2) = P1.length + List.indexOf c P2 := by
  induction P1 with
  | nil => simp
  | cons x xs ih =>
    have hne : x ≠ c := fun h => hc (h ▸ List.mem_cons_self x xs)
    have hc' : c ∉ xs := fun h => hc (List.mem_cons_of_mem x h)
    simp only [List.cons_append, List.indexOf_cons_ne _ hne, ih hc', List.length_cons]
    omega

theorem assignOf_append_right {P1 P2 : List Char} {i j : List ℕ}
    (hlen : i.length = P1.length) {c : Char} (hc : c ∉ P1) :
    assignOf (P1 ++ P2) (i ++ j) c = assignOf P2 j c := by
  unfold assignOf
  rw [indexOf_append_of_not_mem hc, ← hlen, List.getD_append_right _ _ _ _ (by omega)]
  congr 1
  omega

theorem filter_range_map_getD (L : List Char) (pb : Char → Bool) (d : Char) :
    ((List.range L.length).filter (fun p => pb (L.getD p d))).map (fun p => L.getD p d) =
      L.filter pb := by
  induction L with
  | nil => simp
  | cons x xs ih =>
    have hrange : List.range (x :: xs).length = 0 :: (List.range xs.length).map Nat.succ := by
      simp [List.range_succ_eq_map]
    have e1 : ((fun p => pb ((x :: xs).getD p d)) ∘ Nat.succ) =
        (fun p => pb (xs.getD p d)) := by
      funext p; simp [Function.comp, List.getD_cons_succ]
    have e2 : ((fun p => (x :: xs).getD p d) ∘ Nat.succ) = (fun p => xs.getD p d) := by
      funext p; simp [Function.comp, List.getD_cons_succ]
    have htail : List.map (fun p => (x :: xs).getD p d)
          (((List.range xs.length).map Nat.succ).filter (fun p => pb ((x :: xs).getD p d))) =
        List.filter pb xs := by
      rw [List.filter_map, List.map_map, e1, e2, ih]
    rw [hrange, List.filter_cons]
    simp only [List.getD_cons_zero]
    by_cases hx : pb x
    · rw [if_pos hx, List.map_cons, htail, List.filter_cons_of_pos hx]
      simp
    · rw [if_neg hx, htail, List.filter_cons_of_neg hx]

theorem indexOf_map_inj {α β : Type} [DecidableEq α] [DecidableEq β]
    (l : List α) (g : α → β)
    (hinj : ∀ a ∈ l, ∀ b ∈ l, g a = g b → a = b) {p : α} (hp : p ∈ l) :
    List.indexOf (g p) (l.map g) = List.indexOf p l := by
  induction l with
  | nil => simp at hp
  | cons x xs ih =>
    by_cases hpx : p = x
    · subst hpx; simp
    · have hp' : p ∈ xs := by
        rcases List.mem_cons.mp hp with h | h
        · exact absurd h hpx
        · exact h
      have hgne : g x ≠ g p := fun h => hpx (hinj p hp x (List.mem_cons_self x xs) h.symm)
      rw [List.map_cons, List.indexOf_cons_ne _ hgne, List.indexOf_cons_ne _ (fun h => hpx h.symm)]
      rw [ih (fun a ha b hb => hinj a (List.mem_cons_of_mem x ha) b (List.mem_cons_of_mem x hb)) hp']

/-! ## `sumOverσ` lemmas -/

theorem sumOverσ_congr_sz {ls : List Char} {sz sz' : Char → ℕ}
    {F : (Char → ℕ) → ℚ} {σ : Char → ℕ} (h : ∀ c ∈ ls, sz c = sz' c) :
    sumOverσ ls sz F σ = sumOverσ ls sz' F σ := by
  induction ls generalizing σ with
  | nil => rfl
  | cons x xs ih =>
    simp only [sumOverσ]
    rw [h x (List.mem_cons_self x xs)]
    exact Finset.sum_congr rfl fun v _ => ih (fun c hc => h c (List.mem_cons_of_mem x hc))

theorem sumOverσ_eq_multiSum (ls : List Char) (hnd : ls.Nodup) (sz0 : Char → ℕ)
    (F : (Char → ℕ) → ℚ) (σ0 : Char → ℕ) :
    sumOverσ ls sz0 F σ0 =
      multiSum (ls.map sz0)
        (fun k => F (fun c => if c ∈ ls then k.getD (List.indexOf c ls) 0 else σ0 c)) := by
  induction ls generalizing σ0 with
  | nil =>
    simp only [sumOverσ, List.map_nil, multiSum]
    exact congrArg F (funext fun c => by simp)
  | cons x xs ih =>
    rcases List.nodup_cons.mp hnd with ⟨hx, hxs⟩
    simp only [sumOverσ, List.map_cons, multiSum]
    refine Finset.sum_congr rfl fun v _ => ?_
    rw [ih hxs]
    congr 1
    funext k
    refine congrArg F (funext fun c => ?_)
    by_cases hcx : c = x
    · subst hcx
      simp [hx, List.indexOf_cons_self]
    · by_cases hcxs : c ∈ xs
      · simp only [hcxs, if_true, List.mem_cons, hcx, false_or, if_true,
          List.indexOf_cons_ne _ (fun h => hcx h.symm)]
        simp
      · simp [hcxs, hcx, List.mem_cons]

/-! ## Consequences of `SpecOK` for `ndot`'s internal lists -/

/-- The contracted labels, in left-operand order. -/
def remOf (L O : List Char) : List Char := L.filter (fun c => decide (c ∉ O))

/-- The kept labels of one operand, in operand order. -/
def keepOf (L O : List Char) : List Char := L.filter (fun c => decide (c ∈ O))

theorem mem_remOf {L O : List Char} {c : Char} :
    c ∈ remOf L O ↔ c ∈ L ∧ c ∉ O := by
  simp [remOf, List.mem_filter]

theorem mem_keepOf {L O : List Char} {c : Char} :
    c ∈ keepOf L O ↔ c ∈ L ∧ c ∈ O := by
  simp [keepOf, List.mem_filter]

theorem nodup_remOf {L O : List Char} (h : L.Nodup) : (remOf L O).Nodup :=
  h.filter _

theorem nodup_keepOf {L O : List Char} (h : L.Nodup) : (keepOf L O).Nodup :=
  h.filter _

section SpecFacts

variable {L R O : List Char}

theorem remList_eq (hs : SpecOK L R O) :
    (firstDedup (L ++ R)).filter (fun c => decide (removedP L R O c)) = remOf L O := by
  obtain ⟨hL, hR, -, -, hLR, hLO, hRO⟩ := hs
  rw [firstDedup_append hL hR, List.filter_append]
  have h1 : L.filter (fun c => decide (removedP L R O c)) = remOf L O := by
    refine List.filter_congr fun c hc => ?_
    simp only [decide_eq_true_eq, removedP, decide_not]
    by_cases hO : c ∈ O <;> simp [hO, hc]
  have h2 : (R.filter (fun c => decide (c ∉ L))).filter
      (fun c => decide (removedP L R O c)) = [] := by
    rw [List.filter_filter, List.filter_eq_nil_iff]
    intro c hc
    simp only [Bool.and_eq_true, decide_eq_true_eq, removedP, not_and]
    intro hrem hnotL
    rcases hrem with ⟨-, hO⟩
    exact hnotL (hRO c hc hO)
  rw [h1, h2, List.append_nil]

theorem keepL_eq (hs : SpecOK L R O) :
    (firstDedup (L ++ R)).filter (fun c => decide (c ∈ L ∧ ¬removedP L R O c)) =
      keepOf L O := by
  obtain ⟨hL, hR, -, -, hLR, hLO, hRO⟩ := hs
  rw [firstDedup_append hL hR, List.filter_append]
  have h1 : L.filter (fun c => decide (c ∈ L ∧ ¬removedP L R O c)) = keepOf L O := by
    refine List.filter_congr fun c hc => ?_
    simp only [decide_eq_true_eq, removedP]
    by_cases hO : c ∈ O <;> simp [hO, hc]
  have h2 : (R.filter (fun c => decide (c ∉ L))).filter
      (fun c => decide (c ∈ L ∧ ¬removedP L R O c)) = [] := by
    rw [List.filter_filter, List.filter_eq_nil_iff]
    intro c hc
    by_cases hcL : c ∈ L <;> simp [hcL]
  rw [h1, h2, List.append_nil]

theorem keepR_eq (hs : SpecOK L R O) :
    (firstDedup (L ++ R)).filter (fun c => decide (c ∈ R ∧ ¬removedP L R O c)) =
      keepOf R O := by
  obtain ⟨hL, hR, -, -, hLR, hLO, hRO⟩ := hs
  rw [firstDedup_append hL hR, List.filter_append]
  have h1 : L.filter (fun c => decide (c ∈ R ∧ ¬removedP L R O c)) = [] := by
    rw [List.filter_eq_nil_iff]
    intro c hc
    by_cases hcR : c ∈ R
    · have hO := hLR c hc hcR
      simp [removedP, hcR, hO, hc]
    · simp [hcR]
  have h2 : (R.filter (fun c => decide (c ∉ L))).filter
      (fun c => decide (c ∈ R ∧ ¬removedP L R O c)) = keepOf R O := by
    rw [List.filter_filter]
    have : ∀ c ∈ R, ((decide (c ∈ R ∧ ¬removedP L R O c)) && decide (c ∉ L)) =
        decide (c ∈ O) := by
      intro c hc
      by_cases hO : c ∈ O
      · have hnotL : c ∉ L := fun hcL => hLR c hcL hc hO
        simp [hO, hc, hnotL, removedP]
      · have hcL : c ∈ L := hRO c hc hO
        simp [hO, hc, hcL, removedP]
    exact List.filter_congr this
  rw [h1, h2, List.nil_append]

theorem tdot_eq (hs : SpecOK L R O) :
    (L ++ R).filter (fun c => decide (¬removedP L R O c)) =
      keepOf L O ++ keepOf R O := by
  obtain ⟨hL, hR, -, -, hLR, hLO, hRO⟩ := hs
  rw [List.filter_append]
  have h1 : L.filter (fun c => decide (¬removedP L R O c)) = keepOf L O := by
    refine List.filter_congr fun c hc => ?_
    by_cases hO : c ∈ O <;> simp [removedP, hO, hc]
  have h2 : R.filter (fun c => decide (¬removedP L R O c)) = keepOf R O := by
    refine List.filter_congr fun c hc => ?_
    by_cases hO : c ∈ O <;> simp [removedP, hO, hc]
  rw [h1, h2]

theorem summedOf_eq (hs : SpecOK L R O) : summedOf L R O = remOf L O := by
  obtain ⟨hL, hR, -, -, hLR, hLO, hRO⟩ := hs
  unfold summedOf
  rw [firstDedup_append hL hR, List.filter_append]
  have h2 : (R.filter (fun c => decide (c ∉ L))).filter
      (fun c => decide (c ∉ O)) = [] := by
    rw [List.filter_filter, List.filter_eq_nil_iff]
    intro c hc
    simp only [Bool.and_eq_true, decide_eq_true_eq, decide_not, Bool.not_eq_true',
      decide_eq_false_iff_not, not_and]
    intro hO
    exact absurd (hRO c hc hO)
  rw [h2, List.append_nil]
  rfl

theorem mem_remOf_mem_R (hs : SpecOK L R O) {c : Char} (hc : c ∈ remOf L O) : c ∈ R := by
  obtain ⟨-, -, -, -, -, hLO, -⟩ := hs
  rcases mem_remOf.mp hc with ⟨h1, h2⟩
  exact hLO c h1 h2

theorem sizeDictM_eq {A B : Tensor} {sz0 : Char → ℕ}
    (hA : A.shape = L.map sz0) (hB : B.shape = R.map sz0)
    {c : Char} (hc : c ∈ L ∨ c ∈ R) :
    sizeDictM L R A.shape B.shape c = sz0 c := by
  unfold sizeDictM
  by_cases hcR : c ∈ R
  · rw [if_pos hcR, hB, lookupZip_map _ _ _ hcR]
  · rcases hc with hcL | hcR'
    · rw [if_neg hcR, hA, lookupZip_map _ _ _ hcL]
    · exact absurd hcR' hcR

end SpecFacts

/-! ## Filter splitting utilities for the branch-structure lemmas -/

theorem filter_out_eq_self {S O : List Char} (h : ∀ c ∈ S, c ∉ O) :
    S.filter (fun c => decide (c ∉ O)) = S :=
  List.filter_eq_self.mpr fun c hc => by simpa using h c hc

theorem filter_in_eq_self {S O : List Char} (h : ∀ c ∈ S, c ∈ O) :
    S.filter (fun c => decide (c ∈ O)) = S :=
  List.filter_eq_self.mpr fun c hc => by simpa using h c hc

theorem filter_in_eq_nil {S O : List Char} (h : ∀ c ∈ S, c ∉ O) :
    S.filter (fun c => decide (c ∈ O)) = [] :=
  List.filter_eq_nil_iff.mpr fun c hc => by simpa using h c hc

theorem filter_out_eq_nil {S O : List Char} (h : ∀ c ∈ S, c ∈ O) :
    S.filter (fun c => decide (c ∉ O)) = [] :=
  List.filter_eq_nil_iff.mpr fun c hc => by simpa using h c hc

theorem all_in_of_filter_out_nil {S O : List Char}
    (h : S.filter (fun c => decide (c ∉ O)) = []) : ∀ c ∈ S, c ∈ O := by
  intro c hc
  by_contra hO
  have := List.filter_eq_nil_iff.mp h c hc
  simp [hO] at this

theorem filter_split_suffix {L O P S : List Char} (hsplit : L = P ++ S)
    (hSout : ∀ c ∈ S, c ∉ O) (hlen : (remOf L O).length = S.length) :
    remOf L O = S ∧ keepOf L O = P := by
  subst hsplit
  have hfil : remOf (P ++ S) O =
      P.filter (fun c => decide (c ∉ O)) ++ S := by
    unfold remOf
    rw [List.filter_append, filter_out_eq_self hSout]
  have hPnil : P.filter (fun c => decide (c ∉ O)) = [] := by
    have hl := congrArg List.length hfil
    rw [hlen] at hl
    simp only [List.length_append] at hl
    exact List.eq_nil_of_length_eq_zero (by omega)
  refine ⟨by rw [hfil, hPnil, List.nil_append], ?_⟩
  unfold keepOf
  rw [List.filter_append, filter_in_eq_self (all_in_of_filter_out_nil hPnil),
    filter_in_eq_nil hSout, List.append_nil]

theorem filter_split_prefix {L O P S : List Char} (hsplit : L = S ++ P)
    (hSout : ∀ c ∈ S, c ∉ O) (hlen : (remOf L O).length = S.length) :
    remOf L O = S ∧ keepOf L O = P := by
  subst hsplit
  have hfil : remOf (S ++ P) O =
      S ++ P.filter (fun c => decide (c ∉ O)) := by
    unfold remOf
    rw [List.filter_append, filter_out_eq_self hSout]
  have hPnil : P.filter (fun c => decide (c ∉ O)) = [] := by
    have hl := congrArg List.length hfil
    rw [hlen] at hl
    simp only [List.length_append] at hl
    exact List.eq_nil_of_length_eq_zero (by omega)
  refine ⟨by rw [hfil, hPnil, List.append_nil], ?_⟩
  unfold keepOf
  rw [List.filter_append, filter_in_eq_self (all_in_of_filter_out_nil hPnil),
    filter_in_eq_nil hSout, List.nil_append]

/-! ## Branch-condition structure lemmas

Each of `ndot`'s four matrix-multiply branches fires on a string condition
(`input_left[-rs:] == input_right[:rs]`, etc.). Under `SpecOK`, that
condition forces the operands' label strings to decompose into kept and
removed blocks. -/

theorem branch1_struct {L R O : List Char} (hs : SpecOK L R O)
    (hcond : pyLastN (remOf L O).length L = R.take (remOf L O).length) :
    L = keepOf L O ++ remOf L O ∧ R = remOf L O ++ keepOf R O := by
  obtain ⟨hL, hR, hOnd, hOsub, hLR, hLO, hRO⟩ := hs
  by_cases hrs : (remOf L O).length = 0
  · have hREMnil : remOf L O = [] := List.eq_nil_of_length_eq_zero hrs
    have hLnil : L = [] := by simpa [pyLastN, hrs] using hcond
    refine ⟨by simp [hLnil, hREMnil, keepOf, remOf], ?_⟩
    rw [hREMnil, List.nil_append]
    unfold keepOf
    refine (filter_in_eq_self fun c hc => ?_).symm
    by_contra hO'
    have := hRO c hc hO'
    simp [hLnil] at this
  · set rs := (remOf L O).length with hrsdef
    have hrs_le_L : rs ≤ L.length := List.length_filter_le _ _
    set S := L.drop (L.length - rs) with hSdef
    have hpy : pyLastN rs L = S := by simp [pyLastN, hrs]
    have hSlen : S.length = rs := by
      rw [hSdef, List.length_drop]; omega
    have hSR : ∀ c ∈ S, c ∈ R := by
      intro c hc
      have : c ∈ R.take rs := by rw [← hcond, hpy]; exact hc
      exact List.mem_of_mem_take this
    have hSout : ∀ c ∈ S, c ∉ O := fun c hc =>
      hLR c (List.mem_of_mem_drop hc) (hSR c hc)
    have hsplitL : L = L.take (L.length - rs) ++ S := (List.take_append_drop _ _).symm
    obtain ⟨hREMeq, hKLeq⟩ := filter_split_suffix hsplitL hSout (by omega)
    refine ⟨by rw [hREMeq, hKLeq]; exact hsplitL, ?_⟩
    have hRtake : R.take rs = remOf L O := by rw [← hcond, hpy, hREMeq]
    have hrs_le_R : rs ≤ R.length := by
      have h1 := congrArg List.length hRtake
      rw [List.length_take] at h1
      omega
    have hsplitR : R = R.take rs ++ R.drop rs := (List.take_append_drop _ _).symm
    have hdisj : ∀ c ∈ R.drop rs, c ∉ remOf L O := by
      have hnodup : (R.take rs ++ R.drop rs).Nodup := by rw [← hsplitR]; exact hR
      have hd := (List.nodup_append.mp hnodup).2.2
      intro c hc hcREM
      exact hd (by rw [hRtake]; exact hcREM) hc
    have hdropO : ∀ c ∈ R.drop rs, c ∈ O := by
      intro c hc
      by_contra hO'
      have hcL : c ∈ L := hRO c (List.mem_of_mem_drop hc) hO'
      exact hdisj c hc (mem_remOf.mpr ⟨hcL, hO'⟩)
    have hKR : keepOf R O = R.drop rs := by
      unfold keepOf
      conv_lhs => rw [hsplitR]
      rw [List.filter_append, filter_in_eq_nil (fun c hc => by
          rw [hRtake] at hc
          exact (mem_remOf.mp hc).2),
        filter_in_eq_self hdropO, List.nil_append]
    rw [hKR, ← hRtake]
    exact hsplitR

theorem branch2_struct {L R O : List Char} (hs : SpecOK L R O)
    (hcond : L.take (remOf L O).length = pyLastN (remOf L O).length R) :
    L = remOf L O ++ keepOf L O ∧ R = keepOf R O ++ remOf L O := by
  obtain ⟨hL, hR, hOnd, hOsub, hLR, hLO, hRO⟩ := hs
  by_cases hrs : (remOf L O).length = 0
  · have hREMnil : remOf L O = [] := List.eq_nil_of_length_eq_zero hrs
    have hRnil : R = [] := by
      have := hcond
      simp only [hrs, List.take_zero, pyLastN, if_pos rfl] at this
      exact this.symm
    have hallO : ∀ c ∈ L, c ∈ O := all_in_of_filter_out_nil hREMnil
    have hKL : keepOf L O = L := by unfold keepOf; exact filter_in_eq_self hallO
    refine ⟨by rw [hREMnil, List.nil_append, hKL], ?_⟩
    simp [hRnil, hREMnil, keepOf]
  · set rs := (remOf L O).length with hrsdef
    have hrs_le_L : rs ≤ L.length := List.length_filter_le _ _
    set S := L.take rs with hSdef
    have hSlen : S.length = rs := by
      rw [hSdef, List.length_take]; omega
    have hpy : pyLastN rs R = R.drop (R.length - rs) := by simp [pyLastN, hrs]
    have hSR : ∀ c ∈ S, c ∈ R := by
      intro c hc
      have : c ∈ pyLastN rs R := by rw [← hcond]; exact hc
      rw [hpy] at this
      exact List.mem_of_mem_drop this
    have hSout : ∀ c ∈ S, c ∉ O := fun c hc =>
      hLR c (List.mem_of_mem_take hc) (hSR c hc)
    have hsplitL : L = S ++ L.drop rs := (List.take_append_drop _ _).symm
    obtain ⟨hREMeq, hKLeq⟩ := filter_split_prefix hsplitL hSout (by omega)
    refine ⟨by rw [hREMeq, hKLeq]; exact hsplitL, ?_⟩
    have hRdrop : R.drop (R.length - rs) = remOf L O := by
      rw [← hpy, ← hcond, hREMeq]
    have hrs_le_R : rs ≤ R.length := by
      have h1 := congrArg List.length hRdrop
      rw [List.length_drop] at h1
      omega
    have hsplitR : R = R.take (R.length - rs) ++ R.drop (R.length - rs) :=
      (List.take_append_drop _ _).symm
    have hdisj : ∀ c ∈ R.take (R.length - rs), c ∉ remOf L O := by
      have hnodup : (R.take (R.length - rs) ++ R.drop (R.length - rs)).Nodup := by
        rw [← hsplitR]; exact hR
      have hd := (List.nodup_append.mp hnodup).2.2
      intro c hc hcREM
      exact hd hc (by rw [hRdrop]; exact hcREM)
    have htakeO : ∀ c ∈ R.take (R.length - rs), c ∈ O := by
      intro c hc
      by_contra hO'
      have hcL : c ∈ L := hRO c (List.mem_of_mem_take hc) hO'
      exact hdisj c hc (mem_remOf.mpr ⟨hcL, hO'⟩)
    have hKR : keepOf R O = R.take (R.length - rs) := by
      unfold keepOf
      conv_lhs => rw [hsplitR]
      rw [List.filter_append, filter_in_eq_self htakeO, filter_in_eq_nil (fun c hc => by
          rw [hRdrop] at hc
          exact (mem_remOf.mp hc).2),
        List.append_nil]
    rw [hKR, ← hRdrop]
    exact hsplitR

theorem branch3_struct {L R O : List Char} (hs : SpecOK L R O)
    (hcond : pyLastN (remOf L O).length L = pyLastN (remOf L O).length R) :
    L = keepOf L O ++ remOf L O ∧ R = keepOf R O ++ remOf L O := by
  obtain ⟨hL, hR, hOnd, hOsub, hLR, hLO, hRO⟩ := hs
  by_cases hrs : (remOf L O).length = 0
  · have hREMnil : remOf L O = [] := List.eq_nil_of_length_eq_zero hrs
    have hLeqR : L = R := by simpa [pyLastN, hrs] using hcond
    have hLnil : L = [] := by
      rcases L with - | ⟨c, cs⟩
      · rfl
      · exfalso
        have hcL : c ∈ c :: cs := List.mem_cons_self c cs
        have hcR : c ∈ R := hLeqR ▸ hcL
        have hO' := hLR c hcL hcR
        have : c ∈ remOf (c :: cs) O := mem_remOf.mpr ⟨hcL, hO'⟩
        rw [hREMnil] at this
        simp at this
    refine ⟨by simp [hLnil, hREMnil, keepOf, remOf], ?_⟩
    rw [hREMnil, List.append_nil]
    unfold keepOf
    refine (filter_in_eq_self fun c hc => ?_).symm
    by_contra hO'
    have := hRO c hc hO'
    simp [hLnil] at this
  · set rs := (remOf L O).length with hrsdef
    have hrs_le_L : rs ≤ L.length := List.length_filter_le _ _
    set S := L.drop (L.length - rs) with hSdef
    have hpyL : pyLastN rs L = S := by simp [pyLastN, hrs]
    have hpyR : pyLastN rs R = R.drop (R.length - rs) := by simp [pyLastN, hrs]
    have hSlen : S.length = rs := by
      rw [hSdef, List.length_drop]; omega
    have hSR : ∀ c ∈ S, c ∈ R := by
      intro c hc
      have : c ∈ pyLastN rs R := by rw [← hcond, hpyL]; exact hc
      rw [hpyR] at this
      exact List.mem_of_mem_drop this
    have hSout : ∀ c ∈ S, c ∉ O := fun c hc =>
      hLR c (List.mem_of_mem_drop hc) (hSR c hc)
    have hsplitL : L = L.take (L.length - rs) ++ S := (List.take_append_drop _ _).symm
    obtain ⟨hREMeq, hKLeq⟩ := filter_split_suffix hsplitL hSout (by omega)
    refine ⟨by rw [hREMeq, hKLeq]; exact hsplitL, ?_⟩
    have hRdrop : R.drop (R.length - rs) = remOf L O := by
      rw [← hpyR, ← hcond, hpyL, hREMeq]
    have hrs_le_R : rs ≤ R.length := by
      have h1 := congrArg List.length hRdrop
      rw [List.length_drop] at h1
      omega
    have hsplitR : R = R.take (R.length - rs) ++ R.drop (R.length - rs) :=
      (List.take_append_drop _ _).symm
    have hdisj : ∀ c ∈ R.take (R.length - rs), c ∉ remOf L O := by
      have hnodup : (R.take (R.length - rs) ++ R.drop (R.length - rs)).Nodup := by
        rw [← hsplitR]; exact hR
      have hd := (List.nodup_append.mp hnodup).2.2
      intro c hc hcREM
      exact hd hc (by rw [hRdrop]; exact hcREM)
    have htakeO : ∀ c ∈ R.take (R.length - rs), c ∈ O := by
      intro c hc
      by_contra hO'
      have hcL : c ∈ L := hRO c (List.mem_of_mem_take hc) hO'
      exact hdisj c hc (mem_remOf.mpr ⟨hcL, hO'⟩)
    have hKR : keepOf R O = R.take (R.length - rs) := by
      unfold keepOf
      conv_lhs => rw [hsplitR]
      rw [List.filter_append, filter_in_eq_self htakeO, filter_in_eq_nil (fun c hc => by
          rw [hRdrop] at hc
          exact (mem_remOf.mp hc).2),
        List.append_nil]
    rw [hKR, ← hRdrop]
    exact hsplitR

theorem branch4_struct {L R O : List Char} (hs : SpecOK L R O)
    (hcond : L.take (remOf L O).length = R.take (remOf L O).length) :
    L = remOf L O ++ keepOf L O ∧ R = remOf L O ++ keepOf R O := by
  obtain ⟨hL, hR, hOnd, hOsub, hLR, hLO, hRO⟩ := hs
  by_cases hrs : (remOf L O).length = 0
  · have hREMnil : remOf L O = [] := List.eq_nil_of_length_eq_zero hrs
    have hallO : ∀ c ∈ L, c ∈ O := all_in_of_filter_out_nil hREMnil
    have hKL : keepOf L O = L := by unfold keepOf; exact filter_in_eq_self hallO
    refine ⟨by rw [hREMnil, List.nil_append, hKL], ?_⟩
    rw [hREMnil, List.nil_append]
    unfold keepOf
    refine (filter_in_eq_self fun c hc => ?_).symm
    by_contra hO'
    have hcL := hRO c hc hO'
    have : c ∈ remOf L O := mem_remOf.mpr ⟨hcL, hO'⟩
    rw [hREMnil] at this
    simp at this
  · set rs := (remOf L O).length with hrsdef
    have hrs_le_L : rs ≤ L.length := List.length_filter_le _ _
    set S := L.take rs with hSdef
    have hSlen : S.length = rs := by
      rw [hSdef, List.length_take]; omega
    have hSR : ∀ c ∈ S, c ∈ R := by
      intro c hc
      have : c ∈ R.take rs := by rw [← hcond]; exact hc
      exact List.mem_of_mem_take this
    have hSout : ∀ c ∈ S, c ∉ O := fun c hc =>
      hLR c (List.mem_of_mem_take hc) (hSR c hc)
    have hsplitL : L = S ++ L.drop rs := (List.take_append_drop _ _).symm
    obtain ⟨hREMeq, hKLeq⟩ := filter_split_prefix hsplitL hSout (by omega)
    refine ⟨by rw [hREMeq, hKLeq]; exact hsplitL, ?_⟩
    have hRtake : R.take rs = remOf L O := by rw [← hcond, hREMeq]
    have hrs_le_R : rs ≤ R.length := by
      have h1 := congrArg List.length hRtake
      rw [List.length_take] at h1
      omega
    have hsplitR : R = R.take rs ++ R.drop rs := (List.take_append_drop _ _).symm
    have hdisj : ∀ c ∈ R.drop rs, c ∉ remOf L O := by
      have hnodup : (R.take rs ++ R.drop rs).Nodup := by rw [← hsplitR]; exact hR
      have hd := (List.nodup_append.mp hnodup).2.2
      intro c hc hcREM
      exact hd (by rw [hRtake]; exact hcREM) hc
    have hdropO : ∀ c ∈ R.drop rs, c ∈ O := by
      intro c hc
      by_contra hO'
      have hcL : c ∈ L := hRO c (List.mem_of_mem_drop hc) hO'
      exact hdisj c hc (mem_remOf.mpr ⟨hcL, hO'⟩)
    have hKR : keepOf R O = R.drop rs := by
      unfold keepOf
      conv_lhs => rw [hsplitR]
      rw [List.filter_append, filter_in_eq_nil (fun c hc => by
          rw [hRtake] at hc
          exact (mem_remOf.mp hc).2),
        filter_in_eq_self hdropO, List.nil_append]
    rw [hKR, ← hRtake]
    exact hsplitR

/-! ## Dot-level contraction lemmas: one per reshape/transpose branch -/

theorem length_unflat (shape : List ℕ) (n : ℕ) : (unflat shape n).length = shape.length := by
  induction shape generalizing n with
  | nil => rfl
  | cons s ss ih => simp [unflat, ih]

theorem dot2_some {A B : Tensor} {m k n : ℕ}
    (hA : A.shape = [m, k]) (hB : B.shape = [k, n]) :
    dot2 A B = some ⟨[m, n], fun f =>
      ∑ t ∈ Finset.range k, A.data ((f / n) * k + t) * B.data (t * n + f % n)⟩ := by
  unfold dot2
  rw [hA, hB]
  simp

theorem dotC_branch1 {S1 SK S2 : List ℕ} {A B : Tensor}
    (hA : A.shape = S1 ++ SK) (hB : B.shape = SK ++ S2) :
    ∃ C, (∀ cont : Tensor → Option Tensor,
          ((reshapeT A [S1.prod, SK.prod]).bind fun A2 =>
          (reshapeT B [SK.prod, S2.prod]).bind fun B2 =>
          (dot2 A2 B2).bind cont) = cont C) ∧
      C.shape = [S1.prod, S2.prod] ∧
      ∀ i j, ValidIdx S1 i → ValidIdx S2 j →
        C.entry [flatIdx S1 i, flatIdx S2 j] =
          multiSum SK (fun k => A.entry (i ++ k) * B.entry (k ++ j)) := by
  have hrA : reshapeT A [S1.prod, SK.prod] = some ⟨[S1.prod, SK.prod], A.data⟩ := by
    unfold reshapeT
    rw [if_pos (by rw [hA, List.prod_append]; simp)]
  have hrB : reshapeT B [SK.prod, S2.prod] = some ⟨[SK.prod, S2.prod], B.data⟩ := by
    unfold reshapeT
    rw [if_pos (by rw [hB, List.prod_append]; simp)]
  rw [hrA, hrB]
  simp only [Option.some_bind]
  set A2 : Tensor := ⟨[S1.prod, SK.prod], A.data⟩ with hA2
  set B2 : Tensor := ⟨[SK.prod, S2.prod], B.data⟩ with hB2
  have hC := dot2_some (A := A2) (B := B2) rfl rfl
  obtain ⟨hCshape, hCentry⟩ := dot2_entry (m := S1.prod) (k := SK.prod) (n := S2.prod)
    rfl rfl hC
  refine ⟨_, fun cont => by rw [hC]; rfl, hCshape, fun i j hi hj => ?_⟩
  rw [hCentry _ _ (flatIdx_lt hi) (flatIdx_lt hj), multiSum_eq_sum_range]
  refine Finset.sum_congr rfl fun t ht => ?_
  have htlt := Finset.mem_range.mp ht
  have hAe : A2.entry [flatIdx S1 i, t] = A.entry (i ++ unflat SK t) := by
    simp only [Tensor.entry, hA2, hA]
    rw [flatIdx_append hi.1, flatIdx_unflat htlt]
    simp [flatIdx]
  have hBe : B2.entry [t, flatIdx S2 j] = B.entry (unflat SK t ++ j) := by
    simp only [Tensor.entry, hB2, hB]
    rw [flatIdx_append (by rw [length_unflat]), flatIdx_unflat htlt]
    simp [flatIdx]
  rw [hAe, hBe]

theorem dotC_branch2 {S1 SK S2 : List ℕ} {A B : Tensor}
    (hA : A.shape = SK ++ S1) (hB : B.shape = S2 ++ SK) :
    ∃ C, (∀ cont : Tensor → Option Tensor,
          ((reshapeT A [SK.prod, S1.prod]).bind fun A2 =>
          (transpose2 A2).bind fun A2t =>
          (reshapeT B [S2.prod, SK.prod]).bind fun B2 =>
          (transpose2 B2).bind fun B2t =>
          (dot2 A2t B2t).bind cont) = cont C) ∧
      C.shape = [S1.prod, S2.prod] ∧
      ∀ i j, ValidIdx S1 i → ValidIdx S2 j →
        C.entry [flatIdx S1 i, flatIdx S2 j] =
          multiSum SK (fun k => A.entry (k ++ i) * B.entry (j ++ k)) := by
  have hrA : reshapeT A [SK.prod, S1.prod] = some ⟨[SK.prod, S1.prod], A.data⟩ := by
    unfold reshapeT
    rw [if_pos (by rw [hA, List.prod_append]; simp [Nat.mul_comm])]
  have hrB : reshapeT B [S2.prod, SK.prod] = some ⟨[S2.prod, SK.prod], B.data⟩ := by
    unfold reshapeT
    rw [if_pos (by rw [hB, List.prod_append]; simp [Nat.mul_comm])]
  rw [hrA, hrB]
  simp only [Option.some_bind]
  set A2 : Tensor := ⟨[SK.prod, S1.prod], A.data⟩ with hA2
  set B2 : Tensor := ⟨[S2.prod, SK.prod], B.data⟩ with hB2
  obtain ⟨A2t, hA2t⟩ : ∃ T, transpose2 A2 = some T := ⟨_, rfl⟩
  obtain ⟨B2t, hB2t⟩ : ∃ T, transpose2 B2 = some T := ⟨_, rfl⟩
  obtain ⟨hA2ts, hA2te⟩ := transpose2_entry (r := SK.prod) (c := S1.prod) rfl hA2t
  obtain ⟨hB2ts, hB2te⟩ := transpose2_entry (r := S2.prod) (c := SK.prod) rfl hB2t
  rw [hA2t, hB2t]
  simp only [Option.some_bind]
  have hC := dot2_some (A := A2t) (B := B2t) hA2ts hB2ts
  obtain ⟨hCshape, hCentry⟩ := dot2_entry (m := S1.prod) (k := SK.prod) (n := S2.prod)
    hA2ts hB2ts hC
  refine ⟨_, fun cont => by rw [hC]; rfl, hCshape, fun i j hi hj => ?_⟩
  rw [hCentry _ _ (flatIdx_lt hi) (flatIdx_lt hj), multiSum_eq_sum_range]
  refine Finset.sum_congr rfl fun t ht => ?_
  have htlt := Finset.mem_range.mp ht
  rw [hA2te _ _ (flatIdx_lt hi) htlt, hB2te _ _ htlt (flatIdx_lt hj)]
  have hAe : A2.entry [t, flatIdx S1 i] = A.entry (unflat SK t ++ i) := by
    simp only [Tensor.entry, hA2, hA]
    rw [flatIdx_append (by rw [length_unflat]), flatIdx_unflat htlt]
    simp [flatIdx]
  have hBe : B2.entry [flatIdx S2 j, t] = B.entry (j ++ unflat SK t) := by
    simp only [Tensor.entry, hB2, hB]
    rw [flatIdx_append hj.1, flatIdx_unflat htlt]
    simp [flatIdx]
  rw [hAe, hBe]

theorem dotC_branch3 {S1 SK S2 : List ℕ} {A B : Tensor}
    (hA : A.shape = S1 ++ SK) (hB : B.shape = S2 ++ SK) :
    ∃ C, (∀ cont : Tensor → Option Tensor,
          ((reshapeT A [S1.prod, SK.prod]).bind fun A2 =>
          (reshapeT B [S2.prod, SK.prod]).bind fun B2 =>
          (transpose2 B2).bind fun B2t =>
          (dot2 A2 B2t).bind cont) = cont C) ∧
      C.shape = [S1.prod, S2.prod] ∧
      ∀ i j, ValidIdx S1 i → ValidIdx S2 j →
        C.entry [flatIdx S1 i, flatIdx S2 j] =
          multiSum SK (fun k => A.entry (i ++ k) * B.entry (j ++ k)) := by
  have hrA : reshapeT A [S1.prod, SK.prod] = some ⟨[S1.prod, SK.prod], A.data⟩ := by
    unfold reshapeT
    rw [if_pos (by rw [hA, List.prod_append]; simp)]
  have hrB : reshapeT B [S2.prod, SK.prod] = some ⟨[S2.prod, SK.prod], B.data⟩ := by
    unfold reshapeT
    rw [if_pos (by rw [hB, List.prod_append]; simp)]
  rw [hrA, hrB]
  simp only [Option.some_bind]
  set A2 : Tensor := ⟨[S1.prod, SK.prod], A.data⟩ with hA2
  set B2 : Tensor := ⟨[S2.prod, SK.prod], B.data⟩ with hB2
  obtain ⟨B2t, hB2t⟩ : ∃ T, transpose2 B2 = some T := ⟨_, rfl⟩
  obtain ⟨hB2ts, hB2te⟩ := transpose2_entry (r := S2.prod) (c := SK.prod) rfl hB2t
  rw [hB2t]
  simp only [Option.some_bind]
  have hC := dot2_some (A := A2) (B := B2t) rfl hB2ts
  obtain ⟨hCshape, hCentry⟩ := dot2_entry (m := S1.prod) (k := SK.prod) (n := S2.prod)
    rfl hB2ts hC
  refine ⟨_, fun cont => by rw [hC]; rfl, hCshape, fun i j hi hj => ?_⟩
  rw [hCentry _ _ (flatIdx_lt hi) (flatIdx_lt hj), multiSum_eq_sum_range]
  refine Finset.sum_congr rfl fun t ht => ?_
  have htlt := Finset.mem_range.mp ht
  rw [hB2te _ _ htlt (flatIdx_lt hj)]
  have hAe : A2.entry [flatIdx S1 i, t] = A.entry (i ++ unflat SK t) := by
    simp only [Tensor.entry, hA2, hA]
    rw [flatIdx_append hi.1, flatIdx_unflat htlt]
    simp [flatIdx]
  have hBe : B2.entry [flatIdx S2 j, t] = B.entry (j ++ unflat SK t) := by
    simp only [Tensor.entry, hB2, hB]
    rw [flatIdx_append hj.1, flatIdx_unflat htlt]
    simp [flatIdx]
  rw [hAe, hBe]

theorem dotC_branch4 {S1 SK S2 : List ℕ} {A B : Tensor}
    (hA : A.shape = SK ++ S1) (hB : B.shape = SK ++ S2) :
    ∃ C, (∀ cont : Tensor → Option Tensor,
          ((reshapeT A [SK.prod, S1.prod]).bind fun A2 =>
          (transpose2 A2).bind fun A2t =>
          (reshapeT B [SK.prod, S2.prod]).bind fun B2 =>
          (dot2 A2t B2).bind cont) = cont C) ∧
      C.shape = [S1.prod, S2.prod] ∧
      ∀ i j, ValidIdx S1 i → ValidIdx S2 j →
        C.entry [flatIdx S1 i, flatIdx S2 j] =
          multiSum SK (fun k => A.entry (k ++ i) * B.entry (k ++ j)) := by
  have hrA : reshapeT A [SK.prod, S1.prod] = some ⟨[SK.prod, S1.prod], A.data⟩ := by
    unfold reshapeT
    rw [if_pos (by rw [hA, List.prod_append]; simp [Nat.mul_comm])]
  have hrB : reshapeT B [SK.prod, S2.prod] = some ⟨[SK.prod, S2.prod], B.data⟩ := by
    unfold reshapeT
    rw [if_pos (by rw [hB, List.prod_append]; simp)]
  rw [hrA, hrB]
  simp only [Option.some_bind]
  set A2 : Tensor := ⟨[SK.prod, S1.prod], A.data⟩ with hA2
  set B2 : Tensor := ⟨[SK.prod, S2.prod], B.data⟩ with hB2
  obtain ⟨A2t, hA2t⟩ : ∃ T, transpose2 A2 = some T := ⟨_, rfl⟩
  obtain ⟨hA2ts, hA2te⟩ := transpose2_entry (r := SK.prod) (c := S1.prod) rfl hA2t
  rw [hA2t]
  simp only [Option.some_bind]
  have hC := dot2_some (A := A2t) (B := B2) hA2ts rfl
  obtain ⟨hCshape, hCentry⟩ := dot2_entry (m := S1.prod) (k := SK.prod) (n := S2.prod)
    hA2ts rfl hC
  refine ⟨_, fun cont => by rw [hC]; rfl, hCshape, fun i j hi hj => ?_⟩
  rw [hCentry _ _ (flatIdx_lt hi) (flatIdx_lt hj), multiSum_eq_sum_range]
  refine Finset.sum_congr rfl fun t ht => ?_
  have htlt := Finset.mem_range.mp ht
  rw [hA2te _ _ (flatIdx_lt hi) htlt]
  have hAe : A2.entry [t, flatIdx S1 i] = A.entry (unflat SK t ++ i) := by
    simp only [Tensor.entry, hA2, hA]
    rw [flatIdx_append (by rw [length_unflat]), flatIdx_unflat htlt]
    simp [flatIdx]
  have hBe : B2.entry [t, flatIdx S2 j] = B.entry (unflat SK t ++ j) := by
    simp only [Tensor.entry, hB2, hB]
    rw [flatIdx_append (by rw [length_unflat]), flatIdx_unflat htlt]
    simp [flatIdx]
  rw [hAe, hBe]

/-! ## Entry-level characterizations of `einsumRef`, `einsumPerm`, `permuteAxes` -/

theorem einsumRef_shape {L R O : List Char} (hs : SpecOK L R O) {A B : Tensor}
    {sz0 : Char → ℕ} (hA : A.shape = L.map sz0) (hB : B.shape = R.map sz0) :
    (einsumRef L R O A B).shape = O.map sz0 := by
  simp only [einsumRef]
  exact List.map_congr_left fun c hc => sizeDictM_eq hA hB (hs.2.2.2.1 c hc)

theorem einsumRef_entry {L R O : List Char} (hs : SpecOK L R O) {A B : Tensor}
    {sz0 : Char → ℕ} (hA : A.shape = L.map sz0) (hB : B.shape = R.map sz0)
    {idx : List ℕ} (hidx : ValidIdx (O.map sz0) idx) :
    (einsumRef L R O A B).entry idx =
      sumOverσ (remOf L O) sz0
        (fun σ => A.entry (L.map σ) * B.entry (R.map σ)) (assignOf O idx) := by
  have hmap : O.map (sizeDictM L R A.shape B.shape) = O.map sz0 :=
    List.map_congr_left fun c hc => sizeDictM_eq hA hB (hs.2.2.2.1 c hc)
  simp only [einsumRef, Tensor.entry]
  rw [hmap, unflat_flatIdx hidx, summedOf_eq hs]
  exact sumOverσ_congr_sz fun c hc =>
    sizeDictM_eq hA hB (Or.inl (mem_remOf.mp hc).1)

theorem einsumPerm_shape {P O : List Char} {sz0 : Char → ℕ} {T : Tensor}
    (hT : T.shape = P.map sz0) (hPO : ∀ c ∈ O, c ∈ P) :
    (einsumPerm P O T).shape = O.map sz0 := by
  simp only [einsumPerm]
  refine List.map_congr_left fun c hc => ?_
  rw [hT]
  exact lookupZip_map sz0 c P (hPO c hc)

theorem einsumPerm_entry {P O : List Char} {sz0 : Char → ℕ} {T : Tensor}
    (hT : T.shape = P.map sz0) (hPO : ∀ c ∈ O, c ∈ P) {idx : List ℕ}
    (hidx : ValidIdx (O.map sz0) idx) :
    (einsumPerm P O T).entry idx = T.entry (P.map (assignOf O idx)) := by
  have hmap : O.map (lookupZip P T.shape) = O.map sz0 :=
    List.map_congr_left fun c hc => by
      rw [hT]; exact lookupZip_map sz0 c P (hPO c hc)
  simp only [einsumPerm, Tensor.entry]
  rw [hmap, unflat_flatIdx hidx]

theorem permuteAxes_shape (perm : List ℕ) (T : Tensor) :
    (permuteAxes perm T).shape = perm.map (fun p => T.shape.getD p 0) := rfl

theorem permuteAxes_entry {perm : List ℕ} {T : Tensor} {idx : List ℕ}
    (hidx : ValidIdx (perm.map (fun p => T.shape.getD p 0)) idx) :
    (permuteAxes perm T).entry idx =
      T.entry ((List.range T.shape.length).map
        (fun p => idx.getD (List.indexOf p perm) 0)) := by
  simp only [permuteAxes, Tensor.entry]
  rw [unflat_flatIdx hidx]

/-! ## The prefactor as a function of the optional argument -/

/-- The result of `ndot`'s optional in-place prefactor multiplication, as a
tensor transformer. -/
def pfScale (pf : Option ℚ) (T : Tensor) : Tensor :=
  match pf with
  | some p => scaleT p T
  | none => T

/-- The same at the level of one entry. -/
def pfm (pf : Option ℚ) (x : ℚ) : ℚ :=
  match pf with
  | some p => x * p
  | none => x

theorem pfScale_shape (pf : Option ℚ) (T : Tensor) : (pfScale pf T).shape = T.shape := by
  cases pf <;> rfl

theorem pfScale_entry (pf : Option ℚ) (T : Tensor) (idx : List ℕ) :
    (pfScale pf T).entry idx = pfm pf (T.entry idx) := by
  cases pf <;> simp [pfScale, pfm, scaleT, Tensor.entry]

/-! ## Splitting a valid index across an appended shape -/

theorem validIdx_append_inv {s₁ s₂ idx : List ℕ} (h : ValidIdx (s₁ ++ s₂) idx) :
    idx = idx.take s₁.length ++ idx.drop s₁.length ∧
    ValidIdx s₁ (idx.take s₁.length) ∧ ValidIdx s₂ (idx.drop s₁.length) := by
  induction s₁ generalizing idx with
  | nil =>
    refine ⟨by simp, validIdx_nil, by simpa using h⟩
  | cons s ss ih =>
    rcases idx with - | ⟨i, is⟩
    · rcases h with ⟨hlen, -⟩; simp at hlen
    · have h' : i < s ∧ ValidIdx (ss ++ s₂) is := validIdx_cons.mp h
      obtain ⟨heq, hv1, hv2⟩ := ih h'.2
      exact ⟨by simpa using heq, validIdx_cons.mpr ⟨h'.1, hv1⟩, hv2⟩

/-- Congruence of the two-operand summand in the outer assignment: only the
values of labels appearing in an operand and not summed over matter. -/
theorem sumOverσ_F_congr {Ls Rs ls : List Char} (hnd : ls.Nodup) {sz0 : Char → ℕ}
    {A B : Tensor} {σ0 σ0' : Char → ℕ}
    (h : ∀ c, c ∈ Ls ∨ c ∈ Rs → c ∉ ls → σ0 c = σ0' c) :
    sumOverσ ls sz0 (fun σ => A.entry (Ls.map σ) * B.entry (Rs.map σ)) σ0 =
      sumOverσ ls sz0 (fun σ => A.entry (Ls.map σ) * B.entry (Rs.map σ)) σ0' := by
  rw [sumOverσ_eq_multiSum ls hnd, sumOverσ_eq_multiSum ls hnd]
  refine congrArg (multiSum _) (funext fun k => ?_)
  have hL : Ls.map (fun c => if c ∈ ls then k.getD (List.indexOf c ls) 0 else σ0 c) =
      Ls.map (fun c => if c ∈ ls then k.getD (List.indexOf c ls) 0 else σ0' c) :=
    List.map_congr_left fun c hc => by
      by_cases hcls : c ∈ ls
      · simp [hcls]
      · simp [hcls, h c (Or.inl hc) hcls]
  have hR : Rs.map (fun c => if c ∈ ls then k.getD (List.indexOf c ls) 0 else σ0 c) =
      Rs.map (fun c => if c ∈ ls then k.getD (List.indexOf c ls) 0 else σ0' c) :=
    List.map_congr_left fun c hc => by
      by_cases hcls : c ∈ ls
      · simp [hcls]
      · simp [hcls, h c (Or.inr hc) hcls]
  rw [hL, hR]

/-! ## The common tail of the dot branches: shape fix-up, prefactor, final
permutation -/

theorem finish_correct {L R O : List Char} (hs : SpecOK L R O) {A B : Tensor}
    {sz0 : Char → ℕ} (hA : A.shape = L.map sz0) (hB : B.shape = R.map sz0)
    (pf : Option ℚ) (C : Tensor)
    (hCshape : C.shape = [((keepOf L O).map sz0).prod, ((keepOf R O).map sz0).prod] ∨
               C.shape = (keepOf L O ++ keepOf R O).map sz0)
    (hCdata : ∀ m, ValidIdx ((keepOf L O ++ keepOf R O).map sz0) m →
      C.data (flatIdx ((keepOf L O ++ keepOf R O).map sz0) m) =
        sumOverσ (remOf L O) sz0 (fun σ => A.entry (L.map σ) * B.entry (R.map σ))
          (assignOf (keepOf L O ++ keepOf R O) m)) :
    ∃ T, ((if C.shape ≠ (keepOf L O ++ keepOf R O).map sz0 then
            (if 0 < ((keepOf L O ++ keepOf R O).map sz0).length then
               reshapeT C ((keepOf L O ++ keepOf R O).map sz0)
             else some (squeezeT C))
          else some C).map fun nv1 =>
            let nv2 := match pf with | some p => scaleT p nv1 | none => nv1
            if keepOf L O ++ keepOf R O = O then nv2
            else einsumPerm (keepOf L O ++ keepOf R O) O nv2) = some T ∧
      T.Eqv (pfScale pf (einsumRef L R O A B)) := by
  have hSRsplit : (keepOf L O ++ keepOf R O).map sz0 =
      (keepOf L O).map sz0 ++ (keepOf R O).map sz0 := List.map_append _ _ _
  have hprodSR : ((keepOf L O ++ keepOf R O).map sz0).prod =
      ((keepOf L O).map sz0).prod * ((keepOf R O).map sz0).prod := by
    rw [hSRsplit, List.prod_append]
  -- Step 1: the shape fix-up produces a tensor of shape `shape_result` with
  -- the branch result's flat data, in every case.
  obtain ⟨nv1, hnv1, hnv1shape, hnv1data⟩ :
      ∃ nv1, (if C.shape ≠ (keepOf L O ++ keepOf R O).map sz0 then
            (if 0 < ((keepOf L O ++ keepOf R O).map sz0).length then
               reshapeT C ((keepOf L O ++ keepOf R O).map sz0)
             else some (squeezeT C))
          else some C) = some nv1 ∧
        nv1.shape = (keepOf L O ++ keepOf R O).map sz0 ∧ nv1.data = C.data := by
    by_cases hcs : C.shape = (keepOf L O ++ keepOf R O).map sz0
    · rw [if_neg (not_not_intro hcs)]
      exact ⟨C, rfl, hcs, rfl⟩
    · rw [if_pos hcs]
      have hC2d : C.shape = [((keepOf L O).map sz0).prod, ((keepOf R O).map sz0).prod] := by
        rcases hCshape with h | h
        · exact h
        · exact absurd h hcs
      by_cases hlen : 0 < ((keepOf L O ++ keepOf R O).map sz0).length
      · rw [if_pos hlen]
        have hre : reshapeT C ((keepOf L O ++ keepOf R O).map sz0) =
            some ⟨(keepOf L O ++ keepOf R O).map sz0, C.data⟩ := by
          unfold reshapeT
          rw [if_pos (by rw [hprodSR, hC2d]; simp)]
        exact ⟨_, hre, rfl, rfl⟩
      · rw [if_neg hlen]
        have hSRnil : (keepOf L O ++ keepOf R O).map sz0 = [] :=
          List.eq_nil_of_length_eq_zero (by omega)
        have hnil : (keepOf L O).map sz0 = [] ∧ (keepOf R O).map sz0 = [] := by
          rw [hSRsplit] at hSRnil
          exact List.append_eq_nil.mp hSRnil
        refine ⟨squeezeT C, rfl, ?_, rfl⟩
        simp only [squeezeT, hC2d, hnil.1, hnil.2, hSRnil, List.prod_nil]
        rfl
  rw [hnv1]
  simp only [Option.map_some']
  refine ⟨_, rfl, ?_⟩
  have hKLO : ∀ c ∈ keepOf L O, c ∈ O := fun c hc => (mem_keepOf.mp hc).2
  have hKRO : ∀ c ∈ keepOf R O, c ∈ O := fun c hc => (mem_keepOf.mp hc).2
  have hPO : ∀ c ∈ O, c ∈ keepOf L O ++ keepOf R O := by
    intro c hc
    rcases hs.2.2.2.1 c hc with hcL | hcR
    · exact List.mem_append.mpr (Or.inl (mem_keepOf.mpr ⟨hcL, hc⟩))
    · exact List.mem_append.mpr (Or.inr (mem_keepOf.mpr ⟨hcR, hc⟩))
  have hnv2shape : (match pf with | some p => scaleT p nv1 | none => nv1).shape =
      (keepOf L O ++ keepOf R O).map sz0 := by
    cases pf <;> simpa [scaleT] using hnv1shape
  have hnv2entry : ∀ m, (match pf with | some p => scaleT p nv1 | none => nv1).entry m =
      pfm pf (nv1.entry m) := by
    intro m
    cases pf <;> simp [scaleT, pfm, Tensor.entry]
  have hnv1entry : ∀ m, ValidIdx ((keepOf L O ++ keepOf R O).map sz0) m →
      nv1.entry m =
        sumOverσ (remOf L O) sz0 (fun σ => A.entry (L.map σ) * B.entry (R.map σ))
          (assignOf (keepOf L O ++ keepOf R O) m) := by
    intro m hm
    show nv1.data (flatIdx nv1.shape m) = _
    rw [hnv1data, hnv1shape]
    exact hCdata m hm
  by_cases hPeq : keepOf L O ++ keepOf R O = O
  · rw [if_pos hPeq]
    refine Tensor.eqv_of_entry_eq ?_ ?_
    · rw [hnv2shape, hPeq, pfScale_shape, einsumRef_shape hs hA hB]
    · intro idx hidx
      rw [hnv2shape, hPeq] at hidx
      rw [hnv2entry, hnv1entry idx (by rw [hPeq]; exact hidx), pfScale_entry,
        einsumRef_entry hs hA hB hidx, hPeq]
  · rw [if_neg hPeq]
    have hT2shape : (match pf with | some p => scaleT p nv1 | none => nv1).shape =
        (keepOf L O ++ keepOf R O).map sz0 := hnv2shape
    refine Tensor.eqv_of_entry_eq ?_ ?_
    · rw [einsumPerm_shape hT2shape hPO, pfScale_shape, einsumRef_shape hs hA hB]
    · intro idx hidx
      rw [einsumPerm_shape hT2shape hPO] at hidx
      rw [einsumPerm_entry hT2shape hPO hidx, hnv2entry, pfScale_entry,
        einsumRef_entry hs hA hB hidx]
      congr 1
      have hmap_valid : ValidIdx ((keepOf L O ++ keepOf R O).map sz0)
          ((keepOf L O ++ keepOf R O).map (assignOf O idx)) :=
        validIdx_map_of fun c hc => by
          rcases List.mem_append.mp hc with hcKL | hcKR
          · exact getD_lt_of_validIdx_map hidx (hKLO c hcKL)
          · exact getD_lt_of_validIdx_map hidx (hKRO c hcKR)
      rw [hnv1entry _ hmap_valid]
      refine sumOverσ_F_congr (nodup_remOf hs.1) ?_
      intro c hcLR hcREM
      have hcO : c ∈ O := by
        rcases hcLR with hcL | hcR
        · by_contra hO'
          exact hcREM (mem_remOf.mpr ⟨hcL, hO'⟩)
        · by_contra hO'
          exact hcREM (mem_remOf.mpr ⟨hs.2.2.2.2.2.2 c hcR hO', hO'⟩)
      exact assignOf_map_self (assignOf O idx) (hPO c hcO)

/-! ## From the 2-D dot entries to the natural-order data hypothesis -/

theorem hCdata_of_2d {KLm KRm : List ℕ} {C : Tensor}
    (hCshape : C.shape = [KLm.prod, KRm.prod]) (G : List ℕ → ℚ)
    (hCe : ∀ i j, ValidIdx KLm i → ValidIdx KRm j →
      C.entry [flatIdx KLm i, flatIdx KRm j] = G (i ++ j)) :
    ∀ m, ValidIdx (KLm ++ KRm) m → C.data (flatIdx (KLm ++ KRm) m) = G m := by
  intro m hm
  obtain ⟨hmeq, hv1, hv2⟩ := validIdx_append_inv hm
  have h1 : flatIdx (KLm ++ KRm) m =
      flatIdx KLm (m.take KLm.length) * KRm.prod + flatIdx KRm (m.drop KLm.length) := by
    conv_lhs => rw [hmeq]
    exact flatIdx_append hv1.1
  have h2 := hCe _ _ hv1 hv2
  have h3 : C.entry [flatIdx KLm (m.take KLm.length), flatIdx KRm (m.drop KLm.length)] =
      C.data (flatIdx KLm (m.take KLm.length) * KRm.prod +
        flatIdx KRm (m.drop KLm.length)) := by
    simp [Tensor.entry, hCshape, flatIdx]
  rw [h1, ← h3, h2]
  congr 1
  exact hmeq.symm

/-! ## Restoring the output halves from the assembled assignment -/

theorem map_assignOf_append_left {KL KR : List Char} {i j : List ℕ}
    (hKLnd : KL.Nodup) (hlen : i.length = KL.length) :
    KL.map (assignOf (KL ++ KR) (i ++ j)) = i := by
  have h : ∀ c ∈ KL, assignOf (KL ++ KR) (i ++ j) c = i.getD (List.indexOf c KL) 0 :=
    fun c hc => assignOf_append_left hlen hc
  rw [List.map_congr_left h]
  exact map_getD_indexOf hKLnd i hlen

theorem map_assignOf_append_right {KL KR : List Char} {i j : List ℕ}
    (hKRnd : KR.Nodup) (hlen : i.length = KL.length) (hlenj : j.length = KR.length)
    (hdisj : ∀ c ∈ KR, c ∉ KL) :
    KR.map (assignOf (KL ++ KR) (i ++ j)) = j := by
  have h : ∀ c ∈ KR, assignOf (KL ++ KR) (i ++ j) c = j.getD (List.indexOf c KR) 0 :=
    fun c hc => assignOf_append_right hlen (hdisj c hc)
  rw [List.map_congr_left h]
  exact map_getD_indexOf hKRnd j hlenj

/-! ## Per-branch sum conversions: the flattened-multiply sums equal the
generic label-assignment sums -/

section BranchConv

variable {L R O : List Char} {A B : Tensor} {sz0 : Char → ℕ}

theorem keep_disj_of_spec (hs : SpecOK L R O) :
    ∀ c ∈ keepOf R O, c ∉ keepOf L O := by
  intro c hc hcL
  rcases mem_keepOf.mp hc with ⟨hcR, hcO⟩
  rcases mem_keepOf.mp hcL with ⟨hcLL, -⟩
  exact hs.2.2.2.2.1 c hcLL hcR hcO

theorem keep_not_rem {X : List Char} {c : Char} (hc : c ∈ keepOf X O) :
    c ∉ remOf L O := fun hr => (mem_remOf.mp hr).2 (mem_keepOf.mp hc).2

theorem branch_conv_core (hs : SpecOK L R O) {i j : List ℕ}
    (asmL asmR : List ℕ → List ℕ)
    (hLmap : ∀ k, ValidIdx ((remOf L O).map sz0) k →
      L.map (fun c => if c ∈ remOf L O then k.getD (List.indexOf c (remOf L O)) 0
        else assignOf (keepOf L O ++ keepOf R O) (i ++ j) c) = asmL k)
    (hRmap : ∀ k, ValidIdx ((remOf L O).map sz0) k →
      R.map (fun c => if c ∈ remOf L O then k.getD (List.indexOf c (remOf L O)) 0
        else assignOf (keepOf L O ++ keepOf R O) (i ++ j) c) = asmR k) :
    multiSum ((remOf L O).map sz0) (fun k => A.entry (asmL k) * B.entry (asmR k)) =
      sumOverσ (remOf L O) sz0 (fun σ => A.entry (L.map σ) * B.entry (R.map σ))
        (assignOf (keepOf L O ++ keepOf R O) (i ++ j)) := by
  rw [sumOverσ_eq_multiSum _ (nodup_remOf hs.1) _]
  refine multiSum_congr fun k hk => ?_
  rw [hLmap k hk, hRmap k hk]

theorem map_keep_part {X : List Char} (σ0 : Char → ℕ) (k : List ℕ) :
    (keepOf X O).map (fun c => if c ∈ remOf L O then k.getD (List.indexOf c (remOf L O)) 0
      else σ0 c) = (keepOf X O).map σ0 := by
  refine List.map_congr_left fun c hc => ?_
  rw [if_neg (keep_not_rem hc)]

theorem map_rem_part (hs : SpecOK L R O) {i j : List ℕ} {k : List ℕ}
    (hk : ValidIdx ((remOf L O).map sz0) k) :
    (remOf L O).map (fun c => if c ∈ remOf L O then k.getD (List.indexOf c (remOf L O)) 0
      else assignOf (keepOf L O ++ keepOf R O) (i ++ j) c) = k := by
  have h : ∀ c ∈ remOf L O, (if c ∈ remOf L O then k.getD (List.indexOf c (remOf L O)) 0
      else assignOf (keepOf L O ++ keepOf R O) (i ++ j) c) =
      k.getD (List.indexOf c (remOf L O)) 0 := fun c hc => if_pos hc
  rw [List.map_congr_left h]
  exact map_getD_indexOf (nodup_remOf hs.1) k (by simpa using hk.1)

end BranchConv

/-! ## Position bookkeeping for the tensordot branch -/

theorem getD_mem {α : Type} {L : List α} {p : ℕ} (hp : p < L.length) (d : α) :
    L.getD p d ∈ L := by
  rw [getD_eq_get hp d]
  exact List.get_mem _ _ hp

theorem nodup_getD_inj {α : Type} {L : List α} (h : L.Nodup) {p q : ℕ}
    (hp : p < L.length) (hq : q < L.length) (d : α) (heq : L.getD p d = L.getD q d) :
    p = q := by
  rw [getD_eq_get hp d, getD_eq_get hq d] at heq
  have := (List.Nodup.get_inj_iff h).mp heq
  simpa using this

theorem nodup_indexOf_getD {α : Type} [DecidableEq α] {L : List α} (h : L.Nodup)
    {p : ℕ} (hp : p < L.length) (d : α) : List.indexOf (L.getD p d) L = p := by
  have hmem : L.getD p d ∈ L := getD_mem hp d
  have hlt : List.indexOf (L.getD p d) L < L.length := List.indexOf_lt_length.mpr hmem
  refine nodup_getD_inj h hlt hp d ?_
  rw [getD_eq_get hlt d, List.indexOf_get hlt]

theorem indexOf_inj_of_mem {α : Type} [DecidableEq α] {L : List α} {a b : α}
    (ha : a ∈ L) (hb : b ∈ L) (h : List.indexOf a L = List.indexOf b L) : a = b := by
  have hlta : List.indexOf a L < L.length := List.indexOf_lt_length.mpr ha
  have hltb : List.indexOf b L < L.length := List.indexOf_lt_length.mpr hb
  have h1 : L.get ⟨List.indexOf a L, hlta⟩ = a := List.indexOf_get hlta
  have h2 : L.get ⟨List.indexOf b L, hltb⟩ = b := List.indexOf_get hltb
  rw [← h1, ← h2]
  congr 1
  exact Fin.ext h

theorem map_eq_range_map {α β : Type} (f : α → β) (L : List α) (d : α) :
    L.map f = (List.range L.length).map (fun p => f (L.getD p d)) := by
  induction L with
  | nil => rfl
  | cons x xs ih =>
    have hrange : List.range (x :: xs).length = 0 :: (List.range xs.length).map Nat.succ := by
      simp [List.range_succ_eq_map]
    rw [hrange, List.map_cons, List.map_cons, List.map_map]
    congr 1

/-! ## The tensordot branch -/

theorem tensordotC {L R O : List Char} (hs : SpecOK L R O) {A B : Tensor}
    {sz0 : Char → ℕ} (hA : A.shape = L.map sz0) (hB : B.shape = R.map sz0) :
    ∃ C, (∀ cont : Tensor → Option Tensor,
        (tensordotM A B ((remOf L O).map (fun c => List.indexOf c L))
            ((remOf L O).map (fun c => List.indexOf c R))).bind cont = cont C) ∧
      C.shape = (keepOf L O ++ keepOf R O).map sz0 ∧
      ∀ m, ValidIdx ((keepOf L O ++ keepOf R O).map sz0) m →
        C.data (flatIdx ((keepOf L O ++ keepOf R O).map sz0) m) =
          sumOverσ (remOf L O) sz0 (fun σ => A.entry (L.map σ) * B.entry (R.map σ))
            (assignOf (keepOf L O ++ keepOf R O) m) := by
  have hLnd : L.Nodup := hs.1
  have hRnd : R.Nodup := hs.2.1
  have hREMsubL : ∀ c ∈ remOf L O, c ∈ L := fun c hc => (mem_remOf.mp hc).1
  have hREMsubR : ∀ c ∈ remOf L O, c ∈ R := fun c hc => mem_remOf_mem_R hs hc
  have hlenA : A.shape.length = L.length := by rw [hA, List.length_map]
  have hlenB : B.shape.length = R.length := by rw [hB, List.length_map]
  set lp := (remOf L O).map (fun c => List.indexOf c L) with hlp
  set rp := (remOf L O).map (fun c => List.indexOf c R) with hrp
  have hAgetD : ∀ p, p < L.length → A.shape.getD p 0 = sz0 (L.getD p 'x') := by
    intro p hp
    rw [hA]
    exact getD_map_of_lt sz0 L hp 0 'x'
  have hBgetD : ∀ p, p < R.length → B.shape.getD p 0 = sz0 (R.getD p 'x') := by
    intro p hp
    rw [hB]
    exact getD_map_of_lt sz0 R hp 0 'x'
  have hlpsz : lp.map (fun p => A.shape.getD p 0) = (remOf L O).map sz0 := by
    rw [hlp, List.map_map]
    refine List.map_congr_left fun c hc => ?_
    have hcL := hREMsubL c hc
    have hlt : List.indexOf c L < L.length := List.indexOf_lt_length.mpr hcL
    show A.shape.getD (List.indexOf c L) 0 = sz0 c
    rw [hAgetD _ hlt]
    congr 1
    rw [getD_eq_get hlt 'x']
    exact List.indexOf_get hlt
  have hrpsz : rp.map (fun p => B.shape.getD p 0) = (remOf L O).map sz0 := by
    rw [hrp, List.map_map]
    refine List.map_congr_left fun c hc => ?_
    have hcR := hREMsubR c hc
    have hlt : List.indexOf c R < R.length := List.indexOf_lt_length.mpr hcR
    show B.shape.getD (List.indexOf c R) 0 = sz0 c
    rw [hBgetD _ hlt]
    congr 1
    rw [getD_eq_get hlt 'x']
    exact List.indexOf_get hlt
  have hlp_lt : ∀ p ∈ lp, p < A.shape.length := by
    intro p hp
    rcases List.mem_map.mp hp with ⟨c, hc, rfl⟩
    rw [hlenA]
    exact List.indexOf_lt_length.mpr (hREMsubL c hc)
  have hrp_lt : ∀ p ∈ rp, p < B.shape.length := by
    intro p hp
    rcases List.mem_map.mp hp with ⟨c, hc, rfl⟩
    rw [hlenB]
    exact List.indexOf_lt_length.mpr (hREMsubR c hc)
  have hguard : lp.map (fun p => A.shape.getD p 0) = rp.map (fun p => B.shape.getD p 0)
      ∧ lp.length = rp.length
      ∧ (∀ p ∈ lp, p < A.shape.length) ∧ (∀ p ∈ rp, p < B.shape.length) := by
    refine ⟨hlpsz.trans hrpsz.symm, by rw [hlp, hrp]; simp, hlp_lt, hrp_lt⟩
  -- membership of a position in the contracted-position lists
  have hmem_lp : ∀ p, p < L.length → (p ∈ lp ↔ L.getD p 'x' ∈ remOf L O) := by
    intro p hp
    constructor
    · intro hplp
      rcases List.mem_map.mp hplp with ⟨c, hc, hceq⟩
      have hcL := hREMsubL c hc
      have hlt : List.indexOf c L < L.length := List.indexOf_lt_length.mpr hcL
      rw [← hceq, getD_eq_get hlt 'x', List.indexOf_get hlt]
      exact hc
    · intro hgetd
      exact List.mem_map.mpr ⟨L.getD p 'x', hgetd, nodup_indexOf_getD hLnd hp 'x'⟩
  have hmem_rp : ∀ p, p < R.length → (p ∈ rp ↔ R.getD p 'x' ∈ remOf L O) := by
    intro p hp
    constructor
    · intro hprp
      rcases List.mem_map.mp hprp with ⟨c, hc, hceq⟩
      have hcR := hREMsubR c hc
      have hlt : List.indexOf c R < R.length := List.indexOf_lt_length.mpr hcR
      rw [← hceq, getD_eq_get hlt 'x', List.indexOf_get hlt]
      exact hc
    · intro hgetd
      exact List.mem_map.mpr ⟨R.getD p 'x', hgetd, nodup_indexOf_getD hRnd hp 'x'⟩
  -- a label of `L` outside the removed set is an output label, and conversely
  have hLout : ∀ p, p < L.length → (L.getD p 'x' ∉ remOf L O ↔ L.getD p 'x' ∈ O) := by
    intro p hp
    have hcL : L.getD p 'x' ∈ L := getD_mem hp 'x'
    constructor
    · intro hnr
      by_contra hO'
      exact hnr (mem_remOf.mpr ⟨hcL, hO'⟩)
    · intro hO' hr
      exact (mem_remOf.mp hr).2 hO'
  have hRout : ∀ p, p < R.length → (R.getD p 'x' ∉ remOf L O ↔ R.getD p 'x' ∈ O) := by
    intro p hp
    have hcR : R.getD p 'x' ∈ R := getD_mem hp 'x'
    constructor
    · intro hnr
      by_contra hO'
      have hcL : R.getD p 'x' ∈ L := hs.2.2.2.2.2.2 _ hcR hO'
      exact hnr (mem_remOf.mpr ⟨hcL, hO'⟩)
    · intro hO' hr
      exact (mem_remOf.mp hr).2 hO'
  -- the canonical free-position lists
  have hnotinA_eq : (List.range A.shape.length).filter (fun k => decide (k ∉ lp)) =
      (List.range L.length).filter (fun p => decide (L.getD p 'x' ∈ O)) := by
    rw [hlenA]
    refine List.filter_congr fun p hmem => ?_
    have hp := List.mem_range.mp hmem
    by_cases hrem : L.getD p 'x' ∈ remOf L O
    · have h1 : p ∈ lp := (hmem_lp p hp).mpr hrem
      have h2 : L.getD p 'x' ∉ O := (mem_remOf.mp hrem).2
      rw [decide_eq_false (not_not_intro h1), decide_eq_false h2]
    · have h1 : p ∉ lp := fun h => hrem ((hmem_lp p hp).mp h)
      have h2 : L.getD p 'x' ∈ O := (hLout p hp).mp hrem
      rw [decide_eq_true h1, decide_eq_true h2]
  have hnotinB_eq : (List.range B.shape.length).filter (fun k => decide (k ∉ rp)) =
      (List.range R.length).filter (fun p => decide (R.getD p 'x' ∈ O)) := by
    rw [hlenB]
    refine List.filter_congr fun p hmem => ?_
    have hp := List.mem_range.mp hmem
    by_cases hrem : R.getD p 'x' ∈ remOf L O
    · have h1 : p ∈ rp := (hmem_rp p hp).mpr hrem
      have h2 : R.getD p 'x' ∉ O := (mem_remOf.mp hrem).2
      rw [decide_eq_false (not_not_intro h1), decide_eq_false h2]
    · have h1 : p ∉ rp := fun h => hrem ((hmem_rp p hp).mp h)
      have h2 : R.getD p 'x' ∈ O := (hRout p hp).mp hrem
      rw [decide_eq_true h1, decide_eq_true h2]
  set NA := (List.range L.length).filter (fun p => decide (L.getD p 'x' ∈ O)) with hNA
  set NB := (List.range R.length).filter (fun p => decide (R.getD p 'x' ∈ O)) with hNB
  have hNAlt : ∀ p ∈ NA, p < L.length := fun p hp =>
    List.mem_range.mp (List.mem_filter.mp hp).1
  have hNBlt : ∀ p ∈ NB, p < R.length := fun p hp =>
    List.mem_range.mp (List.mem_filter.mp hp).1
  have hKL_NA : NA.map (fun p => L.getD p 'x') = keepOf L O :=
    filter_range_map_getD L (fun c => decide (c ∈ O)) 'x'
  have hKR_NB : NB.map (fun p => R.getD p 'x') = keepOf R O :=
    filter_range_map_getD R (fun c => decide (c ∈ O)) 'x'
  have holdA : NA.map (fun p => A.shape.getD p 0) = (keepOf L O).map sz0 := by
    rw [← hKL_NA, List.map_map]
    exact List.map_congr_left fun p hp => hAgetD p (hNAlt p hp)
  have holdB : NB.map (fun p => B.shape.getD p 0) = (keepOf R O).map sz0 := by
    rw [← hKR_NB, List.map_map]
    exact List.map_congr_left fun p hp => hBgetD p (hNBlt p hp)
  have hNAlen : NA.length = (keepOf L O).length := by
    rw [← hKL_NA, List.length_map]
  have hNBlen : NB.length = (keepOf R O).length := by
    rw [← hKR_NB, List.length_map]
  have hlplen : lp.length = (remOf L O).length := by rw [hlp, List.length_map]
  have hrplen : rp.length = (remOf L O).length := by rw [hrp, List.length_map]
  -- the permuted operands have block shapes: kept axes then removed (A),
  -- removed axes then kept (B)
  have hAt : (permuteAxes (NA ++ lp) A).shape =
      (keepOf L O).map sz0 ++ (remOf L O).map sz0 := by
    rw [permuteAxes_shape, List.map_append, holdA, hlpsz]
  have hBt : (permuteAxes (rp ++ NB) B).shape =
      (remOf L O).map sz0 ++ (keepOf R O).map sz0 := by
    rw [permuteAxes_shape, List.map_append, hrpsz, holdB]
  obtain ⟨Cd, hchain, hCdshape, hCdentry⟩ := dotC_branch1 hAt hBt
  have hre : reshapeT Cd ((keepOf L O).map sz0 ++ (keepOf R O).map sz0) =
      some ⟨(keepOf L O).map sz0 ++ (keepOf R O).map sz0, Cd.data⟩ := by
    unfold reshapeT
    rw [if_pos (by rw [hCdshape, List.prod_append]; simp)]
  refine ⟨⟨(keepOf L O).map sz0 ++ (keepOf R O).map sz0, Cd.data⟩, fun cont => ?_,
    by simp [List.map_append], ?_⟩
  · -- the full tensordot pipeline against an arbitrary continuation
    unfold tensordotM
    rw [if_pos hguard, hnotinA_eq, hnotinB_eq]
    simp only [Option.bind_assoc]
    rw [hlpsz, holdA, holdB, hchain, hre]
    rfl
  -- the data of the result, at a valid natural-order index
  intro m hm
  rw [List.map_append] at hm ⊢
  show Cd.data (flatIdx ((keepOf L O).map sz0 ++ (keepOf R O).map sz0) m) = _
  refine hCdata_of_2d hCdshape
    (fun m1 => sumOverσ (remOf L O) sz0 (fun σ => A.entry (L.map σ) * B.entry (R.map σ))
      (assignOf (keepOf L O ++ keepOf R O) m1)) (fun i j hi hj => ?_) m hm
  rw [hCdentry i j hi hj]
  show _ = sumOverσ (remOf L O) sz0 (fun σ => A.entry (L.map σ) * B.entry (R.map σ))
      (assignOf (keepOf L O ++ keepOf R O) (i ++ j))
  rw [sumOverσ_eq_multiSum _ (nodup_remOf hs.1) _]
  refine multiSum_congr fun k hk => ?_
  have hklen : k.length = (remOf L O).length := by simpa using hk.1
  have hilen : i.length = (keepOf L O).length := by simpa using hi.1
  have hjlen : j.length = (keepOf R O).length := by simpa using hj.1
  -- the A side
  have hAside : (permuteAxes (NA ++ lp) A).entry (i ++ k) =
      A.entry (L.map (fun c => if c ∈ remOf L O then k.getD (List.indexOf c (remOf L O)) 0
        else assignOf (keepOf L O ++ keepOf R O) (i ++ j) c)) := by
    have hidx : ValidIdx ((NA ++ lp).map (fun p => A.shape.getD p 0)) (i ++ k) := by
      rw [List.map_append, holdA, hlpsz]
      exact validIdx_append hi hk
    rw [permuteAxes_entry hidx]
    congr 1
    rw [map_eq_range_map (L := L) _ 'x', hlenA]
    refine List.map_congr_left fun p hmem => ?_
    have hp := List.mem_range.mp hmem
    by_cases hrem : L.getD p 'x' ∈ remOf L O
    · have hplp : p ∈ lp := (hmem_lp p hp).mpr hrem
      have hpNA : p ∉ NA := by
        intro hin
        have := (List.mem_filter.mp hin).2
        simp only [decide_eq_true_eq] at this
        exact (mem_remOf.mp hrem).2 this
      rw [indexOf_append_of_not_mem hpNA]
      rw [List.getD_append_right _ _ _ _ (by omega : i.length ≤ NA.length + List.indexOf p lp)]
      rw [if_pos hrem]
      have harith : NA.length + List.indexOf p lp - i.length = List.indexOf p lp := by
        rw [hilen, ← hNAlen]; omega
      rw [harith]
      congr 1
      have hceq : p = List.indexOf (L.getD p 'x') L := (nodup_indexOf_getD hLnd hp 'x').symm
      conv_lhs => rw [hceq]
      exact indexOf_map_inj (remOf L O) (fun c => List.indexOf c L)
        (fun a ha b hb h => indexOf_inj_of_mem (hREMsubL a ha) (hREMsubL b hb) h) hrem
    · have hplp : p ∉ lp := fun h => hrem ((hmem_lp p hp).mp h)
      have hpNA : p ∈ NA := by
        rw [hNA]
        refine List.mem_filter.mpr ⟨List.mem_range.mpr hp, ?_⟩
        simp only [decide_eq_true_eq]
        exact (hLout p hp).mp hrem
      rw [List.indexOf_append_of_mem hpNA]
      have hlt2 : List.indexOf p NA < i.length := by
        rw [hilen, ← hNAlen]
        exact List.indexOf_lt_length.mpr hpNA
      rw [List.getD_append _ _ _ _ hlt2, if_neg hrem]
      have hcKL : L.getD p 'x' ∈ keepOf L O :=
        mem_keepOf.mpr ⟨getD_mem hp 'x', (hLout p hp).mp hrem⟩
      rw [assignOf_append_left hilen hcKL]
      congr 1
      have : keepOf L O = NA.map (fun q => L.getD q 'x') := hKL_NA.symm
      rw [this]
      exact (indexOf_map_inj NA (fun q => L.getD q 'x')
        (fun a ha b hb h => nodup_getD_inj hLnd (hNAlt a ha) (hNAlt b hb) 'x' h) hpNA).symm ▸
        (indexOf_map_inj NA (fun q => L.getD q 'x')
          (fun a ha b hb h => nodup_getD_inj hLnd (hNAlt a ha) (hNAlt b hb) 'x' h) hpNA)
  -- the B side
  have hBside : (permuteAxes (rp ++ NB) B).entry (k ++ j) =
      B.entry (R.map (fun c => if c ∈ remOf L O then k.getD (List.indexOf c (remOf L O)) 0
        else assignOf (keepOf L O ++ keepOf R O) (i ++ j) c)) := by
    have hidx : ValidIdx ((rp ++ NB).map (fun p => B.shape.getD p 0)) (k ++ j) := by
      rw [List.map_append, hrpsz, holdB]
      exact validIdx_append hk hj
    rw [permuteAxes_entry hidx]
    congr 1
    rw [map_eq_range_map (L := R) _ 'x', hlenB]
    refine List.map_congr_left fun p hmem => ?_
    have hp := List.mem_range.mp hmem
    by_cases hrem : R.getD p 'x' ∈ remOf L O
    · have hprp : p ∈ rp := (hmem_rp p hp).mpr hrem
      rw [List.indexOf_append_of_mem hprp]
      have hlt2 : List.indexOf p rp < k.length := by
        rw [hklen, ← hrplen]
        exact List.indexOf_lt_length.mpr hprp
      rw [List.getD_append _ _ _ _ hlt2, if_pos hrem]
      congr 1
      have hceq : p = List.indexOf (R.getD p 'x') R := (nodup_indexOf_getD hRnd hp 'x').symm
      conv_lhs => rw [hceq]
      exact indexOf_map_inj (remOf L O) (fun c => List.indexOf c R)
        (fun a ha b hb h => indexOf_inj_of_mem (hREMsubR a ha) (hREMsubR b hb) h) hrem
    · have hprp : p ∉ rp := fun h => hrem ((hmem_rp p hp).mp h)
      have hpNB : p ∈ NB := by
        rw [hNB]
        refine List.mem_filter.mpr ⟨List.mem_range.mpr hp, ?_⟩
        simp only [decide_eq_true_eq]
        exact (hRout p hp).mp hrem
      rw [indexOf_append_of_not_mem hprp]
      rw [List.getD_append_right _ _ _ _ (by omega : k.length ≤ rp.length + List.indexOf p NB)]
      have harith : rp.length + List.indexOf p NB - k.length = List.indexOf p NB := by
        rw [hklen, ← hrplen]; omega
      rw [harith, if_neg hrem]
      have hcO : R.getD p 'x' ∈ O := (hRout p hp).mp hrem
      have hcKR : R.getD p 'x' ∈ keepOf R O :=
        mem_keepOf.mpr ⟨getD_mem hp 'x', hcO⟩
      have hcnotKL : R.getD p 'x' ∉ keepOf L O := by
        intro hin
        rcases mem_keepOf.mp hin with ⟨hcL, -⟩
        exact hs.2.2.2.2.1 _ hcL (getD_mem hp 'x') hcO
      rw [assignOf_append_right hilen hcnotKL]
      congr 1
      have : keepOf R O = NB.map (fun q => R.getD q 'x') := hKR_NB.symm
      rw [this]
      exact (indexOf_map_inj NB (fun q => R.getD q 'x')
        (fun a ha b hb h => nodup_getD_inj hRnd (hNBlt a ha) (hNBlt b hb) 'x' h) hpNB).symm
  rw [hAside, hBside]

/-! ## The four dot-branch sum conversions -/

section ConvBranches

variable {L R O : List Char} {A B : Tensor} {sz0 : Char → ℕ}

theorem conv_branch1 (hs : SpecOK L R O)
    (hLd : L = keepOf L O ++ remOf L O) (hRd : R = remOf L O ++ keepOf R O)
    {i j : List ℕ} (hi : ValidIdx ((keepOf L O).map sz0) i)
    (hj : ValidIdx ((keepOf R O).map sz0) j) :
    multiSum ((remOf L O).map sz0) (fun k => A.entry (i ++ k) * B.entry (k ++ j)) =
      sumOverσ (remOf L O) sz0 (fun σ => A.entry (L.map σ) * B.entry (R.map σ))
        (assignOf (keepOf L O ++ keepOf R O) (i ++ j)) := by
  rw [sumOverσ_eq_multiSum _ (nodup_remOf hs.1) _]
  refine multiSum_congr fun k hk => ?_
  have hilen : i.length = (keepOf L O).length := by simpa using hi.1
  have hjlen : j.length = (keepOf R O).length := by simpa using hj.1
  have h1 : (keepOf L O).map (fun c => if c ∈ remOf L O
        then k.getD (List.indexOf c (remOf L O)) 0
        else assignOf (keepOf L O ++ keepOf R O) (i ++ j) c) = i := by
    rw [map_keep_part]
    exact map_assignOf_append_left (nodup_keepOf hs.1) hilen
  have h2 := map_rem_part (i := i) (j := j) hs hk
  have h3 : (keepOf R O).map (fun c => if c ∈ remOf L O
        then k.getD (List.indexOf c (remOf L O)) 0
        else assignOf (keepOf L O ++ keepOf R O) (i ++ j) c) = j := by
    rw [map_keep_part]
    exact map_assignOf_append_right (nodup_keepOf hs.2.1) hilen hjlen (keep_disj_of_spec hs)
  have hLmap := (congrArg (List.map (fun c => if c ∈ remOf L O
      then k.getD (List.indexOf c (remOf L O)) 0
      else assignOf (keepOf L O ++ keepOf R O) (i ++ j) c)) hLd).trans
    ((List.map_append _ _ _).trans (by rw [h1, h2]))
  have hRmap := (congrArg (List.map (fun c => if c ∈ remOf L O
      then k.getD (List.indexOf c (remOf L O)) 0
      else assignOf (keepOf L O ++ keepOf R O) (i ++ j) c)) hRd).trans
    ((List.map_append _ _ _).trans (by rw [h2, h3]))
  rw [hLmap, hRmap]

theorem conv_branch2 (hs : SpecOK L R O)
    (hLd : L = remOf L O ++ keepOf L O) (hRd : R = keepOf R O ++ remOf L O)
    {i j : List ℕ} (hi : ValidIdx ((keepOf L O).map sz0) i)
    (hj : ValidIdx ((keepOf R O).map sz0) j) :
    multiSum ((remOf L O).map sz0) (fun k => A.entry (k ++ i) * B.entry (j ++ k)) =
      sumOverσ (remOf L O) sz0 (fun σ => A.entry (L.map σ) * B.entry (R.map σ))
        (assignOf (keepOf L O ++ keepOf R O) (i ++ j)) := by
  rw [sumOverσ_eq_multiSum _ (nodup_remOf hs.1) _]
  refine multiSum_congr fun k hk => ?_
  have hilen : i.length = (keepOf L O).length := by simpa using hi.1
  have hjlen : j.length = (keepOf R O).length := by simpa using hj.1
  have h1 : (keepOf L O).map (fun c => if c ∈ remOf L O
        then k.getD (List.indexOf c (remOf L O)) 0
        else assignOf (keepOf L O ++ keepOf R O) (i ++ j) c) = i := by
    rw [map_keep_part]
    exact map_assignOf_append_left (nodup_keepOf hs.1) hilen
  have h2 := map_rem_part (i := i) (j := j) hs hk
  have h3 : (keepOf R O).map (fun c => if c ∈ remOf L O
        then k.getD (List.indexOf c (remOf L O)) 0
        else assignOf (keepOf L O ++ keepOf R O) (i ++ j) c) = j := by
    rw [map_keep_part]
    exact map_assignOf_append_right (nodup_keepOf hs.2.1) hilen hjlen (keep_disj_of_spec hs)
  have hLmap := (congrArg (List.map (fun c => if c ∈ remOf L O
      then k.getD (List.indexOf c (remOf L O)) 0
      else assignOf (keepOf L O ++ keepOf R O) (i ++ j) c)) hLd).trans
    ((List.map_append _ _ _).trans (by rw [h1, h2]))
  have hRmap := (congrArg (List.map (fun c => if c ∈ remOf L O
      then k.getD (List.indexOf c (remOf L O)) 0
      else assignOf (keepOf L O ++ keepOf R O) (i ++ j) c)) hRd).trans
    ((List.map_append _ _ _).trans (by rw [h2, h3]))
  rw [hLmap, hRmap]

theorem conv_branch3 (hs : SpecOK L R O)
    (hLd : L = keepOf L O ++ remOf L O) (hRd : R = keepOf R O ++ remOf L O)
    {i j : List ℕ} (hi : ValidIdx ((keepOf L O).map sz0) i)
    (hj : ValidIdx ((keepOf R O).map sz0) j) :
    multiSum ((remOf L O).map sz0) (fun k => A.entry (i ++ k) * B.entry (j ++ k)) =
      sumOverσ (remOf L O) sz0 (fun σ => A.entry (L.map σ) * B.entry (R.map σ))
        (assignOf (keepOf L O ++ keepOf R O) (i ++ j)) := by
  rw [sumOverσ_eq_multiSum _ (nodup_remOf hs.1) _]
  refine multiSum_congr fun k hk => ?_
  have hilen : i.length = (keepOf L O).length := by simpa using hi.1
  have hjlen : j.length = (keepOf R O).length := by simpa using hj.1
  have h1 : (keepOf L O).map (fun c => if c ∈ remOf L O
        then k.getD (List.indexOf c (remOf L O)) 0
        else assignOf (keepOf L O ++ keepOf R O) (i ++ j) c) = i := by
    rw [map_keep_part]
    exact map_assignOf_append_left (nodup_keepOf hs.1) hilen
  have h2 := map_rem_part (i := i) (j := j) hs hk
  have h3 : (keepOf R O).map (fun c => if c ∈ remOf L O
        then k.getD (List.indexOf c (remOf L O)) 0
        else assignOf (keepOf L O ++ keepOf R O) (i ++ j) c) = j := by
    rw [map_keep_part]
    exact map_assignOf_append_right (nodup_keepOf hs.2.1) hilen hjlen (keep_disj_of_spec hs)
  have hLmap := (congrArg (List.map (fun c => if c ∈ remOf L O
      then k.getD (List.indexOf c (remOf L O)) 0
      else assignOf (keepOf L O ++ keepOf R O) (i ++ j) c)) hLd).trans
    ((List.map_append _ _ _).trans (by rw [h1, h2]))
  have hRmap := (congrArg (List.map (fun c => if c ∈ remOf L O
      then k.getD (List.indexOf c (remOf L O)) 0
      else assignOf (keepOf L O ++ keepOf R O) (i ++ j) c)) hRd).trans
    ((List.map_append _ _ _).trans (by rw [h2, h3]))
  rw [hLmap, hRmap]

theorem conv_branch4 (hs : SpecOK L R O)
    (hLd : L = remOf L O ++ keepOf L O) (hRd : R = remOf L O ++ keepOf R O)
    {i j : List ℕ} (hi : ValidIdx ((keepOf L O).map sz0) i)
    (hj : ValidIdx ((keepOf R O).map sz0) j) :
    multiSum ((remOf L O).map sz0) (fun k => A.entry (k ++ i) * B.entry (k ++ j)) =
      sumOverσ (remOf L O) sz0 (fun σ => A.entry (L.map σ) * B.entry (R.map σ))
        (assignOf (keepOf L O ++ keepOf R O) (i ++ j)) := by
  rw [sumOverσ_eq_multiSum _ (nodup_remOf hs.1) _]
  refine multiSum_congr fun k hk => ?_
  have hilen : i.length = (keepOf L O).length := by simpa using hi.1
  have hjlen : j.length = (keepOf R O).length := by simpa using hj.1
  have h1 : (keepOf L O).map (fun c => if c ∈ remOf L O
        then k.getD (List.indexOf c (remOf L O)) 0
        else assignOf (keepOf L O ++ keepOf R O) (i ++ j) c) = i := by
    rw [map_keep_part]
    exact map_assignOf_append_left (nodup_keepOf hs.1) hilen
  have h2 := map_rem_part (i := i) (j := j) hs hk
  have h3 : (keepOf R O).map (fun c => if c ∈ remOf L O
        then k.getD (List.indexOf c (remOf L O)) 0
        else assignOf (keepOf L O ++ keepOf R O) (i ++ j) c) = j := by
    rw [map_keep_part]
    exact map_assignOf_append_right (nodup_keepOf hs.2.1) hilen hjlen (keep_disj_of_spec hs)
  have hLmap := (congrArg (List.map (fun c => if c ∈ remOf L O
      then k.getD (List.indexOf c (remOf L O)) 0
      else assignOf (keepOf L O ++ keepOf R O) (i ++ j) c)) hLd).trans
    ((List.map_append _ _ _).trans (by rw [h1, h2]))
  have hRmap := (congrArg (List.map (fun c => if c ∈ remOf L O
      then k.getD (List.indexOf c (remOf L O)) 0
      else assignOf (keepOf L O ++ keepOf R O) (i ++ j) c)) hRd).trans
    ((List.map_append _ _ _).trans (by rw [h2, h3]))
  rw [hLmap, hRmap]

end ConvBranches

/-! ## Master correctness of the `ndot` dispatcher

On every well-formed specification and conforming operands, `ndot`'s core
returns a tensor extensionally equal to the prefactor-scaled generic Einstein
summation, whichever of the six dispatch branches fires. -/

theorem ndotCore_ok {L R O : List Char} (hs : SpecOK L R O) {A B : Tensor}
    {sz0 : Char → ℕ} (hA : A.shape = L.map sz0) (hB : B.shape = R.map sz0)
    (pf : Option ℚ) :
    ∃ T, ndotCore L R O A B pf = some T ∧
      T.Eqv (pfScale pf (einsumRef L R O A B)) := by
  have hrem := remList_eq hs
  have hkL := keepL_eq hs
  have hkR := keepR_eq hs
  have htd := tdot_eq hs
  have hszrem : (remOf L O).map (sizeDictM L R A.shape B.shape) = (remOf L O).map sz0 :=
    List.map_congr_left fun c hc => sizeDictM_eq hA hB (Or.inl (mem_remOf.mp hc).1)
  have hszkL : (keepOf L O).map (sizeDictM L R A.shape B.shape) = (keepOf L O).map sz0 :=
    List.map_congr_left fun c hc => sizeDictM_eq hA hB (Or.inl (mem_keepOf.mp hc).1)
  have hszkR : (keepOf R O).map (sizeDictM L R A.shape B.shape) = (keepOf R O).map sz0 :=
    List.map_congr_left fun c hc => sizeDictM_eq hA hB (Or.inr (mem_keepOf.mp hc).1)
  have hsztd : (keepOf L O ++ keepOf R O).map (sizeDictM L R A.shape B.shape) =
      (keepOf L O ++ keepOf R O).map sz0 :=
    List.map_congr_left fun c hc => by
      rcases List.mem_append.mp hc with h | h
      · exact sizeDictM_eq hA hB (Or.inl (mem_keepOf.mp h).1)
      · exact sizeDictM_eq hA hB (Or.inr (mem_keepOf.mp h).1)
  simp only [ndotCore]
  rw [hrem, hkL, hkR, htd, hszrem, hszkL, hszkR, hsztd]
  by_cases hc1 : pyLastN (remOf L O).length L = R.take (remOf L O).length
  · rw [if_pos hc1]
    obtain ⟨hLd, hRd⟩ := branch1_struct hs hc1
    have hA1 : A.shape = (keepOf L O).map sz0 ++ (remOf L O).map sz0 :=
      hA.trans ((congrArg (List.map sz0) hLd).trans (List.map_append _ _ _))
    have hB1 : B.shape = (remOf L O).map sz0 ++ (keepOf R O).map sz0 :=
      hB.trans ((congrArg (List.map sz0) hRd).trans (List.map_append _ _ _))
    obtain ⟨C, hchain, hCshape, hCentry⟩ := dotC_branch1 hA1 hB1
    rw [hchain]
    refine finish_correct hs hA hB pf C (Or.inl hCshape) ?_
    rw [List.map_append]
    exact hCdata_of_2d hCshape
      (fun m1 => sumOverσ (remOf L O) sz0
        (fun σ => A.entry (L.map σ) * B.entry (R.map σ))
        (assignOf (keepOf L O ++ keepOf R O) m1))
      (fun i j hi hj => (hCentry i j hi hj).trans (conv_branch1 hs hLd hRd hi hj))
  · rw [if_neg hc1]
    by_cases hc2 : L.take (remOf L O).length = pyLastN (remOf L O).length R
    · rw [if_pos hc2]
      obtain ⟨hLd, hRd⟩ := branch2_struct hs hc2
      have hA2 : A.shape = (remOf L O).map sz0 ++ (keepOf L O).map sz0 :=
        hA.trans ((congrArg (List.map sz0) hLd).trans (List.map_append _ _ _))
      have hB2 : B.shape = (keepOf R O).map sz0 ++ (remOf L O).map sz0 :=
        hB.trans ((congrArg (List.map sz0) hRd).trans (List.map_append _ _ _))
      obtain ⟨C, hchain, hCshape, hCentry⟩ := dotC_branch2 hA2 hB2
      rw [hchain]
      refine finish_correct hs hA hB pf C (Or.inl hCshape) ?_
      rw [List.map_append]
      exact hCdata_of_2d hCshape
        (fun m1 => sumOverσ (remOf L O) sz0
          (fun σ => A.entry (L.map σ) * B.entry (R.map σ))
          (assignOf (keepOf L O ++ keepOf R O) m1))
        (fun i j hi hj => (hCentry i j hi hj).trans (conv_branch2 hs hLd hRd hi hj))
    · rw [if_neg hc2]
      by_cases hc3 : pyLastN (remOf L O).length L = pyLastN (remOf L O).length R
      · rw [if_pos hc3]
        obtain ⟨hLd, hRd⟩ := branch3_struct hs hc3
        have hA3 : A.shape = (keepOf L O).map sz0 ++ (remOf L O).map sz0 :=
          hA.trans ((congrArg (List.map sz0) hLd).trans (List.map_append _ _ _))
        have hB3 : B.shape = (keepOf R O).map sz0 ++ (remOf L O).map sz0 :=
          hB.trans ((congrArg (List.map sz0) hRd).trans (List.map_append _ _ _))
        obtain ⟨C, hchain, hCshape, hCentry⟩ := dotC_branch3 hA3 hB3
        rw [hchain]
        refine finish_correct hs hA hB pf C (Or.inl hCshape) ?_
        rw [List.map_append]
        exact hCdata_of_2d hCshape
          (fun m1 => sumOverσ (remOf L O) sz0
            (fun σ => A.entry (L.map σ) * B.entry (R.map σ))
            (assignOf (keepOf L O ++ keepOf R O) m1))
          (fun i j hi hj => (hCentry i j hi hj).trans (conv_branch3 hs hLd hRd hi hj))
      · rw [if_neg hc3]
        by_cases hc4 : L.take (remOf L O).length = R.take (remOf L O).length
        · rw [if_pos hc4]
          obtain ⟨hLd, hRd⟩ := branch4_struct hs hc4
          have hA4 : A.shape = (remOf L O).map sz0 ++ (keepOf L O).map sz0 :=
            hA.trans ((congrArg (List.map sz0) hLd).trans (List.map_append _ _ _))
          have hB4 : B.shape = (remOf L O).map sz0 ++ (keepOf R O).map sz0 :=
            hB.trans ((congrArg (List.map sz0) hRd).trans (List.map_append _ _ _))
          obtain ⟨C, hchain, hCshape, hCentry⟩ := dotC_branch4 hA4 hB4
          rw [hchain]
          refine finish_correct hs hA hB pf C (Or.inl hCshape) ?_
          rw [List.map_append]
          exact hCdata_of_2d hCshape
            (fun m1 => sumOverσ (remOf L O) sz0
              (fun σ => A.entry (L.map σ) * B.entry (R.map σ))
              (assignOf (keepOf L O ++ keepOf R O) m1))
            (fun i j hi hj => (hCentry i j hi hj).trans (conv_branch4 hs hLd hRd hi hj))
        · rw [if_neg hc4]
          by_cases hc5 : (keepOf L O).length = 0 ∨ (keepOf R O).length = 0
          · rw [if_pos hc5]
            refine ⟨_, rfl, ?_⟩
            cases pf <;> exact ⟨rfl, fun _ _ => rfl⟩
          · rw [if_neg hc5]
            obtain ⟨C, hchain, hCshape, hCdata⟩ := tensordotC hs hA hB
            rw [hchain]
            exact finish_correct hs hA hB pf C (Or.inr hCshape) hCdata

/-! ## Prefactor scaling (`new_view *= prefactor`, lines 102-112)

The in-place scale happens before the final axis permutation; it commutes with
that permutation, so the whole dispatcher commutes with scaling. -/

theorem einsumPerm_scaleT (P O1 : List Char) (p : ℚ) (T : Tensor) :
    einsumPerm P O1 (scaleT p T) = scaleT p (einsumPerm P O1 T) := rfl

theorem bind_map_scaleT {α : Type} (p : ℚ) (x : Option α) (f g : α → Option Tensor)
    (h : ∀ a, f a = Option.map (scaleT p) (g a)) :
    x.bind f = Option.map (scaleT p) (x.bind g) := by
  cases x with
  | none => rfl
  | some a => exact h a

theorem ite_map_scaleT (p : ℚ) {c : Prop} [Decidable c] {x y u v : Option Tensor}
    (hx : x = Option.map (scaleT p) u) (hy : y = Option.map (scaleT p) v) :
    (if c then x else y) = Option.map (scaleT p) (if c then u else v) := by
  by_cases h : c
  · rw [if_pos h, if_pos h]; exact hx
  · rw [if_neg h, if_neg h]; exact hy

theorem finish_scale (p : ℚ) (td O1 : List Char) (y : Option Tensor) :
    (y.map fun nv1 =>
        if td = O1 then scaleT p nv1 else einsumPerm td O1 (scaleT p nv1))
    = Option.map (scaleT p)
        (y.map fun nv1 => if td = O1 then nv1 else einsumPerm td O1 nv1) := by
  rw [Option.map_map]
  refine Option.map_congr fun nv1 _ => ?_
  show (if td = O1 then scaleT p nv1 else einsumPerm td O1 (scaleT p nv1))
      = scaleT p (if td = O1 then nv1 else einsumPerm td O1 nv1)
  by_cases h : td = O1
  · rw [if_pos h, if_pos h]
  · rw [if_neg h, if_neg h]
    exact einsumPerm_scaleT td O1 p nv1

theorem ndotCore_prefactor (L R O : List Char) (A B : Tensor) (p : ℚ) :
    ndotCore L R O A B (some p) = Option.map (scaleT p) (ndotCore L R O A B none) := by
  simp only [ndotCore]
  refine ite_map_scaleT p ?_ (ite_map_scaleT p ?_ (ite_map_scaleT p ?_
    (ite_map_scaleT p ?_ (ite_map_scaleT p rfl ?_))))
  · exact bind_map_scaleT p _ _ _ fun A2 => bind_map_scaleT p _ _ _ fun B2 =>
      bind_map_scaleT p _ _ _ fun nv => finish_scale p _ _ _
  · exact bind_map_scaleT p _ _ _ fun A2 => bind_map_scaleT p _ _ _ fun A2t =>
      bind_map_scaleT p _ _ _ fun B2 => bind_map_scaleT p _ _ _ fun B2t =>
      bind_map_scaleT p _ _ _ fun nv => finish_scale p _ _ _
  · exact bind_map_scaleT p _ _ _ fun A2 => bind_map_scaleT p _ _ _ fun B2 =>
      bind_map_scaleT p _ _ _ fun B2t =>
      bind_map_scaleT p _ _ _ fun nv => finish_scale p _ _ _
  · exact bind_map_scaleT p _ _ _ fun A2 => bind_map_scaleT p _ _ _ fun A2t =>
      bind_map_scaleT p _ _ _ fun B2 =>
      bind_map_scaleT p _ _ _ fun nv => finish_scale p _ _ _
  · exact bind_map_scaleT p _ _ _ fun nv => finish_scale p _ _ _

/-! ## The `helper_CCSD` engine (`helper_CC.py` lines 115-374)

The class state we model comprises the computationally live attributes:
orbital counts, the spin-orbital integral tensor `MO`, the Fock matrix `F`,
the denominator arrays `Dia`/`Dijab`, and the amplitudes `t1`/`t2`.  The
Psi4 library calls in `__init__` (RHF solve, `MintsHelper` integrals) are
external inputs to the constructor: `H0` for `ao_kinetic() + ao_potential()`,
`npC` for the MO coefficients, `MOspin` for `mints.mo_spin_eri(...)`. -/

/-- The Python-level failures the class can raise: `AttributeError` (the
`self.psi` attribute never exists — `__init__` binds the module to the local
`psi`, not to `self`), `KeyError` (a `slice_dict` lookup with a bad key), and
a deliberately raised `Exception`. -/
inductive PyErr where
  | attributeError
  | keyError
  | exception
deriving DecidableEq

structure CCState where
  nocc : ℕ
  nvirt : ℕ
  MO : Tensor
  F : Tensor
  Dia : Tensor
  Dijab : Tensor
  t1 : Tensor
  t2 : Tensor

/-- Placeholder tensor for the value of an `Option` chain proven to succeed. -/
def dTensor : Tensor := ⟨[], fun _ => 0⟩

/-- An engine-internal `ndot` call (every call site in the class succeeds;
the site lemmas below discharge that). -/
def ndotD (s : String) (A B : Tensor) (pf : Option ℚ) : Tensor :=
  (ndot s A B pf).getD dTensor

/-- `self.slice_dict = {'o' : slice(0, nocc), 'v' : slice(nocc, nso)}`, one
slice as an `(offset, extent)` pair; any other key is a `KeyError`. -/
def slice_dict (st : CCState) (c : Char) : Option (ℕ × ℕ) :=
  if c = 'o' then some (0, st.nocc)
  else if c = 'v' then some (st.nocc, st.nvirt)
  else none

/-- `get_MO(string)` (lines 202-207).  On a wrong-length string the code
first calls `self.psi.clean()`, which raises `AttributeError` (no such
attribute), so the intended `Exception` is unreachable; on a bad character a
`slice_dict` lookup raises `KeyError`; otherwise the four-slice sub-block of
`MO` is returned. -/
def get_MO (st : CCState) (string : String) : Except PyErr Tensor :=
  if string.length ≠ 4 then .error .attributeError
  else
    match string.toList.mapM (slice_dict st) with
    | some sp => .ok (sliceT st.MO sp)
    | none => .error .keyError

/-- `get_F(string)` (lines 209-213): the same with length 2 over `F`. -/
def get_F (st : CCState) (string : String) : Except PyErr Tensor :=
  if string.length ≠ 2 then .error .attributeError
  else
    match string.toList.mapM (slice_dict st) with
    | some sp => .ok (sliceT st.F sp)
    | none => .error .keyError

/-- An engine-internal `get_MO` call (every call site uses a valid string). -/
def getMOd (st : CCState) (s : String) : Tensor :=
  match get_MO st s with
  | .ok T => T
  | .error _ => dTensor

/-- An engine-internal `get_F` call. -/
def getFd (st : CCState) (s : String) : Tensor :=
  match get_F st s with
  | .ok T => T
  | .error _ => dTensor

/-- `np.einsum('ia,jb->ijab', X, Y)` (an outer product; also covers
`np.einsum('jf,nb->jnfb', t1, t1)`, the same label pattern). -/
def outer_ijab (X Y : Tensor) : Tensor :=
  ⟨[X.shape.getD 0 0, Y.shape.getD 0 0, X.shape.getD 1 0, Y.shape.getD 1 0],
    fun n =>
      let idx := unflat [X.shape.getD 0 0, Y.shape.getD 0 0,
                         X.shape.getD 1 0, Y.shape.getD 1 0] n
      X.entry [idx.getD 0 0, idx.getD 2 0] * Y.entry [idx.getD 1 0, idx.getD 3 0]⟩

/-- `self.Dia = Focc.reshape(-1, 1) - Fvir` (line 187): the broadcast
difference of the occupied and virtual Fock diagonals,
`Dia[i,a] = F[i,i] - F[nocc+a, nocc+a]`. -/
def DiaOf (nocc nvirt : ℕ) (F : Tensor) : Tensor :=
  ⟨[nocc, nvirt], fun n =>
    let idx := unflat [nocc, nvirt] n
    F.entry [idx.getD 0 0, idx.getD 0 0]
      - F.entry [nocc + idx.getD 1 0, nocc + idx.getD 1 0]⟩

/-- `self.Dijab = Focc.reshape(-1,1,1,1) + Focc.reshape(-1,1,1)
- Fvir.reshape(-1,1) - Fvir` (line 188). -/
def DijabOf (nocc nvirt : ℕ) (F : Tensor) : Tensor :=
  ⟨[nocc, nocc, nvirt, nvirt], fun n =>
    let idx := unflat [nocc, nocc, nvirt, nvirt] n
    F.entry [idx.getD 0 0, idx.getD 0 0] + F.entry [idx.getD 1 0, idx.getD 1 0]
      - F.entry [nocc + idx.getD 2 0, nocc + idx.getD 2 0]
      - F.entry [nocc + idx.getD 3 0, nocc + idx.getD 3 0]⟩

/-- `__init__` lines 140-195, after the memory guard: the one-electron
Hamiltonian is transformed to the MO basis (`np.einsum('uj,vi,uv', C, C, H)`,
whose implicit output label order is the sorted free labels `ij`), tiled for
the two spins (`np.repeat` along both axes), masked block-diagonal in spin,
the Fock matrix is assembled as `H + Σ_m MO[p,m,q,m]` over the occupied
slice, the denominators are built from the Fock diagonal, and the amplitudes
get their perturbative initial guess (`mints.mo_spin_eri` is assumed to
return the full `nso`-dimensioned rank-4 spin-orbital tensor). -/
def mkState (ndocc : ℕ) (H0 npC MOspin : Tensor) : CCState :=
  let nmo := H0.shape.headD 0
  -- H = np.einsum('uj,vi,uv', npC, npC, H)
  let H1 : Tensor := ⟨[nmo, nmo], fun n =>
    ∑ u ∈ Finset.range nmo, ∑ v ∈ Finset.range nmo,
      npC.entry [u, n % nmo] * npC.entry [v, n / nmo] * H0.entry [u, v]⟩
  -- np.repeat(·, 2, axis=0) then axis=1
  let H2 : Tensor := ⟨[nmo * 2, nmo * 2], fun n =>
    H1.entry [n / (nmo * 2) / 2, n % (nmo * 2) / 2]⟩
  -- H *= (spin_ind.reshape(-1, 1) == spin_ind)
  let H3 : Tensor := ⟨[nmo * 2, nmo * 2], fun n =>
    if n / (nmo * 2) % 2 = n % (nmo * 2) % 2 then H2.entry [n / (nmo * 2), n % (nmo * 2)]
    else 0⟩
  let MO := MOspin
  let nso := nmo * 2
  let nocc := ndocc * 2
  let nvirt := nso - nocc
  -- self.F = H + np.einsum('pmqm->pq', self.MO[:, self.o, :, self.o])
  let F : Tensor := addT H3 ⟨[nso, nso], fun n =>
    ∑ m ∈ Finset.range nocc, MO.entry [n / nso, m, n % nso, m]⟩
  -- Focc = np.diag(F)[o]; Fvir = np.diag(F)[v]
  let Dia : Tensor := DiaOf nocc nvirt F
  let Dijab : Tensor := DijabOf nocc nvirt F
  let t1 : Tensor := ⟨[nocc, nvirt], fun _ => 0⟩
  let t2 : Tensor :=
    divT (sliceT MO [(0, nocc), (0, nocc), (nocc, nvirt), (nocc, nvirt)]) Dijab
  ⟨nocc, nvirt, MO, F, Dia, Dijab, t1, t2⟩

/-- `__init__` lines 155-163: the memory guard.  `ERI_Size` is
`nmo^4 * 128e-9` GB and the footprint is `ERI_Size * 5`; when it exceeds the
budget the code runs `self.psi.clean()` — but no `self.psi` attribute exists
(the constructor's module handle is the local `psi`), so an `AttributeError`
is raised there and the intended `raise Exception(...)` (whose message also
references the undefined name `numpy_memory`) is never reached.  Either way
construction aborts before `mints.mo_spin_eri` materializes the rank-4
tensor. -/
def helper_CCSD_init (memory : ℚ) (ndocc : ℕ) (H0 npC MOspin : Tensor) :
    Except PyErr CCState :=
  let nmo := H0.shape.headD 0
  let ERI_Size : ℚ := (nmo : ℚ) ^ 4 * (128 / 10 ^ 9)
  let memory_footprint := ERI_Size * 5
  if memory_footprint > memory then .error .attributeError
  else .ok (mkState ndocc H0 npC MOspin)

/-- Eqn 9 (lines 217-222). -/
def build_tilde_tau (st : CCState) : Tensor :=
  let tmp := smulT (1/2) (outer_ijab st.t1 st.t1)
  subT (addT st.t2 tmp) (swapAxesT 2 3 tmp)

/-- Eqn 10 (lines 226-231). -/
def build_tau (st : CCState) : Tensor :=
  let tmp := outer_ijab st.t1 st.t1
  subT (addT st.t2 tmp) (swapAxesT 2 3 tmp)

/-- Eqn 3 (lines 235-243). -/
def build_Fae (st : CCState) : Tensor :=
  let Fae0 := zeroDiag2 (getFd st "vv")
  let Fae1 := subT Fae0 (ndotD "me,ma->ae" (getFd st "ov") st.t1 (some (1/2)))
  let Fae2 := addT Fae1 (ndotD "mf,mafe->ae" st.t1 (getMOd st "ovvv") none)
  subT Fae2 (ndotD "mnaf,mnef->ae" (build_tilde_tau st) (getMOd st "oovv") (some (1/2)))

/-- Eqn 4 (lines 247-255). -/
def build_Fmi (st : CCState) : Tensor :=
  let Fmi0 := zeroDiag2 (getFd st "oo")
  let Fmi1 := addT Fmi0 (ndotD "ie,me->mi" st.t1 (getFd st "ov") (some (1/2)))
  let Fmi2 := addT Fmi1 (ndotD "ne,mnie->mi" st.t1 (getMOd st "ooov") none)
  addT Fmi2 (ndotD "inef,mnef->mi" (build_tilde_tau st) (getMOd st "oovv") (some (1/2)))

/-- Eqn 5 (lines 259-262). -/
def build_Fme (st : CCState) : Tensor :=
  addT (getFd st "ov") (ndotD "nf,mnef->me" st.t1 (getMOd st "oovv") none)

/-- The `Pij` local of `build_Wmnij` (line 269). -/
def PijW (st : CCState) : Tensor :=
  ndotD "je,mnie->mnij" st.t1 (getMOd st "ooov") none

/-- Eqn 6 (lines 266-274). -/
def build_Wmnij (st : CCState) : Tensor :=
  let W1 := subT (addT (getMOd st "oooo") (PijW st)) (swapAxesT 2 3 (PijW st))
  addT W1 (ndotD "ijef,mnef->mnij" (build_tau st) (getMOd st "oovv") (some (1/4)))

/-- The `Pab` local of `build_Wabef` (line 284). -/
def PabW (st : CCState) : Tensor :=
  ndotD "mb,amef->abef" st.t1 (getMOd st "vovv") none

/-- Eqn 7 (lines 278-289). -/
def build_Wabef (st : CCState) : Tensor :=
  let W1 := addT (subT (getMOd st "vvvv") (PabW st)) (swapAxesT 0 1 (PabW st))
  addT W1 (ndotD "mnab,mnef->abef" (build_tau st) (getMOd st "oovv") (some (1/4)))

/-- Eqn 8 (lines 293-302). -/
def build_Wmbej (st : CCState) : Tensor :=
  let W1 := addT (getMOd st "ovvo") (ndotD "jf,mbef->mbej" st.t1 (getMOd st "ovvv") none)
  let W2 := subT W1 (ndotD "nb,mnej->mbej" st.t1 (getMOd st "oovo") none)
  let tmp := addT (smulT (1/2) st.t2) (outer_ijab st.t1 st.t1)
  subT W2 (ndotD "jnfb,mnef->mbej" tmp (getMOd st "oovv") none)

/-- `update` lines 313-320: the right-hand side of the `t1` equations. -/
def rhs_T1 (st : CCState) : Tensor :=
  let Fae := build_Fae st
  let Fmi := build_Fmi st
  let Fme := build_Fme st
  let r1 := addT (getFd st "ov") (ndotD "ie,ae->ia" st.t1 Fae none)
  let r2 := subT r1 (ndotD "ma,mi->ia" st.t1 Fmi none)
  let r3 := addT r2 (ndotD "imae,me->ia" st.t2 Fme none)
  let r4 := subT r3 (ndotD "nf,naif->ia" st.t1 (getMOd st "ovov") none)
  let r5 := subT r4 (ndotD "imef,maef->ia" st.t2 (getMOd st "ovvv") (some (1/2)))
  subT r5 (ndotD "mnae,nmei->ia" st.t2 (getMOd st "oovo") (some (1/2)))

/-- `update` line 326: `tmp = Fae - 0.5 * ndot('mb,me->be', t1, Fme)`. -/
def tmpa (st : CCState) : Tensor :=
  subT (build_Fae st) (smulT (1/2) (ndotD "mb,me->be" st.t1 (build_Fme st) none))

/-- `update` line 327: `Pab = ndot('ijae,be->ijab', t2, tmp)`. -/
def Pab1 (st : CCState) : Tensor := ndotD "ijae,be->ijab" st.t2 (tmpa st) none

/-- `update` line 332: `tmp = Fmi + 0.5 * ndot('je,me->mj', t1, Fme)`. -/
def tmpi (st : CCState) : Tensor :=
  addT (build_Fmi st) (smulT (1/2) (ndotD "je,me->mj" st.t1 (build_Fme st) none))

/-- `update` line 333: `Pij = ndot('imab,mj->ijab', t2, tmp)`. -/
def Pij1 (st : CCState) : Tensor := ndotD "imab,mj->ijab" st.t2 (tmpi st) none

/-- `update` lines 346-349: the doubly-antisymmetrized group
`Pijab = ndot('imae,mbej->ijab', t2, Wmbej) - ndot('ma,mbij->ijab', t1, ndot('ie,mbej->mbij', t1, MO_ovvo))`. -/
def Pijab (st : CCState) : Tensor :=
  subT (ndotD "imae,mbej->ijab" st.t2 (build_Wmbej st) none)
    (ndotD "ma,mbij->ijab" st.t1 (ndotD "ie,mbej->mbij" st.t1 (getMOd st "ovvo") none) none)

/-- `update` line 356: `Pij = ndot('ie,abej->ijab', t1, MO_vvvo)`. -/
def Pij2 (st : CCState) : Tensor := ndotD "ie,abej->ijab" st.t1 (getMOd st "vvvo") none

/-- `update` line 360: `Pab = ndot('ma,mbij->ijab', t1, MO_ovoo)`. -/
def Pab2 (st : CCState) : Tensor := ndotD "ma,mbij->ijab" st.t1 (getMOd st "ovoo") none

/-- `update` lines 322-362: the right-hand side of the `t2` equations. -/
def rhs_T2 (st : CCState) : Tensor :=
  let r1 := subT (addT (getMOd st "oovv") (Pab1 st)) (swapAxesT 2 3 (Pab1 st))
  let r2 := addT (subT r1 (Pij1 st)) (swapAxesT 0 1 (Pij1 st))
  let r3 := addT r2 (ndotD "mnab,mnij->ijab" (build_tau st) (build_Wmnij st) (some (1/2)))
  let r4 := addT r3 (ndotD "ijef,abef->ijab" (build_tau st) (build_Wabef st) (some (1/2)))
  let r5 := addT (subT (subT (addT r4 (Pijab st)) (swapAxesT 2 3 (Pijab st)))
      (swapAxesT 0 1 (Pijab st)))
    (swapAxesT 2 3 (swapAxesT 0 1 (Pijab st)))
  let r6 := subT (addT r5 (Pij2 st)) (swapAxesT 0 1 (Pij2 st))
  addT (subT r6 (Pab2 st)) (swapAxesT 2 3 (Pab2 st))

/-- `update` (lines 305-366): builds the two right-hand sides from the
current amplitudes and replaces `t1`/`t2` with the denominator-divided
results; nothing else in the state is touched. -/
def update (st : CCState) : CCState :=
  ⟨st.nocc, st.nvirt, st.MO, st.F, st.Dia, st.Dijab,
    divT (rhs_T1 st) st.Dia, divT (rhs_T2 st) st.Dijab⟩

/-- `compute_corr_energy` (lines 368-374): the two-operand einsums
`'ia,ia->'` and `'ijab,ijab->'` and the three-operand `'ijab,ia,jb->'` are
full contractions — sums over all indices of entrywise products (bounds from
the accessor blocks' shapes, `nocc`/`nvirt` per axis). -/
def compute_corr_energy (st : CCState) : ℚ :=
  let Fov := getFd st "ov"
  let MOoovv := getMOd st "oovv"
  (∑ i ∈ Finset.range st.nocc, ∑ a ∈ Finset.range st.nvirt,
      Fov.entry [i, a] * st.t1.entry [i, a])
  + (1/4) * (∑ i ∈ Finset.range st.nocc, ∑ j ∈ Finset.range st.nocc,
      ∑ a ∈ Finset.range st.nvirt, ∑ b ∈ Finset.range st.nvirt,
        MOoovv.entry [i, j, a, b] * st.t2.entry [i, j, a, b])
  + (1/2) * (∑ i ∈ Finset.range st.nocc, ∑ j ∈ Finset.range st.nocc,
      ∑ a ∈ Finset.range st.nvirt, ∑ b ∈ Finset.range st.nvirt,
        MOoovv.entry [i, j, a, b] * st.t1.entry [i, a] * st.t1.entry [j, b])

/-! ## Generic lemmas for the engine layer -/

theorem ndot_ok {s : String} {L R O : List Char}
    (hp : parseSpec s = some (L, R, O)) (hs : SpecOK L R O) {A B : Tensor}
    {sz0 : Char → ℕ} (hA : A.shape = L.map sz0) (hB : B.shape = R.map sz0)
    (pf : Option ℚ) :
    ∃ T, ndot s A B pf = some T ∧
      T.Eqv (pfScale pf (einsumRef L R O A B)) := by
  unfold ndot
  rw [hp]
  exact ndotCore_ok hs hA hB pf

/-- Shape and entries of an engine-internal `ndot` call: it succeeds, with
the generic-einsum block structure. -/
theorem ndotD_spec {s : String} {L R O : List Char}
    (hp : parseSpec s = some (L, R, O)) (hs : SpecOK L R O) {A B : Tensor}
    {sz0 : Char → ℕ} (hA : A.shape = L.map sz0) (hB : B.shape = R.map sz0)
    (pf : Option ℚ) :
    (ndotD s A B pf).shape = O.map sz0 ∧
    ∀ idx, ValidIdx (O.map sz0) idx →
      (ndotD s A B pf).entry idx =
        pfm pf (sumOverσ (remOf L O) sz0
          (fun σ => A.entry (L.map σ) * B.entry (R.map σ)) (assignOf O idx)) := by
  obtain ⟨T, hT, hEqv⟩ := ndot_ok hp hs hA hB pf
  have hkey : ndotD s A B pf = T := by rw [ndotD, hT]; rfl
  have hshape : T.shape = O.map sz0 := by
    rw [hEqv.1, pfScale_shape]
    exact einsumRef_shape hs hA hB
  refine ⟨by rw [hkey]; exact hshape, fun idx hidx => ?_⟩
  rw [hkey, hEqv.entry_eq (by rw [hshape]; exact hidx), pfScale_entry,
    einsumRef_entry hs hA hB hidx]

theorem swapAxesT_23_shape {T : Tensor} {s0 s1 s2 s3 : ℕ}
    (h : T.shape = [s0, s1, s2, s3]) :
    (swapAxesT 2 3 T).shape = [s0, s1, s3, s2] := by
  show (T.shape.set 2 (T.shape.getD 3 0)).set 3 (T.shape.getD 2 0) = _
  rw [h]
  rfl

theorem swapAxesT_01_shape {T : Tensor} {s0 s1 s2 s3 : ℕ}
    (h : T.shape = [s0, s1, s2, s3]) :
    (swapAxesT 0 1 T).shape = [s1, s0, s2, s3] := by
  show (T.shape.set 0 (T.shape.getD 1 0)).set 1 (T.shape.getD 0 0) = _
  rw [h]
  rfl

theorem swapAxesT_23_entry {T : Tensor} {s0 s1 s2 s3 : ℕ}
    (h : T.shape = [s0, s1, s2, s3]) {i j a b : ℕ}
    (hi : i < s0) (hj : j < s1) (ha : a < s3) (hb : b < s2) :
    (swapAxesT 2 3 T).entry [i, j, a, b] = T.entry [i, j, b, a] := by
  have hv : ValidIdx [s0, s1, s3, s2] [i, j, a, b] := by
    simp [validIdx_cons, validIdx_nil, hi, hj, ha, hb]
  have hsh : (T.shape.set 2 (T.shape.getD 3 0)).set 3 (T.shape.getD 2 0)
      = [s0, s1, s3, s2] := by rw [h]; rfl
  simp only [swapAxesT, Tensor.entry]
  rw [hsh, unflat_flatIdx hv]
  rfl

theorem swapAxesT_01_entry {T : Tensor} {s0 s1 s2 s3 : ℕ}
    (h : T.shape = [s0, s1, s2, s3]) {i j a b : ℕ}
    (hi : i < s1) (hj : j < s0) (ha : a < s2) (hb : b < s3) :
    (swapAxesT 0 1 T).entry [i, j, a, b] = T.entry [j, i, a, b] := by
  have hv : ValidIdx [s1, s0, s2, s3] [i, j, a, b] := by
    simp [validIdx_cons, validIdx_nil, hi, hj, ha, hb]
  have hsh : (T.shape.set 0 (T.shape.getD 1 0)).set 1 (T.shape.getD 0 0)
      = [s1, s0, s2, s3] := by rw [h]; rfl
  simp only [swapAxesT, Tensor.entry]
  rw [hsh, unflat_flatIdx hv]
  rfl

/-- Entries of a rank-4 slice. -/
theorem sliceT4_entry (T : Tensor) {o0 e0 o1 e1 o2 e2 o3 e3 : ℕ} {i j a b : ℕ}
    (hi : i < e0) (hj : j < e1) (ha : a < e2) (hb : b < e3) :
    (sliceT T [(o0, e0), (o1, e1), (o2, e2), (o3, e3)]).entry [i, j, a, b] =
      T.entry [o0 + i, o1 + j, o2 + a, o3 + b] := by
  have hv : ValidIdx [e0, e1, e2, e3] [i, j, a, b] := by
    simp [validIdx_cons, validIdx_nil, hi, hj, ha, hb]
  exact sliceT_entry T [(o0, e0), (o1, e1), (o2, e2), (o3, e3)] hv

/-- Entries of a rank-2 slice. -/
theorem sliceT2_entry (T : Tensor) {o0 e0 o1 e1 : ℕ} {i a : ℕ}
    (hi : i < e0) (ha : a < e1) :
    (sliceT T [(o0, e0), (o1, e1)]).entry [i, a] = T.entry [o0 + i, o1 + a] := by
  have hv : ValidIdx [e0, e1] [i, a] := by
    simp [validIdx_cons, validIdx_nil, hi, ha]
  exact sliceT_entry T [(o0, e0), (o1, e1)] hv

theorem outer_ijab_shape {X Y : Tensor} {nx mx ny my : ℕ}
    (hX : X.shape = [nx, mx]) (hY : Y.shape = [ny, my]) :
    (outer_ijab X Y).shape = [nx, ny, mx, my] := by
  show [X.shape.getD 0 0, Y.shape.getD 0 0, X.shape.getD 1 0, Y.shape.getD 1 0] = _
  rw [hX, hY]
  rfl

theorem outer_ijab_entry {X Y : Tensor} {nx mx ny my : ℕ}
    (hX : X.shape = [nx, mx]) (hY : Y.shape = [ny, my]) {i j a b : ℕ}
    (hi : i < nx) (hj : j < ny) (ha : a < mx) (hb : b < my) :
    (outer_ijab X Y).entry [i, j, a, b] = X.entry [i, a] * Y.entry [j, b] := by
  have hsh : [X.shape.getD 0 0, Y.shape.getD 0 0, X.shape.getD 1 0, Y.shape.getD 1 0]
      = [nx, ny, mx, my] := by rw [hX, hY]; rfl
  have hv : ValidIdx [nx, ny, mx, my] [i, j, a, b] := by
    simp [validIdx_cons, validIdx_nil, hi, hj, ha, hb]
  simp only [outer_ijab, Tensor.entry]
  rw [hsh, unflat_flatIdx hv]
  rfl

theorem zeroDiag2_shape (T : Tensor) : (zeroDiag2 T).shape = T.shape := by
  unfold zeroDiag2
  match h : T.shape with
  | [] => exact h
  | [x] => exact h
  | x :: y :: z :: t => exact h
  | [x, y] => rfl

/-! ## Engine label sizing and index helpers -/

/-- The engine's occupied labels (`# occ orbitals i, j, k, l, m, n`); every
other label in an engine spec is a virtual one. -/
def occL : List Char := ['i', 'j', 'k', 'l', 'm', 'n']

/-- Label extents for engine contractions. -/
def szOV (no nv : ℕ) (c : Char) : ℕ := if c ∈ occL then no else nv

theorem validIdx4 {s0 s1 s2 s3 i j a b : ℕ}
    (hi : i < s0) (hj : j < s1) (ha : a < s2) (hb : b < s3) :
    ValidIdx [s0, s1, s2, s3] [i, j, a, b] := by
  simp [validIdx_cons, validIdx_nil, hi, hj, ha, hb]

theorem validIdx2 {s0 s1 i a : ℕ} (hi : i < s0) (ha : a < s1) :
    ValidIdx [s0, s1] [i, a] := by
  simp [validIdx_cons, validIdx_nil, hi, ha]

theorem addT_entry_of {A B : Tensor} {s : List ℕ} (hA : A.shape = s)
    (hB : B.shape = s) (idx : List ℕ) :
    (addT A B).entry idx = A.entry idx + B.entry idx :=
  addT_entry idx (hA.trans hB.symm)

theorem subT_entry_of {A B : Tensor} {s : List ℕ} (hA : A.shape = s)
    (hB : B.shape = s) (idx : List ℕ) :
    (subT A B).entry idx = A.entry idx - B.entry idx :=
  subT_entry idx (hA.trans hB.symm)

/-! ## Entry formulas for the `update` contraction sites (C2 support) -/

theorem PijW_entry (st : CCState) (ht1 : st.t1.shape = [st.nocc, st.nvirt])
    {m n i j : ℕ} (hm : m < st.nocc) (hn : n < st.nocc) (hi : i < st.nocc)
    (hj : j < st.nocc) :
    (PijW st).entry [m, n, i, j] =
      ∑ e ∈ Finset.range st.nvirt,
        st.t1.entry [j, e] * st.MO.entry [m, n, i, st.nocc + e] := by
  have hA : st.t1.shape = ['j', 'e'].map (szOV st.nocc st.nvirt) := by rw [ht1]; rfl
  have hB : (getMOd st "ooov").shape = ['m', 'n', 'i', 'e'].map (szOV st.nocc st.nvirt) := rfl
  have h := (ndotD_spec
    (show parseSpec "je,mnie->mnij"
        = some (['j', 'e'], ['m', 'n', 'i', 'e'], ['m', 'n', 'i', 'j']) from rfl)
    (by decide) hA hB none).2 [m, n, i, j] (validIdx4 hm hn hi hj)
  refine (h.trans ?_ : _)
  show (∑ e ∈ Finset.range st.nvirt,
      st.t1.entry [j, e] * (getMOd st "ooov").entry [m, n, i, e]) = _
  refine Finset.sum_congr rfl fun e he => ?_
  have hbl : getMOd st "ooov"
      = sliceT st.MO [(0, st.nocc), (0, st.nocc), (0, st.nocc), (st.nocc, st.nvirt)] := rfl
  rw [hbl, sliceT4_entry st.MO hm hn hi (Finset.mem_range.mp he)]
  simp only [Nat.zero_add]

/-! ### Shapes of the engine intermediates -/

theorem build_Fae_shape (st : CCState) : (build_Fae st).shape = [st.nvirt, st.nvirt] := by
  show (zeroDiag2 (getFd st "vv")).shape = _
  rw [zeroDiag2_shape]
  rfl

theorem build_Fmi_shape (st : CCState) : (build_Fmi st).shape = [st.nocc, st.nocc] := by
  show (zeroDiag2 (getFd st "oo")).shape = _
  rw [zeroDiag2_shape]
  rfl

theorem tmpa_shape (st : CCState) : (tmpa st).shape = [st.nvirt, st.nvirt] :=
  build_Fae_shape st

theorem tmpi_shape (st : CCState) : (tmpi st).shape = [st.nocc, st.nocc] :=
  build_Fmi_shape st

theorem build_tau_shape (st : CCState)
    (ht2 : st.t2.shape = [st.nocc, st.nocc, st.nvirt, st.nvirt]) :
    (build_tau st).shape = [st.nocc, st.nocc, st.nvirt, st.nvirt] := ht2

theorem build_Wmnij_shape (st : CCState) :
    (build_Wmnij st).shape = [st.nocc, st.nocc, st.nocc, st.nocc] := rfl

theorem build_Wabef_shape (st : CCState) :
    (build_Wabef st).shape = [st.nvirt, st.nvirt, st.nvirt, st.nvirt] := rfl

theorem build_Wmbej_shape (st : CCState) :
    (build_Wmbej st).shape = [st.nocc, st.nvirt, st.nvirt, st.nocc] := rfl

theorem Pab1_shape (st : CCState)
    (ht2 : st.t2.shape = [st.nocc, st.nocc, st.nvirt, st.nvirt]) :
    (Pab1 st).shape = [st.nocc, st.nocc, st.nvirt, st.nvirt] := by
  have hA : st.t2.shape = ['i','j','a','e'].map (szOV st.nocc st.nvirt) := by rw [ht2]; rfl
  have hB : (tmpa st).shape = ['b','e'].map (szOV st.nocc st.nvirt) := by
    rw [tmpa_shape st]; rfl
  exact (ndotD_spec (show parseSpec "ijae,be->ijab"
    = some (['i','j','a','e'], ['b','e'], ['i','j','a','b']) from rfl)
    (by decide) hA hB none).1

theorem Pij1_shape (st : CCState)
    (ht2 : st.t2.shape = [st.nocc, st.nocc, st.nvirt, st.nvirt]) :
    (Pij1 st).shape = [st.nocc, st.nocc, st.nvirt, st.nvirt] := by
  have hA : st.t2.shape = ['i','m','a','b'].map (szOV st.nocc st.nvirt) := by rw [ht2]; rfl
  have hB : (tmpi st).shape = ['m','j'].map (szOV st.nocc st.nvirt) := by
    rw [tmpi_shape st]; rfl
  exact (ndotD_spec (show parseSpec "imab,mj->ijab"
    = some (['i','m','a','b'], ['m','j'], ['i','j','a','b']) from rfl)
    (by decide) hA hB none).1

theorem PijW_shape (st : CCState) (ht1 : st.t1.shape = [st.nocc, st.nvirt]) :
    (PijW st).shape = [st.nocc, st.nocc, st.nocc, st.nocc] := by
  have hA : st.t1.shape = ['j','e'].map (szOV st.nocc st.nvirt) := by rw [ht1]; rfl
  have hB : (getMOd st "ooov").shape = ['m','n','i','e'].map (szOV st.nocc st.nvirt) := rfl
  exact (ndotD_spec (show parseSpec "je,mnie->mnij"
    = some (['j','e'], ['m','n','i','e'], ['m','n','i','j']) from rfl)
    (by decide) hA hB none).1

theorem PabW_shape (st : CCState) (ht1 : st.t1.shape = [st.nocc, st.nvirt]) :
    (PabW st).shape = [st.nvirt, st.nvirt, st.nvirt, st.nvirt] := by
  have hA : st.t1.shape = ['m','b'].map (szOV st.nocc st.nvirt) := by rw [ht1]; rfl
  have hB : (getMOd st "vovv").shape = ['a','m','e','f'].map (szOV st.nocc st.nvirt) := rfl
  exact (ndotD_spec (show parseSpec "mb,amef->abef"
    = some (['m','b'], ['a','m','e','f'], ['a','b','e','f']) from rfl)
    (by decide) hA hB none).1

theorem Pijab_shape (st : CCState)
    (ht2 : st.t2.shape = [st.nocc, st.nocc, st.nvirt, st.nvirt]) :
    (Pijab st).shape = [st.nocc, st.nocc, st.nvirt, st.nvirt] := by
  have hA : st.t2.shape = ['i','m','a','e'].map (szOV st.nocc st.nvirt) := by rw [ht2]; rfl
  have hB : (build_Wmbej st).shape = ['m','b','e','j'].map (szOV st.nocc st.nvirt) := rfl
  exact (ndotD_spec (show parseSpec "imae,mbej->ijab"
    = some (['i','m','a','e'], ['m','b','e','j'], ['i','j','a','b']) from rfl)
    (by decide) hA hB none).1

theorem Pij2_shape (st : CCState) (ht1 : st.t1.shape = [st.nocc, st.nvirt]) :
    (Pij2 st).shape = [st.nocc, st.nocc, st.nvirt, st.nvirt] := by
  have hA : st.t1.shape = ['i','e'].map (szOV st.nocc st.nvirt) := by rw [ht1]; rfl
  have hB : (getMOd st "vvvo").shape = ['a','b','e','j'].map (szOV st.nocc st.nvirt) := rfl
  exact (ndotD_spec (show parseSpec "ie,abej->ijab"
    = some (['i','e'], ['a','b','e','j'], ['i','j','a','b']) from rfl)
    (by decide) hA hB none).1

theorem Pab2_shape (st : CCState) (ht1 : st.t1.shape = [st.nocc, st.nvirt]) :
    (Pab2 st).shape = [st.nocc, st.nocc, st.nvirt, st.nvirt] := by
  have hA : st.t1.shape = ['m','a'].map (szOV st.nocc st.nvirt) := by rw [ht1]; rfl
  have hB : (getMOd st "ovoo").shape = ['m','b','i','j'].map (szOV st.nocc st.nvirt) := rfl
  exact (ndotD_spec (show parseSpec "ma,mbij->ijab"
    = some (['m','a'], ['m','b','i','j'], ['i','j','a','b']) from rfl)
    (by decide) hA hB none).1

/-! ### MO block entries used directly by `rhs_T2` -/

theorem MOoovv_entry (st : CCState) {i j a b : ℕ} (hi : i < st.nocc)
    (hj : j < st.nocc) (ha : a < st.nvirt) (hb : b < st.nvirt) :
    (getMOd st "oovv").entry [i, j, a, b] =
      st.MO.entry [i, j, st.nocc + a, st.nocc + b] := by
  have hbl : getMOd st "oovv" = sliceT st.MO
      [(0, st.nocc), (0, st.nocc), (st.nocc, st.nvirt), (st.nocc, st.nvirt)] := rfl
  rw [hbl, sliceT4_entry st.MO hi hj ha hb]
  simp only [Nat.zero_add]

theorem MOoooo_entry (st : CCState) {m n i j : ℕ} (hm : m < st.nocc)
    (hn : n < st.nocc) (hi : i < st.nocc) (hj : j < st.nocc) :
    (getMOd st "oooo").entry [m, n, i, j] = st.MO.entry [m, n, i, j] := by
  have hbl : getMOd st "oooo" = sliceT st.MO
      [(0, st.nocc), (0, st.nocc), (0, st.nocc), (0, st.nocc)] := rfl
  rw [hbl, sliceT4_entry st.MO hm hn hi hj]
  simp only [Nat.zero_add]

theorem MOvvvv_entry (st : CCState) {a b e f : ℕ} (ha : a < st.nvirt)
    (hb : b < st.nvirt) (he : e < st.nvirt) (hf : f < st.nvirt) :
    (getMOd st "vvvv").entry [a, b, e, f] =
      st.MO.entry [st.nocc + a, st.nocc + b, st.nocc + e, st.nocc + f] := by
  have hbl : getMOd st "vvvv" = sliceT st.MO
      [(st.nocc, st.nvirt), (st.nocc, st.nvirt), (st.nocc, st.nvirt), (st.nocc, st.nvirt)] := rfl
  rw [hbl, sliceT4_entry st.MO ha hb he hf]

/-! ### Entries of the `update` contraction sites -/

theorem Pab1_entry (st : CCState)
    (ht2 : st.t2.shape = [st.nocc, st.nocc, st.nvirt, st.nvirt])
    {i j a b : ℕ} (hi : i < st.nocc) (hj : j < st.nocc) (ha : a < st.nvirt)
    (hb : b < st.nvirt) :
    (Pab1 st).entry [i, j, a, b] =
      ∑ e ∈ Finset.range st.nvirt, st.t2.entry [i, j, a, e] * (tmpa st).entry [b, e] := by
  have hA : st.t2.shape = ['i','j','a','e'].map (szOV st.nocc st.nvirt) := by rw [ht2]; rfl
  have hB : (tmpa st).shape = ['b','e'].map (szOV st.nocc st.nvirt) := by
    rw [tmpa_shape st]; rfl
  exact (ndotD_spec (show parseSpec "ijae,be->ijab"
    = some (['i','j','a','e'], ['b','e'], ['i','j','a','b']) from rfl)
    (by decide) hA hB none).2 [i, j, a, b] (validIdx4 hi hj ha hb)

theorem Pij1_entry (st : CCState)
    (ht2 : st.t2.shape = [st.nocc, st.nocc, st.nvirt, st.nvirt])
    {i j a b : ℕ} (hi : i < st.nocc) (hj : j < st.nocc) (ha : a < st.nvirt)
    (hb : b < st.nvirt) :
    (Pij1 st).entry [i, j, a, b] =
      ∑ m ∈ Finset.range st.nocc, st.t2.entry [i, m, a, b] * (tmpi st).entry [m, j] := by
  have hA : st.t2.shape = ['i','m','a','b'].map (szOV st.nocc st.nvirt) := by rw [ht2]; rfl
  have hB : (tmpi st).shape = ['m','j'].map (szOV st.nocc st.nvirt) := by
    rw [tmpi_shape st]; rfl
  exact (ndotD_spec (show parseSpec "imab,mj->ijab"
    = some (['i','m','a','b'], ['m','j'], ['i','j','a','b']) from rfl)
    (by decide) hA hB none).2 [i, j, a, b] (validIdx4 hi hj ha hb)

theorem Wm4_entry (st : CCState)
    (ht2 : st.t2.shape = [st.nocc, st.nocc, st.nvirt, st.nvirt])
    {m n i j : ℕ} (hm : m < st.nocc) (hn : n < st.nocc) (hi : i < st.nocc)
    (hj : j < st.nocc) :
    (ndotD "ijef,mnef->mnij" (build_tau st) (getMOd st "oovv") (some (1/4))).entry
        [m, n, i, j] =
      (∑ e ∈ Finset.range st.nvirt, ∑ f ∈ Finset.range st.nvirt,
        (build_tau st).entry [i, j, e, f] * st.MO.entry [m, n, st.nocc + e, st.nocc + f])
        * (1/4) := by
  have hA : (build_tau st).shape = ['i','j','e','f'].map (szOV st.nocc st.nvirt) := by
    rw [build_tau_shape st ht2]; rfl
  have hB : (getMOd st "oovv").shape = ['m','n','e','f'].map (szOV st.nocc st.nvirt) := rfl
  have h := (ndotD_spec (show parseSpec "ijef,mnef->mnij"
    = some (['i','j','e','f'], ['m','n','e','f'], ['m','n','i','j']) from rfl)
    (by decide) hA hB (some (1/4))).2 [m, n, i, j] (validIdx4 hm hn hi hj)
  refine h.trans ?_
  show (∑ e ∈ Finset.range st.nvirt, ∑ f ∈ Finset.range st.nvirt,
      (build_tau st).entry [i, j, e, f] * (getMOd st "oovv").entry [m, n, e, f]) * (1/4) = _
  refine congrArg (fun x : ℚ => x * (1/4)) ?_
  refine Finset.sum_congr rfl fun e he => Finset.sum_congr rfl fun f hf => ?_
  rw [MOoovv_entry st hm hn (Finset.mem_range.mp he) (Finset.mem_range.mp hf)]

theorem PabW_entry (st : CCState) (ht1 : st.t1.shape = [st.nocc, st.nvirt])
    {a b e f : ℕ} (ha : a < st.nvirt) (hb : b < st.nvirt) (he : e < st.nvirt)
    (hf : f < st.nvirt) :
    (PabW st).entry [a, b, e, f] =
      ∑ m ∈ Finset.range st.nocc,
        st.t1.entry [m, b] * st.MO.entry [st.nocc + a, m, st.nocc + e, st.nocc + f] := by
  have hA : st.t1.shape = ['m','b'].map (szOV st.nocc st.nvirt) := by rw [ht1]; rfl
  have hB : (getMOd st "vovv").shape = ['a','m','e','f'].map (szOV st.nocc st.nvirt) := rfl
  have h := (ndotD_spec (show parseSpec "mb,amef->abef"
    = some (['m','b'], ['a','m','e','f'], ['a','b','e','f']) from rfl)
    (by decide) hA hB none).2 [a, b, e, f] (validIdx4 ha hb he hf)
  refine h.trans ?_
  show (∑ m ∈ Finset.range st.nocc,
      st.t1.entry [m, b] * (getMOd st "vovv").entry [a, m, e, f]) = _
  refine Finset.sum_congr rfl fun m hm => ?_
  have hbl : getMOd st "vovv" = sliceT st.MO
      [(st.nocc, st.nvirt), (0, st.nocc), (st.nocc, st.nvirt), (st.nocc, st.nvirt)] := rfl
  rw [hbl, sliceT4_entry st.MO ha (Finset.mem_range.mp hm) he hf]
  simp only [Nat.zero_add]

theorem Wab4_entry (st : CCState)
    (ht2 : st.t2.shape = [st.nocc, st.nocc, st.nvirt, st.nvirt])
    {a b e f : ℕ} (ha : a < st.nvirt) (hb : b < st.nvirt) (he : e < st.nvirt)
    (hf : f < st.nvirt) :
    (ndotD "mnab,mnef->abef" (build_tau st) (getMOd st "oovv") (some (1/4))).entry
        [a, b, e, f] =
      (∑ m ∈ Finset.range st.nocc, ∑ n ∈ Finset.range st.nocc,
        (build_tau st).entry [m, n, a, b] * st.MO.entry [m, n, st.nocc + e, st.nocc + f])
        * (1/4) := by
  have hA : (build_tau st).shape = ['m','n','a','b'].map (szOV st.nocc st.nvirt) := by
    rw [build_tau_shape st ht2]; rfl
  have hB : (getMOd st "oovv").shape = ['m','n','e','f'].map (szOV st.nocc st.nvirt) := rfl
  have h := (ndotD_spec (show parseSpec "mnab,mnef->abef"
    = some (['m','n','a','b'], ['m','n','e','f'], ['a','b','e','f']) from rfl)
    (by decide) hA hB (some (1/4))).2 [a, b, e, f] (validIdx4 ha hb he hf)
  refine h.trans ?_
  show (∑ m ∈ Finset.range st.nocc, ∑ n ∈ Finset.range st.nocc,
      (build_tau st).entry [m, n, a, b] * (getMOd st "oovv").entry [m, n, e, f]) * (1/4) = _
  refine congrArg (fun x : ℚ => x * (1/4)) ?_
  refine Finset.sum_congr rfl fun m hm => Finset.sum_congr rfl fun n hn => ?_
  rw [MOoovv_entry st (Finset.mem_range.mp hm) (Finset.mem_range.mp hn) he hf]

theorem T4_entry (st : CCState)
    (ht2 : st.t2.shape = [st.nocc, st.nocc, st.nvirt, st.nvirt])
    {i j a b : ℕ} (hi : i < st.nocc) (hj : j < st.nocc) (ha : a < st.nvirt)
    (hb : b < st.nvirt) :
    (ndotD "mnab,mnij->ijab" (build_tau st) (build_Wmnij st) (some (1/2))).entry
        [i, j, a, b] =
      (∑ m ∈ Finset.range st.nocc, ∑ n ∈ Finset.range st.nocc,
        (build_tau st).entry [m, n, a, b] * (build_Wmnij st).entry [m, n, i, j])
        * (1/2) := by
  have hA : (build_tau st).shape = ['m','n','a','b'].map (szOV st.nocc st.nvirt) := by
    rw [build_tau_shape st ht2]; rfl
  have hB : (build_Wmnij st).shape = ['m','n','i','j'].map (szOV st.nocc st.nvirt) := rfl
  exact (ndotD_spec (show parseSpec "mnab,mnij->ijab"
    = some (['m','n','a','b'], ['m','n','i','j'], ['i','j','a','b']) from rfl)
    (by decide) hA hB (some (1/2))).2 [i, j, a, b] (validIdx4 hi hj ha hb)

theorem T5_entry (st : CCState)
    (ht2 : st.t2.shape = [st.nocc, st.nocc, st.nvirt, st.nvirt])
    {i j a b : ℕ} (hi : i < st.nocc) (hj : j < st.nocc) (ha : a < st.nvirt)
    (hb : b < st.nvirt) :
    (ndotD "ijef,abef->ijab" (build_tau st) (build_Wabef st) (some (1/2))).entry
        [i, j, a, b] =
      (∑ e ∈ Finset.range st.nvirt, ∑ f ∈ Finset.range st.nvirt,
        (build_tau st).entry [i, j, e, f] * (build_Wabef st).entry [a, b, e, f])
        * (1/2) := by
  have hA : (build_tau st).shape = ['i','j','e','f'].map (szOV st.nocc st.nvirt) := by
    rw [build_tau_shape st ht2]; rfl
  have hB : (build_Wabef st).shape = ['a','b','e','f'].map (szOV st.nocc st.nvirt) := rfl
  exact (ndotD_spec (show parseSpec "ijef,abef->ijab"
    = some (['i','j','e','f'], ['a','b','e','f'], ['i','j','a','b']) from rfl)
    (by decide) hA hB (some (1/2))).2 [i, j, a, b] (validIdx4 hi hj ha hb)

theorem Pij2_entry (st : CCState) (ht1 : st.t1.shape = [st.nocc, st.nvirt])
    {i j a b : ℕ} (hi : i < st.nocc) (hj : j < st.nocc) (ha : a < st.nvirt)
    (hb : b < st.nvirt) :
    (Pij2 st).entry [i, j, a, b] =
      ∑ e ∈ Finset.range st.nvirt,
        st.t1.entry [i, e] * st.MO.entry [st.nocc + a, st.nocc + b, st.nocc + e, j] := by
  have hA : st.t1.shape = ['i','e'].map (szOV st.nocc st.nvirt) := by rw [ht1]; rfl
  have hB : (getMOd st "vvvo").shape = ['a','b','e','j'].map (szOV st.nocc st.nvirt) := rfl
  have h := (ndotD_spec (show parseSpec "ie,abej->ijab"
    = some (['i','e'], ['a','b','e','j'], ['i','j','a','b']) from rfl)
    (by decide) hA hB none).2 [i, j, a, b] (validIdx4 hi hj ha hb)
  refine h.trans ?_
  show (∑ e ∈ Finset.range st.nvirt,
      st.t1.entry [i, e] * (getMOd st "vvvo").entry [a, b, e, j]) = _
  refine Finset.sum_congr rfl fun e he => ?_
  have hbl : getMOd st "vvvo" = sliceT st.MO
      [(st.nocc, st.nvirt), (st.nocc, st.nvirt), (st.nocc, st.nvirt), (0, st.nocc)] := rfl
  rw [hbl, sliceT4_entry st.MO ha hb (Finset.mem_range.mp he) hj]
  simp only [Nat.zero_add]

theorem Pab2_entry (st : CCState) (ht1 : st.t1.shape = [st.nocc, st.nvirt])
    {i j a b : ℕ} (hi : i < st.nocc) (hj : j < st.nocc) (ha : a < st.nvirt)
    (hb : b < st.nvirt) :
    (Pab2 st).entry [i, j, a, b] =
      ∑ m ∈ Finset.range st.nocc,
        st.t1.entry [m, a] * st.MO.entry [m, st.nocc + b, i, j] := by
  have hA : st.t1.shape = ['m','a'].map (szOV st.nocc st.nvirt) := by rw [ht1]; rfl
  have hB : (getMOd st "ovoo").shape = ['m','b','i','j'].map (szOV st.nocc st.nvirt) := rfl
  have h := (ndotD_spec (show parseSpec "ma,mbij->ijab"
    = some (['m','a'], ['m','b','i','j'], ['i','j','a','b']) from rfl)
    (by decide) hA hB none).2 [i, j, a, b] (validIdx4 hi hj ha hb)
  refine h.trans ?_
  show (∑ m ∈ Finset.range st.nocc,
      st.t1.entry [m, a] * (getMOd st "ovoo").entry [m, b, i, j]) = _
  refine Finset.sum_congr rfl fun m hm => ?_
  have hbl : getMOd st "ovoo" = sliceT st.MO
      [(0, st.nocc), (st.nocc, st.nvirt), (0, st.nocc), (0, st.nocc)] := rfl
  rw [hbl, sliceT4_entry st.MO (Finset.mem_range.mp hm) hb hi hj]
  simp only [Nat.zero_add]

/-! ### Antisymmetry predicates (C2) -/

/-- The assumed antisymmetry of the two-electron spin-orbital integrals:
exchange within the bra pair or within the ket pair flips the sign. -/
def MOPairAntisym (nso : ℕ) (M : Tensor) : Prop :=
  ∀ p q r s, p < nso → q < nso → r < nso → s < nso →
    M.entry [p, q, r, s] = -M.entry [q, p, r, s] ∧
    M.entry [p, q, r, s] = -M.entry [p, q, s, r]

/-- The doubles-amplitude invariant: `t2[i,j,a,b] = -t2[j,i,a,b]` and
`t2[i,j,a,b] = -t2[i,j,b,a]` on all valid index tuples. -/
def Antisym4 (no nv : ℕ) (T : Tensor) : Prop :=
  ∀ i j a b, i < no → j < no → a < nv → b < nv →
    T.entry [i, j, a, b] = -T.entry [j, i, a, b] ∧
    T.entry [i, j, a, b] = -T.entry [i, j, b, a]

theorem build_tau_entry (st : CCState)
    (ht1 : st.t1.shape = [st.nocc, st.nvirt])
    (ht2 : st.t2.shape = [st.nocc, st.nocc, st.nvirt, st.nvirt])
    {i j a b : ℕ} (hi : i < st.nocc) (hj : j < st.nocc) (ha : a < st.nvirt)
    (hb : b < st.nvirt) :
    (build_tau st).entry [i, j, a, b] = st.t2.entry [i, j, a, b]
      + st.t1.entry [i, a] * st.t1.entry [j, b]
      - st.t1.entry [i, b] * st.t1.entry [j, a] := by
  have htm : (outer_ijab st.t1 st.t1).shape = [st.nocc, st.nocc, st.nvirt, st.nvirt] :=
    outer_ijab_shape ht1 ht1
  have hadd : (addT st.t2 (outer_ijab st.t1 st.t1)).shape
      = [st.nocc, st.nocc, st.nvirt, st.nvirt] := ht2
  have hsw : (swapAxesT 2 3 (outer_ijab st.t1 st.t1)).shape
      = [st.nocc, st.nocc, st.nvirt, st.nvirt] := swapAxesT_23_shape htm
  show (subT (addT st.t2 (outer_ijab st.t1 st.t1))
      (swapAxesT 2 3 (outer_ijab st.t1 st.t1))).entry [i, j, a, b] = _
  rw [subT_entry_of hadd hsw, addT_entry_of ht2 htm,
    outer_ijab_entry ht1 ht1 hi hj ha hb,
    swapAxesT_23_entry htm hi hj ha hb,
    outer_ijab_entry ht1 ht1 hi hj hb ha]

theorem build_tau_swap_ij (st : CCState)
    (ht1 : st.t1.shape = [st.nocc, st.nvirt])
    (ht2 : st.t2.shape = [st.nocc, st.nocc, st.nvirt, st.nvirt])
    (ht2a : Antisym4 st.nocc st.nvirt st.t2)
    {i j a b : ℕ} (hi : i < st.nocc) (hj : j < st.nocc) (ha : a < st.nvirt)
    (hb : b < st.nvirt) :
    (build_tau st).entry [i, j, a, b] = -(build_tau st).entry [j, i, a, b] := by
  rw [build_tau_entry st ht1 ht2 hi hj ha hb,
    build_tau_entry st ht1 ht2 hj hi ha hb,
    (ht2a i j a b hi hj ha hb).1]
  ring

theorem build_tau_swap_ab (st : CCState)
    (ht1 : st.t1.shape = [st.nocc, st.nvirt])
    (ht2 : st.t2.shape = [st.nocc, st.nocc, st.nvirt, st.nvirt])
    (ht2a : Antisym4 st.nocc st.nvirt st.t2)
    {i j a b : ℕ} (hi : i < st.nocc) (hj : j < st.nocc) (ha : a < st.nvirt)
    (hb : b < st.nvirt) :
    (build_tau st).entry [i, j, a, b] = -(build_tau st).entry [i, j, b, a] := by
  rw [build_tau_entry st ht1 ht2 hi hj ha hb,
    build_tau_entry st ht1 ht2 hi hj hb ha,
    (ht2a i j a b hi hj ha hb).2]
  ring

theorem Wm4_shape (st : CCState)
    (ht2 : st.t2.shape = [st.nocc, st.nocc, st.nvirt, st.nvirt]) :
    (ndotD "ijef,mnef->mnij" (build_tau st) (getMOd st "oovv") (some (1/4))).shape
      = [st.nocc, st.nocc, st.nocc, st.nocc] := by
  have hA : (build_tau st).shape = ['i','j','e','f'].map (szOV st.nocc st.nvirt) := by
    rw [build_tau_shape st ht2]; rfl
  have hB : (getMOd st "oovv").shape = ['m','n','e','f'].map (szOV st.nocc st.nvirt) := rfl
  exact (ndotD_spec (show parseSpec "ijef,mnef->mnij"
    = some (['i','j','e','f'], ['m','n','e','f'], ['m','n','i','j']) from rfl)
    (by decide) hA hB (some (1/4))).1

theorem Wab4_shape (st : CCState)
    (ht2 : st.t2.shape = [st.nocc, st.nocc, st.nvirt, st.nvirt]) :
    (ndotD "mnab,mnef->abef" (build_tau st) (getMOd st "oovv") (some (1/4))).shape
      = [st.nvirt, st.nvirt, st.nvirt, st.nvirt] := by
  have hA : (build_tau st).shape = ['m','n','a','b'].map (szOV st.nocc st.nvirt) := by
    rw [build_tau_shape st ht2]; rfl
  have hB : (getMOd st "oovv").shape = ['m','n','e','f'].map (szOV st.nocc st.nvirt) := rfl
  exact (ndotD_spec (show parseSpec "mnab,mnef->abef"
    = some (['m','n','a','b'], ['m','n','e','f'], ['a','b','e','f']) from rfl)
    (by decide) hA hB (some (1/4))).1

theorem T4_shape (st : CCState)
    (ht2 : st.t2.shape = [st.nocc, st.nocc, st.nvirt, st.nvirt]) :
    (ndotD "mnab,mnij->ijab" (build_tau st) (build_Wmnij st) (some (1/2))).shape
      = [st.nocc, st.nocc, st.nvirt, st.nvirt] := by
  have hA : (build_tau st).shape = ['m','n','a','b'].map (szOV st.nocc st.nvirt) := by
    rw [build_tau_shape st ht2]; rfl
  have hB : (build_Wmnij st).shape = ['m','n','i','j'].map (szOV st.nocc st.nvirt) := rfl
  exact (ndotD_spec (show parseSpec "mnab,mnij->ijab"
    = some (['m','n','a','b'], ['m','n','i','j'], ['i','j','a','b']) from rfl)
    (by decide) hA hB (some (1/2))).1

theorem T5_shape (st : CCState)
    (ht2 : st.t2.shape = [st.nocc, st.nocc, st.nvirt, st.nvirt]) :
    (ndotD "ijef,abef->ijab" (build_tau st) (build_Wabef st) (some (1/2))).shape
      = [st.nocc, st.nocc, st.nvirt, st.nvirt] := by
  have hA : (build_tau st).shape = ['i','j','e','f'].map (szOV st.nocc st.nvirt) := by
    rw [build_tau_shape st ht2]; rfl
  have hB : (build_Wabef st).shape = ['a','b','e','f'].map (szOV st.nocc st.nvirt) := rfl
  exact (ndotD_spec (show parseSpec "ijef,abef->ijab"
    = some (['i','j','e','f'], ['a','b','e','f'], ['i','j','a','b']) from rfl)
    (by decide) hA hB (some (1/2))).1

/-- `Wmnij` entries through its three-term chain. -/
theorem build_Wmnij_entry (st : CCState) (ht1 : st.t1.shape = [st.nocc, st.nvirt])
    (ht2 : st.t2.shape = [st.nocc, st.nocc, st.nvirt, st.nvirt])
    {m n i j : ℕ} (hm : m < st.nocc) (hn : n < st.nocc) (hi : i < st.nocc)
    (hj : j < st.nocc) :
    (build_Wmnij st).entry [m, n, i, j] = st.MO.entry [m, n, i, j]
      + (PijW st).entry [m, n, i, j] - (PijW st).entry [m, n, j, i]
      + (ndotD "ijef,mnef->mnij" (build_tau st) (getMOd st "oovv") (some (1/4))).entry
          [m, n, i, j] := by
  have hPsh := PijW_shape st ht1
  have hsw := swapAxesT_23_shape hPsh
  show (addT (subT (addT (getMOd st "oooo") (PijW st)) (swapAxesT 2 3 (PijW st)))
      (ndotD "ijef,mnef->mnij" (build_tau st) (getMOd st "oovv") (some (1/4)))).entry
    [m, n, i, j] = _
  rw [addT_entry_of rfl (Wm4_shape st ht2), subT_entry_of rfl hsw,
    addT_entry_of rfl hPsh, swapAxesT_23_entry hPsh hm hn hi hj,
    MOoooo_entry st hm hn hi hj]

/-- `Wmnij` is antisymmetric in its ket pair. -/
theorem build_Wmnij_ket (st : CCState)
    (hMO : MOPairAntisym (st.nocc + st.nvirt) st.MO)
    (ht1 : st.t1.shape = [st.nocc, st.nvirt])
    (ht2 : st.t2.shape = [st.nocc, st.nocc, st.nvirt, st.nvirt])
    (ht2a : Antisym4 st.nocc st.nvirt st.t2)
    {m n i j : ℕ} (hm : m < st.nocc) (hn : n < st.nocc) (hi : i < st.nocc)
    (hj : j < st.nocc) :
    (build_Wmnij st).entry [m, n, i, j] = -(build_Wmnij st).entry [m, n, j, i] := by
  have hmo : m < st.nocc + st.nvirt := Nat.lt_of_lt_of_le hm (Nat.le_add_right _ _)
  have hno : n < st.nocc + st.nvirt := Nat.lt_of_lt_of_le hn (Nat.le_add_right _ _)
  have hio : i < st.nocc + st.nvirt := Nat.lt_of_lt_of_le hi (Nat.le_add_right _ _)
  have hjo : j < st.nocc + st.nvirt := Nat.lt_of_lt_of_le hj (Nat.le_add_right _ _)
  have hS : (ndotD "ijef,mnef->mnij" (build_tau st) (getMOd st "oovv") (some (1/4))).entry
        [m, n, i, j]
      = -(ndotD "ijef,mnef->mnij" (build_tau st) (getMOd st "oovv") (some (1/4))).entry
        [m, n, j, i] := by
    rw [Wm4_entry st ht2 hm hn hi hj, Wm4_entry st ht2 hm hn hj hi, ← neg_mul,
      ← Finset.sum_neg_distrib]
    refine congrArg (fun x : ℚ => x * (1/4)) ?_
    refine Finset.sum_congr rfl fun e he => ?_
    rw [← Finset.sum_neg_distrib]
    refine Finset.sum_congr rfl fun f hf => ?_
    rw [build_tau_swap_ij st ht1 ht2 ht2a hi hj (Finset.mem_range.mp he)
      (Finset.mem_range.mp hf)]
    ring
  rw [build_Wmnij_entry st ht1 ht2 hm hn hi hj,
    build_Wmnij_entry st ht1 ht2 hm hn hj hi,
    (hMO m n i j hmo hno hio hjo).2, hS]
  ring

/-- `Wabef` entries through its three-term chain. -/
theorem build_Wabef_entry (st : CCState) (ht1 : st.t1.shape = [st.nocc, st.nvirt])
    (ht2 : st.t2.shape = [st.nocc, st.nocc, st.nvirt, st.nvirt])
    {a b e f : ℕ} (ha : a < st.nvirt) (hb : b < st.nvirt) (he : e < st.nvirt)
    (hf : f < st.nvirt) :
    (build_Wabef st).entry [a, b, e, f]
      = st.MO.entry [st.nocc + a, st.nocc + b, st.nocc + e, st.nocc + f]
      - (PabW st).entry [a, b, e, f] + (PabW st).entry [b, a, e, f]
      + (ndotD "mnab,mnef->abef" (build_tau st) (getMOd st "oovv") (some (1/4))).entry
          [a, b, e, f] := by
  have hPsh := PabW_shape st ht1
  have hsw := swapAxesT_01_shape hPsh
  show (addT (addT (subT (getMOd st "vvvv") (PabW st)) (swapAxesT 0 1 (PabW st)))
      (ndotD "mnab,mnef->abef" (build_tau st) (getMOd st "oovv") (some (1/4)))).entry
    [a, b, e, f] = _
  rw [addT_entry_of rfl (Wab4_shape st ht2), addT_entry_of rfl hsw,
    subT_entry_of rfl hPsh, swapAxesT_01_entry hPsh ha hb he hf,
    MOvvvv_entry st ha hb he hf]

/-- `Wabef` is antisymmetric in its bra pair. -/
theorem build_Wabef_bra (st : CCState)
    (hMO : MOPairAntisym (st.nocc + st.nvirt) st.MO)
    (ht1 : st.t1.shape = [st.nocc, st.nvirt])
    (ht2 : st.t2.shape = [st.nocc, st.nocc, st.nvirt, st.nvirt])
    (ht2a : Antisym4 st.nocc st.nvirt st.t2)
    {a b e f : ℕ} (ha : a < st.nvirt) (hb : b < st.nvirt) (he : e < st.nvirt)
    (hf : f < st.nvirt) :
    (build_Wabef st).entry [a, b, e, f] = -(build_Wabef st).entry [b, a, e, f] := by
  have hav : st.nocc + a < st.nocc + st.nvirt := Nat.add_lt_add_left ha _
  have hbv : st.nocc + b < st.nocc + st.nvirt := Nat.add_lt_add_left hb _
  have hev : st.nocc + e < st.nocc + st.nvirt := Nat.add_lt_add_left he _
  have hfv : st.nocc + f < st.nocc + st.nvirt := Nat.add_lt_add_left hf _
  have hS : (ndotD "mnab,mnef->abef" (build_tau st) (getMOd st "oovv") (some (1/4))).entry
        [a, b, e, f]
      = -(ndotD "mnab,mnef->abef" (build_tau st) (getMOd st "oovv") (some (1/4))).entry
        [b, a, e, f] := by
    rw [Wab4_entry st ht2 ha hb he hf, Wab4_entry st ht2 hb ha he hf, ← neg_mul,
      ← Finset.sum_neg_distrib]
    refine congrArg (fun x : ℚ => x * (1/4)) ?_
    refine Finset.sum_congr rfl fun m hm => ?_
    rw [← Finset.sum_neg_distrib]
    refine Finset.sum_congr rfl fun n hn => ?_
    rw [build_tau_swap_ab st ht1 ht2 ht2a (Finset.mem_range.mp hm)
      (Finset.mem_range.mp hn) ha hb]
    ring
  rw [build_Wabef_entry st ht1 ht2 ha hb he hf,
    build_Wabef_entry st ht1 ht2 hb ha he hf,
    (hMO (st.nocc + a) (st.nocc + b) (st.nocc + e) (st.nocc + f) hav hbv hev hfv).1, hS]
  ring

/-! ### Per-term swap behaviour of the `rhs_T2` pieces -/

theorem Pab1_swap_ij (st : CCState)
    (ht2 : st.t2.shape = [st.nocc, st.nocc, st.nvirt, st.nvirt])
    (ht2a : Antisym4 st.nocc st.nvirt st.t2)
    {i j a b : ℕ} (hi : i < st.nocc) (hj : j < st.nocc) (ha : a < st.nvirt)
    (hb : b < st.nvirt) :
    (Pab1 st).entry [i, j, a, b] = -(Pab1 st).entry [j, i, a, b] := by
  rw [Pab1_entry st ht2 hi hj ha hb, Pab1_entry st ht2 hj hi ha hb,
    ← Finset.sum_neg_distrib]
  refine Finset.sum_congr rfl fun e he => ?_
  rw [(ht2a i j a e hi hj ha (Finset.mem_range.mp he)).1]
  ring

theorem Pij1_swap_ab (st : CCState)
    (ht2 : st.t2.shape = [st.nocc, st.nocc, st.nvirt, st.nvirt])
    (ht2a : Antisym4 st.nocc st.nvirt st.t2)
    {i j a b : ℕ} (hi : i < st.nocc) (hj : j < st.nocc) (ha : a < st.nvirt)
    (hb : b < st.nvirt) :
    (Pij1 st).entry [i, j, a, b] = -(Pij1 st).entry [i, j, b, a] := by
  rw [Pij1_entry st ht2 hi hj ha hb, Pij1_entry st ht2 hi hj hb ha,
    ← Finset.sum_neg_distrib]
  refine Finset.sum_congr rfl fun m hm => ?_
  rw [(ht2a i m a b hi (Finset.mem_range.mp hm) ha hb).2]
  ring

theorem T4_swap_ij (st : CCState)
    (hMO : MOPairAntisym (st.nocc + st.nvirt) st.MO)
    (ht1 : st.t1.shape = [st.nocc, st.nvirt])
    (ht2 : st.t2.shape = [st.nocc, st.nocc, st.nvirt, st.nvirt])
    (ht2a : Antisym4 st.nocc st.nvirt st.t2)
    {i j a b : ℕ} (hi : i < st.nocc) (hj : j < st.nocc) (ha : a < st.nvirt)
    (hb : b < st.nvirt) :
    (ndotD "mnab,mnij->ijab" (build_tau st) (build_Wmnij st) (some (1/2))).entry
        [i, j, a, b]
      = -(ndotD "mnab,mnij->ijab" (build_tau st) (build_Wmnij st) (some (1/2))).entry
        [j, i, a, b] := by
  rw [T4_entry st ht2 hi hj ha hb, T4_entry st ht2 hj hi ha hb, ← neg_mul,
    ← Finset.sum_neg_distrib]
  refine congrArg (fun x : ℚ => x * (1/2)) ?_
  refine Finset.sum_congr rfl fun m hm => ?_
  rw [← Finset.sum_neg_distrib]
  refine Finset.sum_congr rfl fun n hn => ?_
  rw [build_Wmnij_ket st hMO ht1 ht2 ht2a (Finset.mem_range.mp hm)
    (Finset.mem_range.mp hn) hi hj]
  ring

theorem T4_swap_ab (st : CCState)
    (ht1 : st.t1.shape = [st.nocc, st.nvirt])
    (ht2 : st.t2.shape = [st.nocc, st.nocc, st.nvirt, st.nvirt])
    (ht2a : Antisym4 st.nocc st.nvirt st.t2)
    {i j a b : ℕ} (hi : i < st.nocc) (hj : j < st.nocc) (ha : a < st.nvirt)
    (hb : b < st.nvirt) :
    (ndotD "mnab,mnij->ijab" (build_tau st) (build_Wmnij st) (some (1/2))).entry
        [i, j, a, b]
      = -(ndotD "mnab,mnij->ijab" (build_tau st) (build_Wmnij st) (some (1/2))).entry
        [i, j, b, a] := by
  rw [T4_entry st ht2 hi hj ha hb, T4_entry st ht2 hi hj hb ha, ← neg_mul,
    ← Finset.sum_neg_distrib]
  refine congrArg (fun x : ℚ => x * (1/2)) ?_
  refine Finset.sum_congr rfl fun m hm => ?_
  rw [← Finset.sum_neg_distrib]
  refine Finset.sum_congr rfl fun n hn => ?_
  rw [build_tau_swap_ab st ht1 ht2 ht2a (Finset.mem_range.mp hm)
    (Finset.mem_range.mp hn) ha hb]
  ring

theorem T5_swap_ij (st : CCState)
    (ht1 : st.t1.shape = [st.nocc, st.nvirt])
    (ht2 : st.t2.shape = [st.nocc, st.nocc, st.nvirt, st.nvirt])
    (ht2a : Antisym4 st.nocc st.nvirt st.t2)
    {i j a b : ℕ} (hi : i < st.nocc) (hj : j < st.nocc) (ha : a < st.nvirt)
    (hb : b < st.nvirt) :
    (ndotD "ijef,abef->ijab" (build_tau st) (build_Wabef st) (some (1/2))).entry
        [i, j, a, b]
      = -(ndotD "ijef,abef->ijab" (build_tau st) (build_Wabef st) (some (1/2))).entry
        [j, i, a, b] := by
  rw [T5_entry st ht2 hi hj ha hb, T5_entry st ht2 hj hi ha hb, ← neg_mul,
    ← Finset.sum_neg_distrib]
  refine congrArg (fun x : ℚ => x * (1/2)) ?_
  refine Finset.sum_congr rfl fun e he => ?_
  rw [← Finset.sum_neg_distrib]
  refine Finset.sum_congr rfl fun f hf => ?_
  rw [build_tau_swap_ij st ht1 ht2 ht2a hi hj (Finset.mem_range.mp he)
    (Finset.mem_range.mp hf)]
  ring

theorem T5_swap_ab (st : CCState)
    (hMO : MOPairAntisym (st.nocc + st.nvirt) st.MO)
    (ht1 : st.t1.shape = [st.nocc, st.nvirt])
    (ht2 : st.t2.shape = [st.nocc, st.nocc, st.nvirt, st.nvirt])
    (ht2a : Antisym4 st.nocc st.nvirt st.t2)
    {i j a b : ℕ} (hi : i < st.nocc) (hj : j < st.nocc) (ha : a < st.nvirt)
    (hb : b < st.nvirt) :
    (ndotD "ijef,abef->ijab" (build_tau st) (build_Wabef st) (some (1/2))).entry
        [i, j, a, b]
      = -(ndotD "ijef,abef->ijab" (build_tau st) (build_Wabef st) (some (1/2))).entry
        [i, j, b, a] := by
  rw [T5_entry st ht2 hi hj ha hb, T5_entry st ht2 hi hj hb ha, ← neg_mul,
    ← Finset.sum_neg_distrib]
  refine congrArg (fun x : ℚ => x * (1/2)) ?_
  refine Finset.sum_congr rfl fun e he => ?_
  rw [← Finset.sum_neg_distrib]
  refine Finset.sum_congr rfl fun f hf => ?_
  rw [build_Wabef_bra st hMO ht1 ht2 ht2a ha hb (Finset.mem_range.mp he)
    (Finset.mem_range.mp hf)]
  ring

theorem Pij2_swap_ab (st : CCState)
    (hMO : MOPairAntisym (st.nocc + st.nvirt) st.MO)
    (ht1 : st.t1.shape = [st.nocc, st.nvirt])
    {i j a b : ℕ} (hi : i < st.nocc) (hj : j < st.nocc) (ha : a < st.nvirt)
    (hb : b < st.nvirt) :
    (Pij2 st).entry [i, j, a, b] = -(Pij2 st).entry [i, j, b, a] := by
  have hav : st.nocc + a < st.nocc + st.nvirt := Nat.add_lt_add_left ha _
  have hbv : st.nocc + b < st.nocc + st.nvirt := Nat.add_lt_add_left hb _
  have hjo : j < st.nocc + st.nvirt := Nat.lt_of_lt_of_le hj (Nat.le_add_right _ _)
  rw [Pij2_entry st ht1 hi hj ha hb, Pij2_entry st ht1 hi hj hb ha,
    ← Finset.sum_neg_distrib]
  refine Finset.sum_congr rfl fun e he => ?_
  have hev : st.nocc + e < st.nocc + st.nvirt :=
    Nat.add_lt_add_left (Finset.mem_range.mp he) _
  rw [(hMO (st.nocc + a) (st.nocc + b) (st.nocc + e) j hav hbv hev hjo).1]
  ring

theorem Pab2_swap_ij (st : CCState)
    (hMO : MOPairAntisym (st.nocc + st.nvirt) st.MO)
    (ht1 : st.t1.shape = [st.nocc, st.nvirt])
    {i j a b : ℕ} (hi : i < st.nocc) (hj : j < st.nocc) (ha : a < st.nvirt)
    (hb : b < st.nvirt) :
    (Pab2 st).entry [i, j, a, b] = -(Pab2 st).entry [j, i, a, b] := by
  have hbv : st.nocc + b < st.nocc + st.nvirt := Nat.add_lt_add_left hb _
  have hio : i < st.nocc + st.nvirt := Nat.lt_of_lt_of_le hi (Nat.le_add_right _ _)
  have hjo : j < st.nocc + st.nvirt := Nat.lt_of_lt_of_le hj (Nat.le_add_right _ _)
  rw [Pab2_entry st ht1 hi hj ha hb, Pab2_entry st ht1 hj hi ha hb,
    ← Finset.sum_neg_distrib]
  refine Finset.sum_congr rfl fun m hm => ?_
  have hmo : m < st.nocc + st.nvirt :=
    Nat.lt_of_lt_of_le (Finset.mem_range.mp hm) (Nat.le_add_right _ _)
  rw [(hMO m (st.nocc + b) i j hmo hbv hio hjo).2]
  ring

/-! ### The assembled `rhs_T2` entry and its antisymmetry -/

theorem rhs_T2_entry (st : CCState) (ht1 : st.t1.shape = [st.nocc, st.nvirt])
    (ht2 : st.t2.shape = [st.nocc, st.nocc, st.nvirt, st.nvirt])
    {i j a b : ℕ} (hi : i < st.nocc) (hj : j < st.nocc) (ha : a < st.nvirt)
    (hb : b < st.nvirt) :
    (rhs_T2 st).entry [i, j, a, b] =
      st.MO.entry [i, j, st.nocc + a, st.nocc + b]
      + (Pab1 st).entry [i, j, a, b] - (Pab1 st).entry [i, j, b, a]
      - (Pij1 st).entry [i, j, a, b] + (Pij1 st).entry [j, i, a, b]
      + (ndotD "mnab,mnij->ijab" (build_tau st) (build_Wmnij st) (some (1/2))).entry
          [i, j, a, b]
      + (ndotD "ijef,abef->ijab" (build_tau st) (build_Wabef st) (some (1/2))).entry
          [i, j, a, b]
      + (Pijab st).entry [i, j, a, b] - (Pijab st).entry [i, j, b, a]
      - (Pijab st).entry [j, i, a, b] + (Pijab st).entry [j, i, b, a]
      + (Pij2 st).entry [i, j, a, b] - (Pij2 st).entry [j, i, a, b]
      - (Pab2 st).entry [i, j, a, b] + (Pab2 st).entry [i, j, b, a] := by
  have h1 := Pab1_shape st ht2
  have h1s := swapAxesT_23_shape h1
  have h2 := Pij1_shape st ht2
  have h2s := swapAxesT_01_shape h2
  have h4 := T4_shape st ht2
  have h5 := T5_shape st ht2
  have h6 := Pijab_shape st ht2
  have h6s := swapAxesT_23_shape h6
  have h6b := swapAxesT_01_shape h6
  have h6c := swapAxesT_23_shape h6b
  have h7 := Pij2_shape st ht1
  have h7s := swapAxesT_01_shape h7
  have h8 := Pab2_shape st ht1
  have h8s := swapAxesT_23_shape h8
  simp only [rhs_T2]
  rw [addT_entry_of rfl h8s, subT_entry_of rfl h8, subT_entry_of rfl h7s,
    addT_entry_of rfl h7, addT_entry_of rfl h6c, subT_entry_of rfl h6b,
    subT_entry_of rfl h6s, addT_entry_of rfl h6, addT_entry_of rfl h5,
    addT_entry_of rfl h4, addT_entry_of rfl h2s, subT_entry_of rfl h2,
    subT_entry_of rfl h1s, addT_entry_of rfl h1,
    MOoovv_entry st hi hj ha hb,
    swapAxesT_23_entry h1 hi hj ha hb,
    swapAxesT_01_entry h2 hi hj ha hb,
    swapAxesT_23_entry h6b hi hj ha hb,
    swapAxesT_01_entry h6 hi hj hb ha,
    swapAxesT_23_entry h6 hi hj ha hb,
    swapAxesT_01_entry h6 hi hj ha hb,
    swapAxesT_01_entry h7 hi hj ha hb,
    swapAxesT_23_entry h8 hi hj ha hb]

theorem rhs_T2_swap_ij (st : CCState)
    (hMO : MOPairAntisym (st.nocc + st.nvirt) st.MO)
    (ht1 : st.t1.shape = [st.nocc, st.nvirt])
    (ht2 : st.t2.shape = [st.nocc, st.nocc, st.nvirt, st.nvirt])
    (ht2a : Antisym4 st.nocc st.nvirt st.t2)
    {i j a b : ℕ} (hi : i < st.nocc) (hj : j < st.nocc) (ha : a < st.nvirt)
    (hb : b < st.nvirt) :
    (rhs_T2 st).entry [i, j, a, b] = -(rhs_T2 st).entry [j, i, a, b] := by
  have hio : i < st.nocc + st.nvirt := Nat.lt_of_lt_of_le hi (Nat.le_add_right _ _)
  have hjo : j < st.nocc + st.nvirt := Nat.lt_of_lt_of_le hj (Nat.le_add_right _ _)
  have hav : st.nocc + a < st.nocc + st.nvirt := Nat.add_lt_add_left ha _
  have hbv : st.nocc + b < st.nocc + st.nvirt := Nat.add_lt_add_left hb _
  have e0 := (hMO i j (st.nocc + a) (st.nocc + b) hio hjo hav hbv).1
  have e1 := Pab1_swap_ij st ht2 ht2a hi hj ha hb
  have e2 := Pab1_swap_ij st ht2 ht2a hi hj hb ha
  have e4 := T4_swap_ij st hMO ht1 ht2 ht2a hi hj ha hb
  have e5 := T5_swap_ij st ht1 ht2 ht2a hi hj ha hb
  have e7 := Pab2_swap_ij st hMO ht1 hi hj ha hb
  have e8 := Pab2_swap_ij st hMO ht1 hi hj hb ha
  rw [rhs_T2_entry st ht1 ht2 hi hj ha hb, rhs_T2_entry st ht1 ht2 hj hi ha hb]
  linear_combination e0 + e1 - e2 + e4 + e5 - e7 + e8

theorem rhs_T2_swap_ab (st : CCState)
    (hMO : MOPairAntisym (st.nocc + st.nvirt) st.MO)
    (ht1 : st.t1.shape = [st.nocc, st.nvirt])
    (ht2 : st.t2.shape = [st.nocc, st.nocc, st.nvirt, st.nvirt])
    (ht2a : Antisym4 st.nocc st.nvirt st.t2)
    {i j a b : ℕ} (hi : i < st.nocc) (hj : j < st.nocc) (ha : a < st.nvirt)
    (hb : b < st.nvirt) :
    (rhs_T2 st).entry [i, j, a, b] = -(rhs_T2 st).entry [i, j, b, a] := by
  have hio : i < st.nocc + st.nvirt := Nat.lt_of_lt_of_le hi (Nat.le_add_right _ _)
  have hjo : j < st.nocc + st.nvirt := Nat.lt_of_lt_of_le hj (Nat.le_add_right _ _)
  have hav : st.nocc + a < st.nocc + st.nvirt := Nat.add_lt_add_left ha _
  have hbv : st.nocc + b < st.nocc + st.nvirt := Nat.add_lt_add_left hb _
  have e0 := (hMO i j (st.nocc + a) (st.nocc + b) hio hjo hav hbv).2
  have p1 := Pij1_swap_ab st ht2 ht2a hi hj ha hb
  have p2 := Pij1_swap_ab st ht2 ht2a hj hi ha hb
  have t4 := T4_swap_ab st ht1 ht2 ht2a hi hj ha hb
  have t5 := T5_swap_ab st hMO ht1 ht2 ht2a hi hj ha hb
  have q1 := Pij2_swap_ab st hMO ht1 hi hj ha hb
  have q2 := Pij2_swap_ab st hMO ht1 hj hi ha hb
  rw [rhs_T2_entry st ht1 ht2 hi hj ha hb, rhs_T2_entry st ht1 ht2 hi hj hb ha]
  linear_combination e0 - p1 + p2 + t4 + t5 + q1 - q2

/-! ### Denominator entries, the update step, and the C2 induction -/

theorem DiaOf_entry (no nv : ℕ) (F : Tensor) {i a : ℕ} (hi : i < no)
    (ha : a < nv) :
    (DiaOf no nv F).entry [i, a] = F.entry [i, i] - F.entry [no + a, no + a] := by
  simp only [DiaOf, Tensor.entry]
  rw [unflat_flatIdx (validIdx2 hi ha)]
  rfl

theorem DijabOf_entry (no nv : ℕ) (F : Tensor) {i j a b : ℕ} (hi : i < no)
    (hj : j < no) (ha : a < nv) (hb : b < nv) :
    (DijabOf no nv F).entry [i, j, a, b] =
      F.entry [i, i] + F.entry [j, j]
        - F.entry [no + a, no + a] - F.entry [no + b, no + b] := by
  simp only [DijabOf, Tensor.entry]
  rw [unflat_flatIdx (validIdx4 hi hj ha hb)]
  rfl

theorem DijabOf_sym (no nv : ℕ) (F : Tensor) {i j a b : ℕ} (hi : i < no)
    (hj : j < no) (ha : a < nv) (hb : b < nv) :
    (DijabOf no nv F).entry [i, j, a, b] = (DijabOf no nv F).entry [j, i, a, b] ∧
    (DijabOf no nv F).entry [i, j, a, b] = (DijabOf no nv F).entry [i, j, b, a] := by
  rw [DijabOf_entry no nv F hi hj ha hb, DijabOf_entry no nv F hj hi ha hb,
    DijabOf_entry no nv F hi hj hb ha]
  constructor <;> ring

/-- One `update()` call keeps the doubles amplitudes antisymmetric, whatever
the current amplitudes are, as long as the integrals are pair-antisymmetric
and the (unchanged) denominator array is pair-symmetric. -/
theorem update_t2_antisym (st : CCState)
    (hMO : MOPairAntisym (st.nocc + st.nvirt) st.MO)
    (ht1 : st.t1.shape = [st.nocc, st.nvirt])
    (ht2 : st.t2.shape = [st.nocc, st.nocc, st.nvirt, st.nvirt])
    (ht2a : Antisym4 st.nocc st.nvirt st.t2)
    (hDsh : st.Dijab.shape = [st.nocc, st.nocc, st.nvirt, st.nvirt])
    (hDsym : ∀ i j a b, i < st.nocc → j < st.nocc → a < st.nvirt → b < st.nvirt →
      st.Dijab.entry [i, j, a, b] = st.Dijab.entry [j, i, a, b] ∧
      st.Dijab.entry [i, j, a, b] = st.Dijab.entry [i, j, b, a]) :
    Antisym4 st.nocc st.nvirt (update st).t2 := by
  intro i j a b hi hj ha hb
  have hsh : (rhs_T2 st).shape = st.Dijab.shape :=
    (rfl : (rhs_T2 st).shape = [st.nocc, st.nocc, st.nvirt, st.nvirt]).trans hDsh.symm
  constructor
  · show (divT (rhs_T2 st) st.Dijab).entry [i, j, a, b]
      = -(divT (rhs_T2 st) st.Dijab).entry [j, i, a, b]
    rw [divT_entry [i, j, a, b] hsh, divT_entry [j, i, a, b] hsh,
      rhs_T2_swap_ij st hMO ht1 ht2 ht2a hi hj ha hb,
      (hDsym i j a b hi hj ha hb).1, neg_div]
  · show (divT (rhs_T2 st) st.Dijab).entry [i, j, a, b]
      = -(divT (rhs_T2 st) st.Dijab).entry [i, j, b, a]
    rw [divT_entry [i, j, a, b] hsh, divT_entry [i, j, b, a] hsh,
      rhs_T2_swap_ab st hMO ht1 ht2 ht2a hi hj ha hb,
      (hDsym i j a b hi hj ha hb).2, neg_div]

/-- The perturbative initial guess is antisymmetric. -/
theorem mkState_t2_antisym (ndocc : ℕ) (H0 npC MOspin : Tensor)
    (hMO : MOPairAntisym ((mkState ndocc H0 npC MOspin).nocc
      + (mkState ndocc H0 npC MOspin).nvirt) MOspin) :
    Antisym4 (mkState ndocc H0 npC MOspin).nocc (mkState ndocc H0 npC MOspin).nvirt
      (mkState ndocc H0 npC MOspin).t2 := by
  intro i j a b hi hj ha hb
  set st := mkState ndocc H0 npC MOspin with hst
  have hio : i < st.nocc + st.nvirt := Nat.lt_of_lt_of_le hi (Nat.le_add_right _ _)
  have hjo : j < st.nocc + st.nvirt := Nat.lt_of_lt_of_le hj (Nat.le_add_right _ _)
  have hav : st.nocc + a < st.nocc + st.nvirt := Nat.add_lt_add_left ha _
  have hbv : st.nocc + b < st.nocc + st.nvirt := Nat.add_lt_add_left hb _
  have hnum : ∀ x y c d, x < st.nocc → y < st.nocc → c < st.nvirt → d < st.nvirt →
      (sliceT st.MO [(0, st.nocc), (0, st.nocc), (st.nocc, st.nvirt),
        (st.nocc, st.nvirt)]).entry [x, y, c, d]
      = st.MO.entry [x, y, st.nocc + c, st.nocc + d] := by
    intro x y c d hx hy hc hd
    rw [sliceT4_entry st.MO hx hy hc hd]
    simp only [Nat.zero_add]
  have hsh : (sliceT st.MO [(0, st.nocc), (0, st.nocc), (st.nocc, st.nvirt),
      (st.nocc, st.nvirt)]).shape
      = (DijabOf st.nocc st.nvirt st.F).shape := rfl
  have ht2e : ∀ x y c d, st.t2.entry [x, y, c, d]
      = (sliceT st.MO [(0, st.nocc), (0, st.nocc), (st.nocc, st.nvirt),
          (st.nocc, st.nvirt)]).entry [x, y, c, d]
        / (DijabOf st.nocc st.nvirt st.F).entry [x, y, c, d] := by
    intro x y c d
    exact divT_entry [x, y, c, d] hsh
  have hMOst : MOPairAntisym (st.nocc + st.nvirt) st.MO := hMO
  constructor
  · rw [ht2e i j a b, ht2e j i a b, hnum i j a b hi hj ha hb,
      hnum j i a b hj hi ha hb, (hMOst i j (st.nocc + a) (st.nocc + b) hio hjo hav hbv).1,
      (DijabOf_sym st.nocc st.nvirt st.F hi hj ha hb).1, neg_div]
  · rw [ht2e i j a b, ht2e i j b a, hnum i j a b hi hj ha hb,
      hnum i j b a hi hj hb ha, (hMOst i j (st.nocc + a) (st.nocc + b) hio hjo hav hbv).2,
      (DijabOf_sym st.nocc st.nvirt st.F hi hj ha hb).2, neg_div]

/-- `update` iterated any number of times keeps `t2` antisymmetric, given a
pair-antisymmetric integral tensor and a pair-symmetric denominator array. -/
theorem update_iterate_antisym (st0 : CCState)
    (hMO : MOPairAntisym (st0.nocc + st0.nvirt) st0.MO)
    (ht1 : st0.t1.shape = [st0.nocc, st0.nvirt])
    (ht2 : st0.t2.shape = [st0.nocc, st0.nocc, st0.nvirt, st0.nvirt])
    (ht2a : Antisym4 st0.nocc st0.nvirt st0.t2)
    (hDsh : st0.Dijab.shape = [st0.nocc, st0.nocc, st0.nvirt, st0.nvirt])
    (hDsym : ∀ i j a b, i < st0.nocc → j < st0.nocc → a < st0.nvirt → b < st0.nvirt →
      st0.Dijab.entry [i, j, a, b] = st0.Dijab.entry [j, i, a, b] ∧
      st0.Dijab.entry [i, j, a, b] = st0.Dijab.entry [i, j, b, a]) (k : ℕ) :
    Antisym4 st0.nocc st0.nvirt (update^[k] st0).t2 := by
  suffices h : ∀ m : ℕ, (update^[m] st0).nocc = st0.nocc ∧
      (update^[m] st0).nvirt = st0.nvirt ∧
      (update^[m] st0).MO = st0.MO ∧ (update^[m] st0).Dijab = st0.Dijab ∧
      (update^[m] st0).t1.shape = [st0.nocc, st0.nvirt] ∧
      (update^[m] st0).t2.shape = [st0.nocc, st0.nocc, st0.nvirt, st0.nvirt] ∧
      Antisym4 st0.nocc st0.nvirt (update^[m] st0).t2 from (h k).2.2.2.2.2.2
  intro m
  induction m with
  | zero => exact ⟨rfl, rfl, rfl, rfl, ht1, ht2, ht2a⟩
  | succ n ih =>
    rw [Function.iterate_succ_apply']
    set stn := update^[n] st0 with hstn
    obtain ⟨hno, hnv, hMOe, hDe, h1, h2, ha⟩ := ih
    have hMOn : MOPairAntisym (stn.nocc + stn.nvirt) stn.MO := by
      rw [hno, hnv, hMOe]; exact hMO
    have ht1n : stn.t1.shape = [stn.nocc, stn.nvirt] := by
      rw [hno, hnv]; exact h1
    have ht2n : stn.t2.shape = [stn.nocc, stn.nocc, stn.nvirt, stn.nvirt] := by
      rw [hno, hnv]; exact h2
    have ht2an : Antisym4 stn.nocc stn.nvirt stn.t2 := by
      rw [hno, hnv]; exact ha
    have hDshn : stn.Dijab.shape = [stn.nocc, stn.nocc, stn.nvirt, stn.nvirt] := by
      rw [hDe, hno, hnv]; exact hDsh
    have hDsymn : ∀ i j a b, i < stn.nocc → j < stn.nocc → a < stn.nvirt →
        b < stn.nvirt →
        stn.Dijab.entry [i, j, a, b] = stn.Dijab.entry [j, i, a, b] ∧
        stn.Dijab.entry [i, j, a, b] = stn.Dijab.entry [i, j, b, a] := by
      simp only [hDe, hno, hnv]; exact hDsym
    have hstep := update_t2_antisym stn hMOn ht1n ht2n ht2an hDshn hDsymn
    rw [hno, hnv] at hstep
    refine ⟨hno, hnv, hMOe, hDe, ?_, ?_, hstep⟩
    · exact (show (update stn).t1.shape = [stn.nocc, stn.nvirt] from rfl).trans
        (by rw [hno, hnv])
    · exact (show (update stn).t2.shape
        = [stn.nocc, stn.nocc, stn.nvirt, stn.nvirt] from rfl).trans
        (by rw [hno, hnv])

/-- **C2.** The doubles-amplitude antisymmetry invariant
`t2[i,j,a,b] = -t2[j,i,a,b]` and `t2[i,j,a,b] = -t2[i,j,b,a]` holds on all
valid index tuples immediately after construction (the perturbative guess)
and after every number of `update()` calls, assuming the two-electron
integral tensor is antisymmetric under exchange within its bra pair and
within its ket pair. -/
theorem C2_t2_antisymmetry (ndocc : ℕ) (H0 npC MOspin : Tensor)
    (hMO : MOPairAntisym ((mkState ndocc H0 npC MOspin).nocc
      + (mkState ndocc H0 npC MOspin).nvirt) MOspin) (k : ℕ) :
    Antisym4 (mkState ndocc H0 npC MOspin).nocc (mkState ndocc H0 npC MOspin).nvirt
      (update^[k] (mkState ndocc H0 npC MOspin)).t2 := by
  refine update_iterate_antisym (mkState ndocc H0 npC MOspin) hMO rfl rfl
    (mkState_t2_antisym ndocc H0 npC MOspin hMO) rfl ?_ k
  intro i j a b hi hj ha hb
  exact DijabOf_sym (mkState ndocc H0 npC MOspin).nocc
    (mkState ndocc H0 npC MOspin).nvirt (mkState ndocc H0 npC MOspin).F hi hj ha hb

/-- Concrete instance for C2: two spatial orbitals, one doubly occupied,
zero integrals; one `update()` call. -/
theorem C2_t2_antisymmetry_witness :
    MOPairAntisym ((mkState 1 ⟨[2, 2], fun _ => 0⟩ ⟨[2, 2], fun _ => 0⟩
        ⟨[4, 4, 4, 4], fun _ => 0⟩).nocc
      + (mkState 1 ⟨[2, 2], fun _ => 0⟩ ⟨[2, 2], fun _ => 0⟩
        ⟨[4, 4, 4, 4], fun _ => 0⟩).nvirt) ⟨[4, 4, 4, 4], fun _ => 0⟩ ∧
    Antisym4 (mkState 1 ⟨[2, 2], fun _ => 0⟩ ⟨[2, 2], fun _ => 0⟩
        ⟨[4, 4, 4, 4], fun _ => 0⟩).nocc
      (mkState 1 ⟨[2, 2], fun _ => 0⟩ ⟨[2, 2], fun _ => 0⟩
        ⟨[4, 4, 4, 4], fun _ => 0⟩).nvirt
      (update^[1] (mkState 1 ⟨[2, 2], fun _ => 0⟩ ⟨[2, 2], fun _ => 0⟩
        ⟨[4, 4, 4, 4], fun _ => 0⟩)).t2 :=
  ⟨fun _ _ _ _ _ _ _ _ => ⟨by simp [Tensor.entry], by simp [Tensor.entry]⟩,
   C2_t2_antisymmetry 1 ⟨[2, 2], fun _ => 0⟩ ⟨[2, 2], fun _ => 0⟩
     ⟨[4, 4, 4, 4], fun _ => 0⟩
     (fun _ _ _ _ _ _ _ _ => ⟨by simp [Tensor.entry], by simp [Tensor.entry]⟩) 1⟩

/-! ## Claim theorems -/

/-- **C1.** For every valid contraction specification string and every pair of
tensors whose shapes conform to it (each label's extent given by a size
assignment `sz0`), `ndot` succeeds and its result equals the fully explicit
generic Einstein summation over the shared labels — in whichever dispatch
branch fires: plain multiply, both transposed, right transposed, left
transposed, the zero-free-axes einsum fallback, or the general tensordot
contraction, including the final reshape and axis permutation to the
requested output order. -/
theorem C1_ndot_refines_einsum {s : String} {L R O : List Char}
    (hp : parseSpec s = some (L, R, O)) (hs : SpecOK L R O) {A B : Tensor}
    {sz0 : Char → ℕ} (hA : A.shape = L.map sz0) (hB : B.shape = R.map sz0) :
    ∃ T, ndot s A B none = some T ∧ T.Eqv (einsumRef L R O A B) := by
  obtain ⟨T, h1, h2⟩ := ndot_ok hp hs hA hB none
  exact ⟨T, h1, h2⟩

/-- Concrete instance for C1: a plain matrix multiply. -/
theorem C1_witness :
    parseSpec "ab,bc->ac" = some (['a', 'b'], ['b', 'c'], ['a', 'c']) ∧
    SpecOK ['a', 'b'] ['b', 'c'] ['a', 'c'] ∧
    ∃ T, ndot "ab,bc->ac" (⟨[2, 3], fun n => (n : ℚ)⟩ : Tensor)
        (⟨[3, 2], fun n => (n : ℚ)⟩ : Tensor) none = some T ∧
      T.Eqv (einsumRef ['a', 'b'] ['b', 'c'] ['a', 'c']
        ⟨[2, 3], fun n => (n : ℚ)⟩ ⟨[3, 2], fun n => (n : ℚ)⟩) :=
  ⟨rfl, by decide,
    C1_ndot_refines_einsum (show parseSpec "ab,bc->ac"
        = some (['a', 'b'], ['b', 'c'], ['a', 'c']) from rfl) (by decide)
      (show (⟨[2, 3], fun n => (n : ℚ)⟩ : Tensor).shape
        = ['a', 'b'].map (fun c => if c = 'b' then 3 else 2) from rfl)
      (show (⟨[3, 2], fun n => (n : ℚ)⟩ : Tensor).shape
        = ['b', 'c'].map (fun c => if c = 'b' then 3 else 2) from rfl)⟩

/-- **C9.** For every specification string, operands, and scalar `s`,
`ndot(spec, A, B, prefactor=s)` equals `s` times `ndot(spec, A, B)` —
elementwise scaling of the unscaled result, through every dispatch branch. -/
theorem C9_prefactor_scaling (input_string : String) (op1 op2 : Tensor) (s : ℚ) :
    ndot input_string op1 op2 (some s)
      = Option.map (scaleT s) (ndot input_string op1 op2 none) := by
  unfold ndot
  cases hp : parseSpec input_string with
  | none => rfl
  | some t =>
    obtain ⟨L, R, O⟩ := t
    exact ndotCore_prefactor L R O op1 op2 s

/-- **C8.** `update()` replaces exactly `t1` and `t2` (with the
denominator-divided right-hand sides built from the pre-update state); the
integral tensor `MO`, Fock matrix `F`, denominators `Dia`/`Dijab`, and the
orbital counts are untouched. -/
theorem C8_update_frame (st : CCState) :
    (update st).MO = st.MO ∧ (update st).F = st.F ∧ (update st).Dia = st.Dia ∧
    (update st).Dijab = st.Dijab ∧ (update st).nocc = st.nocc ∧
    (update st).nvirt = st.nvirt ∧
    (update st).t1 = divT (rhs_T1 st) st.Dia ∧
    (update st).t2 = divT (rhs_T2 st) st.Dijab :=
  ⟨rfl, rfl, rfl, rfl, rfl, rfl, rfl, rfl⟩

/-- **C5.** [code bug] Whenever the estimated footprint
`nmo^4 * 128e-9 GB * 5` exceeds the memory budget, construction aborts
before the rank-4 tensor is materialized — but with an `AttributeError`
(from `self.psi.clean()`: no `psi` attribute exists on the instance), not
the intended `raise Exception(...)`, whose message would itself crash on
the undefined name `numpy_memory`.  The spec's prescribed
`ResourceLimitExceeded` failure is unreachable. -/
theorem C5_memory_guard_crashes (memory : ℚ) (ndocc : ℕ) (H0 npC MOspin : Tensor)
    (h : ((H0.shape.headD 0 : ℚ) ^ 4 * (128 / 10 ^ 9)) * 5 > memory) :
    helper_CCSD_init memory ndocc H0 npC MOspin = .error PyErr.attributeError := by
  simp only [helper_CCSD_init]
  rw [if_pos h]

/-- Concrete instance for C5: a single basis function against a zero
budget. -/
theorem C5_witness :
    (((⟨[1], fun _ => 0⟩ : Tensor).shape.headD 0 : ℚ) ^ 4 * (128 / 10 ^ 9)) * 5
      > (0 : ℚ) ∧
    helper_CCSD_init 0 1 ⟨[1], fun _ => 0⟩ ⟨[1], fun _ => 0⟩ ⟨[1], fun _ => 0⟩
      = .error PyErr.attributeError :=
  ⟨by norm_num,
   C5_memory_guard_crashes 0 1 ⟨[1], fun _ => 0⟩ ⟨[1], fun _ => 0⟩
     ⟨[1], fun _ => 0⟩ (by norm_num)⟩

/-- **C4.** Immediately after construction, `t1` is the all-zero
`nocc × nvirt` array and `t2` is the `oovv` block of `MO` divided
elementwise by `Dijab`. -/
theorem C4_initial_guess (ndocc : ℕ) (H0 npC MOspin : Tensor) :
    ((mkState ndocc H0 npC MOspin).t1.shape
        = [(mkState ndocc H0 npC MOspin).nocc, (mkState ndocc H0 npC MOspin).nvirt] ∧
      ∀ idx, (mkState ndocc H0 npC MOspin).t1.entry idx = 0) ∧
    (mkState ndocc H0 npC MOspin).t2
      = divT (sliceT MOspin [(0, (mkState ndocc H0 npC MOspin).nocc),
          (0, (mkState ndocc H0 npC MOspin).nocc),
          ((mkState ndocc H0 npC MOspin).nocc, (mkState ndocc H0 npC MOspin).nvirt),
          ((mkState ndocc H0 npC MOspin).nocc, (mkState ndocc H0 npC MOspin).nvirt)])
        (mkState ndocc H0 npC MOspin).Dijab ∧
    ∀ i j a b, i < (mkState ndocc H0 npC MOspin).nocc →
      j < (mkState ndocc H0 npC MOspin).nocc →
      a < (mkState ndocc H0 npC MOspin).nvirt →
      b < (mkState ndocc H0 npC MOspin).nvirt →
      (mkState ndocc H0 npC MOspin).t2.entry [i, j, a, b]
        = MOspin.entry [i, j, (mkState ndocc H0 npC MOspin).nocc + a,
            (mkState ndocc H0 npC MOspin).nocc + b]
          / (mkState ndocc H0 npC MOspin).Dijab.entry [i, j, a, b] := by
  refine ⟨⟨rfl, fun idx => rfl⟩, rfl, fun i j a b hi hj ha hb => ?_⟩
  set st := mkState ndocc H0 npC MOspin with hst
  have hsh : (sliceT MOspin [(0, st.nocc), (0, st.nocc), (st.nocc, st.nvirt),
      (st.nocc, st.nvirt)]).shape = st.Dijab.shape := rfl
  have h1 : st.t2.entry [i, j, a, b]
      = (sliceT MOspin [(0, st.nocc), (0, st.nocc), (st.nocc, st.nvirt),
          (st.nocc, st.nvirt)]).entry [i, j, a, b] / st.Dijab.entry [i, j, a, b] :=
    divT_entry [i, j, a, b] hsh
  rw [h1, sliceT4_entry MOspin hi hj ha hb]
  simp only [Nat.zero_add]

/-- Concrete instance for C4. -/
theorem C4_witness :
    (mkState 1 ⟨[2, 2], fun _ => (1 : ℚ)⟩ ⟨[2, 2], fun _ => 1⟩
      ⟨[4, 4, 4, 4], fun n => (n : ℚ)⟩).t1.entry [0, 0] = 0 ∧
    (mkState 1 ⟨[2, 2], fun _ => (1 : ℚ)⟩ ⟨[2, 2], fun _ => 1⟩
      ⟨[4, 4, 4, 4], fun n => (n : ℚ)⟩).t2.entry [0, 1, 0, 1]
      = (⟨[4, 4, 4, 4], fun n => (n : ℚ)⟩ : Tensor).entry [0, 1, 2, 3]
        / (mkState 1 ⟨[2, 2], fun _ => (1 : ℚ)⟩ ⟨[2, 2], fun _ => 1⟩
            ⟨[4, 4, 4, 4], fun n => (n : ℚ)⟩).Dijab.entry [0, 1, 0, 1] :=
  ⟨(C4_initial_guess 1 ⟨[2, 2], fun _ => (1 : ℚ)⟩ ⟨[2, 2], fun _ => 1⟩
      ⟨[4, 4, 4, 4], fun n => (n : ℚ)⟩).1.2 [0, 0],
   (C4_initial_guess 1 ⟨[2, 2], fun _ => (1 : ℚ)⟩ ⟨[2, 2], fun _ => 1⟩
      ⟨[4, 4, 4, 4], fun n => (n : ℚ)⟩).2.2 0 1 0 1 (by decide) (by decide)
      (by decide) (by decide)⟩

/-- **C10.** The rank-4 denominator decomposes as
`Dijab[i,j,a,b] = Dia[i,a] + Dia[j,b]`, and is symmetric under `i ↔ j` and
under `a ↔ b`. -/
theorem C10_Dijab_structure (ndocc : ℕ) (H0 npC MOspin : Tensor) :
    ∀ i j a b, i < (mkState ndocc H0 npC MOspin).nocc →
      j < (mkState ndocc H0 npC MOspin).nocc →
      a < (mkState ndocc H0 npC MOspin).nvirt →
      b < (mkState ndocc H0 npC MOspin).nvirt →
      (mkState ndocc H0 npC MOspin).Dijab.entry [i, j, a, b]
          = (mkState ndocc H0 npC MOspin).Dia.entry [i, a]
            + (mkState ndocc H0 npC MOspin).Dia.entry [j, b] ∧
      (mkState ndocc H0 npC MOspin).Dijab.entry [i, j, a, b]
          = (mkState ndocc H0 npC MOspin).Dijab.entry [j, i, a, b] ∧
      (mkState ndocc H0 npC MOspin).Dijab.entry [i, j, a, b]
          = (mkState ndocc H0 npC MOspin).Dijab.entry [i, j, b, a] := by
  intro i j a b hi hj ha hb
  set st := mkState ndocc H0 npC MOspin with hst
  refine ⟨?_, (DijabOf_sym st.nocc st.nvirt st.F hi hj ha hb).1,
    (DijabOf_sym st.nocc st.nvirt st.F hi hj ha hb).2⟩
  have h1 : st.Dijab.entry [i, j, a, b]
      = st.F.entry [i, i] + st.F.entry [j, j]
        - st.F.entry [st.nocc + a, st.nocc + a]
        - st.F.entry [st.nocc + b, st.nocc + b] :=
    DijabOf_entry st.nocc st.nvirt st.F hi hj ha hb
  have h2 : st.Dia.entry [i, a]
      = st.F.entry [i, i] - st.F.entry [st.nocc + a, st.nocc + a] :=
    DiaOf_entry st.nocc st.nvirt st.F hi ha
  have h3 : st.Dia.entry [j, b]
      = st.F.entry [j, j] - st.F.entry [st.nocc + b, st.nocc + b] :=
    DiaOf_entry st.nocc st.nvirt st.F hj hb
  rw [h1, h2, h3]
  ring

/-- Concrete instance for C10. -/
theorem C10_witness :
    (mkState 1 ⟨[2, 2], fun _ => (1 : ℚ)⟩ ⟨[2, 2], fun _ => 1⟩
      ⟨[4, 4, 4, 4], fun n => (n : ℚ)⟩).Dijab.entry [0, 1, 0, 1]
      = (mkState 1 ⟨[2, 2], fun _ => (1 : ℚ)⟩ ⟨[2, 2], fun _ => 1⟩
          ⟨[4, 4, 4, 4], fun n => (n : ℚ)⟩).Dia.entry [0, 0]
        + (mkState 1 ⟨[2, 2], fun _ => (1 : ℚ)⟩ ⟨[2, 2], fun _ => 1⟩
          ⟨[4, 4, 4, 4], fun n => (n : ℚ)⟩).Dia.entry [1, 1] :=
  ((C10_Dijab_structure 1 ⟨[2, 2], fun _ => (1 : ℚ)⟩ ⟨[2, 2], fun _ => 1⟩
    ⟨[4, 4, 4, 4], fun n => (n : ℚ)⟩) 0 1 0 1 (by decide) (by decide) (by decide)
    (by decide)).1

/-- **C3 counterexample.** The shared labels `b`, `c` of `abc,bcd->ad`
disagree in extent between the operands (3,4 on the left; 4,3 on the
right), yet `ndot` does not abort: it returns a result. -/
theorem C3_counterexample :
    (⟨[2, 3, 4], fun n => (n : ℚ)⟩ : Tensor).shape.getD 1 0
      ≠ (⟨[4, 3, 5], fun n => (n : ℚ)⟩ : Tensor).shape.getD 0 0 ∧
    (ndot "abc,bcd->ad" ⟨[2, 3, 4], fun n => (n : ℚ)⟩
      ⟨[4, 3, 5], fun n => (n : ℚ)⟩ none).isSome = true := by
  exact ⟨by decide, by decide⟩

/-- **C3.** [corrected] `ndot` performs no shared-label extent check (its
docstring says "No checks: not optimized for speed"): on mismatched extents
whose flattened sizes happen to divide out, it silently returns a
wrong-valued tensor instead of aborting — here entry `[0,0]` is `2530`,
while the generic einsum reference over the size-dict extents gives
`3250`. -/
theorem C3_silent_wrong_result :
    (⟨[2, 3, 4], fun n => (n : ℚ)⟩ : Tensor).shape.getD 1 0
      ≠ (⟨[4, 3, 5], fun n => (n : ℚ)⟩ : Tensor).shape.getD 0 0 ∧
    ((2530 : ℚ) ≠ 3250) ∧
    ∃ T, ndot "abc,bcd->ad" ⟨[2, 3, 4], fun n => (n : ℚ)⟩
        ⟨[4, 3, 5], fun n => (n : ℚ)⟩ none = some T ∧
      T.entry [0, 0] = 2530 ∧
      (einsumRef ['a', 'b', 'c'] ['b', 'c', 'd'] ['a', 'd']
        ⟨[2, 3, 4], fun n => (n : ℚ)⟩ ⟨[4, 3, 5], fun n => (n : ℚ)⟩).entry [0, 0]
        = 3250 := by
  refine ⟨by decide, by norm_num, ⟨[2, 5], fun f => ∑ t ∈ Finset.range 12,
    (⟨[2, 3, 4], fun n => (n : ℚ)⟩ : Tensor).data ((f / 5) * 12 + t)
      * (⟨[4, 3, 5], fun n => (n : ℚ)⟩ : Tensor).data (t * 5 + f % 5)⟩,
    rfl, ?_, ?_⟩
  · show (∑ t ∈ Finset.range 12,
        ((((0 : ℕ) / 5) * 12 + t : ℕ) : ℚ) * (((t * 5 + 0 % 5 : ℕ)) : ℚ)) = 2530
    norm_num [Finset.sum_range_succ]
  · show (∑ vb ∈ Finset.range 4, ∑ vc ∈ Finset.range 3,
        (((vb * 4 + (vc * 1 + 0) : ℕ)) : ℚ)
          * (((vb * 15 + (vc * 5 + (0 * 1 + 0)) : ℕ)) : ℚ)) = 3250
    norm_num [Finset.sum_range_succ]

/-! ### Slicing-accessor behaviour (C6) -/

theorem mapM_slice_none (st : CCState) (l : List Char)
    (h : ∃ c ∈ l, ¬(c = 'o' ∨ c = 'v')) : l.mapM (slice_dict st) = none := by
  induction l with
  | nil =>
    obtain ⟨c, hc, _⟩ := h
    exact absurd hc (List.not_mem_nil c)
  | cons a l ih =>
    obtain ⟨c, hc, hbad⟩ := h
    rcases List.mem_cons.mp hc with rfl | hmem
    · have h1 : slice_dict st c = none := by
        have h2 := not_or.mp hbad
        rw [slice_dict, if_neg h2.1, if_neg h2.2]
      rw [List.mapM_cons, h1]
      rfl
    · cases hsd : slice_dict st a with
      | none =>
        rw [List.mapM_cons, hsd]
        rfl
      | some x =>
        rw [List.mapM_cons, hsd, ih ⟨c, hmem, hbad⟩]
        rfl

theorem mapM_slice_some (st : CCState) (l : List Char)
    (h : ∀ c ∈ l, c = 'o' ∨ c = 'v') :
    l.mapM (slice_dict st)
      = some (l.map fun c => if c = 'o' then ((0 : ℕ), st.nocc)
          else (st.nocc, st.nvirt)) := by
  induction l with
  | nil => rfl
  | cons a l ih =>
    have h1 : slice_dict st a
        = some (if a = 'o' then ((0 : ℕ), st.nocc) else (st.nocc, st.nvirt)) := by
      rcases h a (List.mem_cons_self a l) with rfl | rfl <;> rfl
    rw [List.mapM_cons, h1, ih (fun c hc => h c (List.mem_cons_of_mem a hc))]
    rfl

/-- **C6.** [corrected] The accessors fail exactly on invalid label strings
— but not with the spec's `InvalidLabel` failure: a wrong-length string
crashes in `self.psi.clean()` with `AttributeError` (the instance has no
`psi` attribute, so the intended `raise Exception` is unreachable; `get_F`'s
message even says "4 elements" for its 2-character check), and a bad
character raises `KeyError` from the `slice_dict` lookup.  On every
well-formed string the corresponding occupied/virtual sub-block is
returned. -/
theorem C6_accessor_errors (st : CCState) (s : String) :
    (s.length ≠ 4 → get_MO st s = .error PyErr.attributeError) ∧
    (s.length = 4 → (∃ c ∈ s.toList, ¬(c = 'o' ∨ c = 'v')) →
      get_MO st s = .error PyErr.keyError) ∧
    (s.length = 4 → (∀ c ∈ s.toList, c = 'o' ∨ c = 'v') →
      get_MO st s = .ok (sliceT st.MO (s.toList.map fun c =>
        if c = 'o' then ((0 : ℕ), st.nocc) else (st.nocc, st.nvirt)))) ∧
    (s.length ≠ 2 → get_F st s = .error PyErr.attributeError) ∧
    (s.length = 2 → (∃ c ∈ s.toList, ¬(c = 'o' ∨ c = 'v')) →
      get_F st s = .error PyErr.keyError) ∧
    (s.length = 2 → (∀ c ∈ s.toList, c = 'o' ∨ c = 'v') →
      get_F st s = .ok (sliceT st.F (s.toList.map fun c =>
        if c = 'o' then ((0 : ℕ), st.nocc) else (st.nocc, st.nvirt)))) := by
  refine ⟨fun h => ?_, fun h hbad => ?_, fun h hok => ?_,
    fun h => ?_, fun h hbad => ?_, fun h hok => ?_⟩
  · rw [get_MO, if_pos h]
  · rw [get_MO, if_neg (not_not_intro h), mapM_slice_none st s.toList hbad]
  · rw [get_MO, if_neg (not_not_intro h), mapM_slice_some st s.toList hok]
  · rw [get_F, if_pos h]
  · rw [get_F, if_neg (not_not_intro h), mapM_slice_none st s.toList hbad]
  · rw [get_F, if_neg (not_not_intro h), mapM_slice_some st s.toList hok]

/-- **C6 counterexample.** The failures are real Python crashes, not the
spec's `InvalidLabel` failure: a 3-character string gives `AttributeError`
(not the intended exception), a bad character gives `KeyError`. -/
theorem C6_counterexample :
    get_MO (mkState 1 ⟨[2, 2], fun _ => 0⟩ ⟨[2, 2], fun _ => 0⟩
      ⟨[4, 4, 4, 4], fun _ => 0⟩) "ooo" = .error PyErr.attributeError ∧
    get_MO (mkState 1 ⟨[2, 2], fun _ => 0⟩ ⟨[2, 2], fun _ => 0⟩
      ⟨[4, 4, 4, 4], fun _ => 0⟩) "ooxv" = .error PyErr.keyError ∧
    get_F (mkState 1 ⟨[2, 2], fun _ => 0⟩ ⟨[2, 2], fun _ => 0⟩
      ⟨[4, 4, 4, 4], fun _ => 0⟩) "ooo" = .error PyErr.attributeError :=
  ⟨rfl, rfl, rfl⟩

/-- Concrete instance for C6. -/
theorem C6_witness :
    get_MO (mkState 1 ⟨[2, 2], fun _ => 0⟩ ⟨[2, 2], fun _ => 0⟩
      ⟨[4, 4, 4, 4], fun _ => 0⟩) "oo" = .error PyErr.attributeError ∧
    get_MO (mkState 1 ⟨[2, 2], fun _ => 0⟩ ⟨[2, 2], fun _ => 0⟩
      ⟨[4, 4, 4, 4], fun _ => 0⟩) "oxvv" = .error PyErr.keyError ∧
    get_MO (mkState 1 ⟨[2, 2], fun _ => 0⟩ ⟨[2, 2], fun _ => 0⟩
        ⟨[4, 4, 4, 4], fun _ => 0⟩) "oovv"
      = .ok (sliceT (mkState 1 ⟨[2, 2], fun _ => 0⟩ ⟨[2, 2], fun _ => 0⟩
          ⟨[4, 4, 4, 4], fun _ => 0⟩).MO
        ("oovv".toList.map fun c =>
          if c = 'o' then ((0 : ℕ),
            (mkState 1 ⟨[2, 2], fun _ => 0⟩ ⟨[2, 2], fun _ => 0⟩
              ⟨[4, 4, 4, 4], fun _ => 0⟩).nocc)
          else ((mkState 1 ⟨[2, 2], fun _ => 0⟩ ⟨[2, 2], fun _ => 0⟩
              ⟨[4, 4, 4, 4], fun _ => 0⟩).nocc,
            (mkState 1 ⟨[2, 2], fun _ => 0⟩ ⟨[2, 2], fun _ => 0⟩
              ⟨[4, 4, 4, 4], fun _ => 0⟩).nvirt))) :=
  ⟨(C6_accessor_errors (mkState 1 ⟨[2, 2], fun _ => 0⟩ ⟨[2, 2], fun _ => 0⟩
      ⟨[4, 4, 4, 4], fun _ => 0⟩) "oo").1 (by decide),
   (C6_accessor_errors (mkState 1 ⟨[2, 2], fun _ => 0⟩ ⟨[2, 2], fun _ => 0⟩
      ⟨[4, 4, 4, 4], fun _ => 0⟩) "oxvv").2.1 (by decide)
     ⟨'x', by decide, by decide⟩,
   (C6_accessor_errors (mkState 1 ⟨[2, 2], fun _ => 0⟩ ⟨[2, 2], fun _ => 0⟩
      ⟨[4, 4, 4, 4], fun _ => 0⟩) "oovv").2.2.1 (by decide) (by decide)⟩

/-- **C7.** `compute_corr_energy` returns exactly
`Σ F_ov·t1 + ¼ Σ MO_oovv·t2 + ½ Σ MO_oovv·t1·t1` over the occupied and
virtual index ranges (the blocks resolved to raw `F`/`MO` entries); it is a
pure read of the state. -/
theorem C7_energy_formula (st : CCState) :
    compute_corr_energy st =
      (∑ i ∈ Finset.range st.nocc, ∑ a ∈ Finset.range st.nvirt,
        st.F.entry [i, st.nocc + a] * st.t1.entry [i, a])
      + (1/4) * (∑ i ∈ Finset.range st.nocc, ∑ j ∈ Finset.range st.nocc,
          ∑ a ∈ Finset.range st.nvirt, ∑ b ∈ Finset.range st.nvirt,
            st.MO.entry [i, j, st.nocc + a, st.nocc + b] * st.t2.entry [i, j, a, b])
      + (1/2) * (∑ i ∈ Finset.range st.nocc, ∑ j ∈ Finset.range st.nocc,
          ∑ a ∈ Finset.range st.nvirt, ∑ b ∈ Finset.range st.nvirt,
            st.MO.entry [i, j, st.nocc + a, st.nocc + b]
              * st.t1.entry [i, a] * st.t1.entry [j, b]) := by
  have hF : ∀ i a, i < st.nocc → a < st.nvirt →
      (getFd st "ov").entry [i, a] = st.F.entry [i, st.nocc + a] := by
    intro i a hi ha
    have hbl : getFd st "ov" = sliceT st.F [(0, st.nocc), (st.nocc, st.nvirt)] := rfl
    rw [hbl, sliceT2_entry st.F hi ha]
    simp only [Nat.zero_add]
  simp only [compute_corr_energy]
  congr 1
  · congr 1
    · refine Finset.sum_congr rfl fun i hi => Finset.sum_congr rfl fun a ha => ?_
      rw [hF i a (Finset.mem_range.mp hi) (Finset.mem_range.mp ha)]
    · refine congrArg (fun x : ℚ => (1/4) * x) ?_
      refine Finset.sum_congr rfl fun i hi => Finset.sum_congr rfl fun j hj => ?_
      refine Finset.sum_congr rfl fun a ha => Finset.sum_congr rfl fun b hb => ?_
      rw [MOoovv_entry st (Finset.mem_range.mp hi) (Finset.mem_range.mp hj)
        (Finset.mem_range.mp ha) (Finset.mem_range.mp hb)]
  · refine congrArg (fun x : ℚ => (1/2) * x) ?_
    refine Finset.sum_congr rfl fun i hi => Finset.sum_congr rfl fun j hj => ?_
    refine Finset.sum_congr rfl fun a ha => Finset.sum_congr rfl fun b hb => ?_
    rw [MOoovv_entry st (Finset.mem_range.mp hi) (Finset.mem_range.mp hj)
      (Finset.mem_range.mp ha) (Finset.mem_range.mp hb)]

end HelperCC
